import Mathlib

/-!
Verification of the ShellGeist safe-edit pipeline.

This file gives a shallow embedding, in Lean 4, of the core of the
ShellGeist repository (the unified-diff applier `diff/apply.py`, the
content guards `diff/guards.py`, the JSON salvager `util_json.py`, and
the edit driver `tools/coder.py`), and settles a list of claims about
that code.

Modelling conventions:
* Python `str` values are modelled as `List Char` (`Str` below).  All
  text manipulation is re-implemented faithfully on `List Char`
  following the Python source, including Python's universal-newlines
  `str.splitlines` semantics.
* Python floats (`difflib` ratios) are modelled as exact rationals.
* External effects (filesystem reads/writes, the language-model HTTP
  call, `git`, `compile()`) are abstracted: file contents and model
  responses are explicit parameters, writes are returned as data, the
  Python-syntax probe is an oracle parameter.
* Fallible Python code that raises is modelled with `Except`/`Option`;
  the distinct `raise` sites of `PatchApplyError` are modelled as
  constructors of an inductive error type, with their message strings
  recoverable through `PatchError.message`.
-/

set_option maxRecDepth 20000

/-- Python `str` is modelled as a list of characters. -/
abbrev Str := List Char

/-- Coerce a Lean string literal to the `Str` model. -/
def S (s : String) : Str := s.data

/-- Characters that Python `str.splitlines` treats as line boundaries
(together with the two-character boundary `"\r\n"`). -/
def isLineBreak (c : Char) : Bool :=
  c = '\n' || c = '\r' || c = '\x0b' || c = '\x0c' ||
  c = '\x1c' || c = '\x1d' || c = '\x1e' || c = '\u0085' ||
  c = '\u2028' || c = '\u2029'

/-- Worker for `pySplitKeep`: `acc` is the (reversed-not) current line
prefix collected so far. -/
def pySplitKeepGo (acc : Str) : Str → List Str
  | [] => if acc = [] then [] else [acc]
  | c :: rest =>
      if c = '\r' then
        match rest with
        | [] => [acc ++ ['\r']]
        | c2 :: rest2 =>
            if c2 = '\n' then (acc ++ ['\r', '\n']) :: pySplitKeepGo [] rest2
            else (acc ++ ['\r']) :: pySplitKeepGo [] (c2 :: rest2)
      else if isLineBreak c then (acc ++ [c]) :: pySplitKeepGo [] rest
      else pySplitKeepGo (acc ++ [c]) rest

/-- Python `s.splitlines(keepends=True)`. -/
def pySplitKeep (s : Str) : List Str := pySplitKeepGo [] s

/-- Remove one trailing line terminator (`"\r\n"` or a single break
character) from a line. -/
def dropLineEnd (l : Str) : Str :=
  match l.reverse with
  | [] => l
  | c :: r =>
      if c = '\n' then
        match r with
        | c2 :: r2 => if c2 = '\r' then r2.reverse else r.reverse
        | [] => r.reverse
      else if isLineBreak c then r.reverse else l

/-- Python `s.splitlines()` (without keepends). -/
def pySplitLines (s : Str) : List Str := (pySplitKeep s).map dropLineEnd

/-- Python slice `a[i:j]` on lists. -/
def seg (a : List α) (i j : Nat) : List α := (a.drop i).take (j - i)

/-- Python `s.startswith(p)`. -/
def pyStartsWith (s p : Str) : Bool := p.isPrefixOf s

/-- Python `s.endswith(p)`. -/
def pyEndsWith (s p : Str) : Bool := p.isSuffixOf s

/-- Python substring containment `needle in hay`. -/
def pySubstr (needle hay : Str) : Bool :=
  match hay with
  | [] => needle.isPrefixOf []
  | _ :: rest => needle.isPrefixOf hay || pySubstr needle rest

/-- Characters accepted by Python `str.isspace` / stripped by
`str.strip()`; also used for the `\s` class of the `re` patterns in the
source (ASCII whitespace, the C1 separator block, and the common Unicode
space characters). -/
def pyIsSpace (c : Char) : Bool :=
  c = ' ' || c = '\t' || c = '\n' || c = '\r' || c = '\x0b' || c = '\x0c' ||
  c = '\x1c' || c = '\x1d' || c = '\x1e' || c = '\u0085' || c = '\u00A0' ||
  c = '\u1680' || ('\u2000' ≤ c && c ≤ '\u200A') || c = '\u2028' ||
  c = '\u2029' || c = '\u202F' || c = '\u205F' || c = '\u3000'

/-- Python `s.lstrip()`. -/
def pyLstrip (s : Str) : Str := s.dropWhile pyIsSpace

/-- Python `s.rstrip()`. -/
def pyRstrip (s : Str) : Str := (s.reverse.dropWhile pyIsSpace).reverse

/-- Python `s.strip()`. -/
def pyStrip (s : Str) : Str := pyRstrip (pyLstrip s)

/-- Python `sep.join(xs)`. -/
def pyJoin (sep : Str) : List Str → Str
  | [] => []
  | [x] => x
  | x :: y :: rest => x ++ sep ++ pyJoin sep (y :: rest)

/-- Python `s.split(sep)` for a one-character separator (keeps empty
pieces, as Python does). -/
def pySplitOn (sepc : Char) (s : Str) : List Str :=
  match s with
  | [] => [[]]
  | c :: rest =>
      if c = sepc then [] :: pySplitOn sepc rest
      else
        match pySplitOn sepc rest with
        | [] => [[c]]
        | h :: t => (c :: h) :: t

/-- Python `s.replace(a, b)` for single characters is just `List.map`;
`s.replace("\r\n", "\n")` needs the two-character scan below. -/
def pyReplaceCRLF : Str → Str
  | [] => []
  | [c] => [c]
  | c1 :: c2 :: rest =>
      if c1 = '\r' ∧ c2 = '\n' then '\n' :: pyReplaceCRLF rest
      else c1 :: pyReplaceCRLF (c2 :: rest)

/-- Python `s.replace("\r", "\n")`. -/
def pyReplaceCR (s : Str) : Str := s.map (fun c => if c = '\r' then '\n' else c)

/-- ASCII case folding used for the `.lower()` comparisons in the
source (the compared targets are all ASCII). -/
def pyLowerChar (c : Char) : Char :=
  if 'A' ≤ c ∧ c ≤ 'Z' then Char.ofNat (c.toNat + 32) else c

/-- Python `s.lower()` (ASCII fragment). -/
def pyLower (s : Str) : Str := s.map pyLowerChar

-- ==========================================================================
-- diff/apply.py
-- ==========================================================================

/-- The distinct `raise PatchApplyError(...)` sites of
`apply_unified_diff` in `diff/apply.py`, as an inductive error type.
Message text is recovered by `PatchError.message`. -/
inductive PatchError : Type where
  | noHunks : PatchError
  | invalidHunkHeader (h : Str) : PatchError
  | targetBefore : PatchError
  | contextEOF : PatchError
  | contextMismatch : PatchError
  | deleteEOF : PatchError
  | deleteMismatch : PatchError
  | invalidHunkLine (l : Str) : PatchError
  | emptyHunkBody : PatchError
deriving DecidableEq, Repr

/-- The `str(e)` message of each raise site (for the parameterised
constructors, the static message prefix; the Python source appends a
`repr` of the offending line, which carries no program logic). -/
def PatchError.message : PatchError → Str
  | .noHunks => S "Invalid patch: no hunks found"
  | .invalidHunkHeader _ => S "Invalid hunk header: "
  | .targetBefore => S "Patch context out of range (target before current index)"
  | .contextEOF => S "Patch context out of range (EOF)"
  | .contextMismatch => S "Patch context mismatch"
  | .deleteEOF => S "Patch delete out of range (EOF)"
  | .deleteMismatch => S "Patch delete mismatch"
  | .invalidHunkLine _ => S "Invalid hunk line: "
  | .emptyHunkBody => S "Empty hunk body"

instance {ε α : Type _} [DecidableEq ε] [DecidableEq α] : DecidableEq (Except ε α) := fun x y =>
  match x, y with
  | .ok a, .ok b =>
      if h : a = b then isTrue (by rw [h]) else isFalse (fun hc => h (Except.ok.inj hc))
  | .error a, .error b =>
      if h : a = b then isTrue (by rw [h]) else isFalse (fun hc => h (Except.error.inj hc))
  | .ok _, .error _ => isFalse (fun hc => Except.noConfusion hc)
  | .error _, .ok _ => isFalse (fun hc => Except.noConfusion hc)

/-- Consume one-or-more `\s` characters (the `\s+` of `_HUNK_RE`). -/
def pWs1 : Str → Option Str
  | c :: rest => if pyIsSpace c then some (rest.dropWhile pyIsSpace) else none
  | [] => none

/-- Consume one-or-more decimal digits (the `(\d+)` of `_HUNK_RE`),
returning their value (`int(...)`). -/
def pDigits1 (s : Str) : Option (Nat × Str) :=
  let ds := s.takeWhile Char.isDigit
  if ds = [] then none
  else some (ds.foldl (fun n c => n * 10 + (c.toNat - '0'.toNat)) 0, s.dropWhile Char.isDigit)

/-- Consume the optional `(?:,(\d+))?` part of `_HUNK_RE`.  Mirrors
regex backtracking: if a comma is not followed by digits the optional
group matches empty. -/
def pOptCommaDigits (s : Str) : Str :=
  match s with
  | ',' :: rest => match pDigits1 rest with
      | some (_, r) => r
      | none => s
  | _ => s

/-- The regex `_HUNK_RE =
`^@@\s+-(\d+)(?:,(\d+))?\s+\+(\d+)(?:,(\d+))?\s+@@$``, matched against
the stripped header, returning `int(m.group(1))` (`old_start`; the other
groups are never consumed by the applier). -/
def parseHunkHeader (s : Str) : Option Nat :=
  match s with
  | '@' :: '@' :: r0 =>
    match pWs1 r0 with
    | none => none
    | some r1 =>
      match r1 with
      | '-' :: r2 =>
        match pDigits1 r2 with
        | none => none
        | some (n1, r3) =>
          let r4 := pOptCommaDigits r3
          match pWs1 r4 with
          | none => none
          | some r5 =>
            match r5 with
            | '+' :: r6 =>
              match pDigits1 r6 with
              | none => none
              | some (_, r7) =>
                let r8 := pOptCommaDigits r7
                match pWs1 r8 with
                | none => none
                | some r9 => if r9 = ['@', '@'] then some n1 else none
            | _ => none
      | _ => none
  | _ => none

/-- Parsing and `target_old_idx` computation for one hunk header of
`apply_unified_diff`: `max(0, old_start - 1)` (truncated subtraction on
`Nat`), clamped to EOF. -/
def hunkTarget (oldLen : Nat) (header : Str) : Except PatchError Nat :=
  match parseHunkHeader (pyStrip header) with
  | none => .error (.invalidHunkHeader (pyStrip header))
  | some oldStart =>
      let t0 := oldStart - 1
      .ok (if oldLen < t0 then oldLen else t0)

/-- The hunk-application loop of `apply_unified_diff`, fused into a
single pass over the diff's remaining lines (Python uses an outer
header loop with an inner body loop over the same index `i`; the fused
pass visits the lines in the identical order, and the dead
`expected hunk header` raise of the outer loop — unreachable because
the inner loop only stops at `"@@"` lines — is dropped).  State:
`old_idx`, the output buffer, and the `hunk_lines` counter of the hunk
currently open. -/
def applyGo (oldLines : List Str) :
    List Str → Nat → List Str → Nat → Except PatchError (List Str)
  | [], oldIdx, out, cnt =>
      if cnt = 0 then .error .emptyHunkBody else .ok (out ++ oldLines.drop oldIdx)
  | ln :: rest, oldIdx, out, cnt =>
      if pyStartsWith ln (S "@@") then
        if cnt = 0 then .error .emptyHunkBody
        else
          match hunkTarget oldLines.length ln with
          | .error e => .error e
          | .ok target =>
              if target < oldIdx then .error .targetBefore
              else applyGo oldLines rest target (out ++ seg oldLines oldIdx target) 0
      else if pyStartsWith ln (S "\\") then applyGo oldLines rest oldIdx out cnt
      else if pyStartsWith ln (S " ") then
        if oldLines.length ≤ oldIdx then .error .contextEOF
        else if oldLines.getD oldIdx [] ≠ ln.drop 1 then .error .contextMismatch
        else applyGo oldLines rest (oldIdx + 1) (out ++ [oldLines.getD oldIdx []]) (cnt + 1)
      else if pyStartsWith ln (S "-") then
        if oldLines.length ≤ oldIdx then .error .deleteEOF
        else if oldLines.getD oldIdx [] ≠ ln.drop 1 then .error .deleteMismatch
        else applyGo oldLines rest (oldIdx + 1) out (cnt + 1)
      else if pyStartsWith ln (S "+") then
        applyGo oldLines rest oldIdx (out ++ [ln.drop 1]) (cnt + 1)
      else .error (.invalidHunkLine ln)

/-- `apply_unified_diff(old, diff)` from `diff/apply.py`. -/
def applyUnifiedDiff (old diff : Str) : Except PatchError Str :=
  let oldLines := pySplitKeep old
  let lines := (pySplitKeep diff).dropWhile (fun l => ¬ pyStartsWith l (S "@@"))
  match lines with
  | [] => .error .noHunks
  | header :: rest =>
      match hunkTarget oldLines.length header with
      | .error e => .error e
      | .ok target =>
          (applyGo oldLines rest target (seg oldLines 0 target) 0).map
            (fun out => out.flatten)

example : applyUnifiedDiff (S "") (S "@@ -0,0 +1,1 @@\n+hello\n") = .ok (S "hello\n") := by decide

example : applyUnifiedDiff (S "a\nb\n") (S "@@ -1,2 +1,2 @@\n a\n-BOOM\n+b\n")
    = .error .deleteMismatch := by decide

-- ==========================================================================
-- tools/coder.py : diff normalization (_normalize_unified_diff)
-- ==========================================================================

/-- `_NOISE_PREFIXES = ("diff --git ", "index ", "--- ", "+++ ")`. -/
def noisePrefixes : List Str :=
  [S "diff --git ", S "index ", S "--- ", S "+++ "]

/-- The `\s+([+\- ].*)$` tail of `_HUNK_INLINE_OP_RE`, with regex
backtracking semantics: the greedy `\s+` yields back at most one space
so that `[+\- ]` can match.  Returns `group(2)` on success. -/
def inlineOpTail (r : Str) : Option Str :=
  let W := (r.takeWhile pyIsSpace).length
  if W = 0 then none
  else if W < r.length then
    if r.getD W ' ' = '+' ∨ r.getD W ' ' = '-' then some (r.drop W)
    else if 2 ≤ W then some (r.drop (W - 1))
    else none
  else if 2 ≤ W then some (r.drop (W - 1))
  else none

/-- Find the greedy (longest) split of `line` as
`(@@.*@@)` ++ `\s+([+\- ].*)`, trying prefix length `p` downwards.
Mirrors the regex engine's backtracking over the greedy `.*`. -/
def inlineOpFind (line : Str) : Nat → Option (Str × Str)
  | 0 => none
  | p + 1 =>
      let pre := line.take (p + 1)
      if 4 ≤ p + 1 ∧ pyEndsWith pre (S "@@") then
        match inlineOpTail (line.drop (p + 1)) with
        | some g2 => some (pre, g2)
        | none => inlineOpFind line p
      else inlineOpFind line p

/-- `_HUNK_INLINE_OP_RE = re.compile(r"^(@@.*@@)\s+([+\- ].*)$")`
matched against a (newline-free) line; returns the two groups. -/
def inlineOpSplit (line : Str) : Option (Str × Str) :=
  if pyStartsWith line (S "@@") then inlineOpFind line line.length else none

/-- One line's contribution to the normalized diff: noise lines are
dropped, inline hunk-header/op lines are split in two, others kept. -/
def normLine (raw : Str) : List Str :=
  if noisePrefixes.any (fun p => pyStartsWith raw p) then []
  else
    match inlineOpSplit raw with
    | some (g1, g2) => [g1, g2]
    | none => [raw]

/-- The final `if not norm.endswith("\n"): norm += "\n"` step of
`_normalize_unified_diff`. -/
def normEnsureNL (norm : Str) : Str :=
  if pyEndsWith norm (S "\n") then norm else norm ++ S "\n"

/-- `_normalize_unified_diff(diff)` from `tools/coder.py` (the
`isinstance` guard is vacuous in the model, where the argument is
always a string). -/
def normalizeUnifiedDiff (diff : Str) : Str :=
  normEnsureNL (pyJoin (S "\n")
    (((pySplitOn '\n' (pyReplaceCR (pyReplaceCRLF diff))).map normLine).flatten))

-- ==========================================================================
-- tools/coder.py : _validate_diff_for_empty_old
-- ==========================================================================

/-- The scanning loop of `_validate_diff_for_empty_old`, with state
`(in_hunk, saw_plus)`. -/
def validateEmptyOldGo : List Str → Bool → Bool → Bool × Str
  | [], inHunk, sawPlus =>
      if inHunk ∧ ¬ sawPlus then (false, S "empty_hunk")
      else if ¬ inHunk then (false, S "no_hunks")
      else (true, S "")
  | ln :: rest, inHunk, sawPlus =>
      if pyStartsWith ln (S "@@") then validateEmptyOldGo rest true sawPlus
      else if ¬ inHunk then validateEmptyOldGo rest inHunk sawPlus
      else if pyStartsWith ln (S "\\") ∨ ln = [] then validateEmptyOldGo rest inHunk sawPlus
      else if pyStartsWith ln (S " ") then (false, S "context_lines")
      else if pyStartsWith ln (S "-") then (false, S "deletions")
      else if pyStartsWith ln (S "+") then validateEmptyOldGo rest inHunk true
      else (false, S "invalid_line")

/-- `_validate_diff_for_empty_old(diff)` from `tools/coder.py`. -/
def validateDiffForEmptyOld (diff : Str) : Bool × Str :=
  validateEmptyOldGo (pySplitLines diff) false false

-- ==========================================================================
-- Claim C3 (context-mismatch scenario)
-- ==========================================================================

/-- C3, counterexample: applying the diff `"@@ -1,2 +1,2 @@\n a\n-BOOM\n+b\n"`
to `"a\nb\n"` does fail, but at the `-BOOM` **delete** line, so the raise
site is the delete-mismatch one (message `"Patch delete mismatch"`), not
the context-mismatch one claimed by the spec. -/
theorem c3_counterexample :
    applyUnifiedDiff (S "a\nb\n") (S "@@ -1,2 +1,2 @@\n a\n-BOOM\n+b\n")
      = .error .deleteMismatch
    ∧ PatchError.deleteMismatch ≠ PatchError.contextMismatch := by
  decide

/-- C3, amended: applying the diff `"@@ -1,2 +1,2 @@\n a\n-BOOM\n+b\n"` to
`"a\nb\n"` fails with a `PatchApplyError` raised at the delete-mismatch
site, whose message is `"Patch delete mismatch"`. -/
theorem c3_amended_delete_mismatch :
    applyUnifiedDiff (S "a\nb\n") (S "@@ -1,2 +1,2 @@\n a\n-BOOM\n+b\n")
      = .error .deleteMismatch
    ∧ PatchError.message .deleteMismatch = S "Patch delete mismatch" := by
  decide

-- ==========================================================================
-- Claim C2 (apply ∘ normalize = apply)
-- ==========================================================================

/-- C2, counterexample: normalization rewrites `"\r\n"` to `"\n"`, so on
the insertion-only diff `"@@ -0,0 +1,1 @@\n+x\r\n"` over `old = ""` both
the raw and the normalized diff apply successfully but produce different
strings (`"x\r\n"` vs `"x\n"`). -/
theorem c2_counterexample :
    applyUnifiedDiff (S "") (S "@@ -0,0 +1,1 @@\n+x\r\n") = .ok (S "x\r\n")
    ∧ applyUnifiedDiff (S "") (normalizeUnifiedDiff (S "@@ -0,0 +1,1 @@\n+x\r\n"))
        = .ok (S "x\n")
    ∧ (S "x\r\n") ≠ (S "x\n") := by
  decide

theorem replaceCRLF_eq_self {s : Str} (h : '\r' ∉ s) : pyReplaceCRLF s = s := by
  induction s with
  | nil => rfl
  | cons c rest ih =>
      have hc : c ≠ '\r' := fun hh => h (hh ▸ List.mem_cons_self _ _)
      have hrest : '\r' ∉ rest := fun hm => h (List.mem_cons_of_mem _ hm)
      match rest with
      | [] => rfl
      | c2 :: rest2 =>
          rw [pyReplaceCRLF]
          rw [if_neg (by exact fun hand => hc hand.1)]
          rw [ih hrest]

theorem replaceCR_eq_self {s : Str} (h : '\r' ∉ s) : pyReplaceCR s = s := by
  unfold pyReplaceCR
  conv_rhs => rw [show s = s.map id from (List.map_id s).symm]
  apply List.map_congr_left
  intro c hcmem
  have : c ≠ '\r' := fun hh => h (hh ▸ hcmem)
  simp [this, id]

theorem pySplitOn_ne_nil (sep : Char) (s : Str) : pySplitOn sep s ≠ [] := by
  cases s with
  | nil => simp [pySplitOn]
  | cons c rest =>
      unfold pySplitOn
      split
      · simp
      · split <;> simp

theorem pyJoin_cons_head (sep : Str) (c : Char) (h : Str) (t : List Str) :
    pyJoin sep ((c :: h) :: t) = c :: pyJoin sep (h :: t) := by
  cases t <;> simp [pyJoin]

theorem join_splitOn_nl (s : Str) : pyJoin (S "\n") (pySplitOn '\n' s) = s := by
  induction s with
  | nil => rfl
  | cons c rest ih =>
      by_cases hc : c = '\n'
      · subst hc
        rw [pySplitOn]
        simp only [if_pos rfl]
        cases hsplit : pySplitOn '\n' rest with
        | nil => exact absurd hsplit (pySplitOn_ne_nil _ _)
        | cons h t =>
            rw [hsplit] at ih
            show pyJoin (S "\n") ([] :: h :: t) = '\n' :: rest
            rw [pyJoin]
            simp only [List.nil_append]
            rw [show S "\n" = ['\n'] from rfl]
            simpa using congrArg (fun x => '\n' :: x) ih
      · rw [pySplitOn]
        simp only [if_neg hc]
        cases hsplit : pySplitOn '\n' rest with
        | nil => exact absurd hsplit (pySplitOn_ne_nil _ _)
        | cons h t =>
            rw [hsplit] at ih
            show pyJoin (S "\n") ((c :: h) :: t) = c :: rest
            rw [pyJoin_cons_head]
            exact congrArg (fun x => c :: x) ih

theorem flatten_map_of_singleton {f : Str → List Str} {l : List Str}
    (h : ∀ x ∈ l, f x = [x]) : (l.map f).flatten = l := by
  induction l with
  | nil => rfl
  | cons x rest ih =>
      simp only [List.map, List.flatten, h x (List.mem_cons_self _ _)]
      rw [ih (fun y hy => h y (List.mem_cons_of_mem _ hy))]
      rfl

/-- C2, amended: normalization changes the outcome of the applier only
through its four rewrites (CR/CRLF conversion, noise-line dropping,
inline hunk-header splitting, trailing-newline completion).  For every
diff on which all four are inert — no `'\r'`, a trailing `"\n"`, no line
beginning with a noise prefix, no hunk-header line carrying a trailing
body operation — normalization is the identity, and hence
`apply(old, normalize(diff)) = apply(old, diff)` for every `old`. -/
theorem c2_amended_normalize_preserves_apply (old diff : Str)
    (hcr : '\r' ∉ diff)
    (hnl : pyEndsWith diff (S "\n") = true)
    (hlines : ∀ l ∈ pySplitOn '\n' diff,
        (noisePrefixes.any (fun p => pyStartsWith l p)) = false ∧ inlineOpSplit l = none) :
    normalizeUnifiedDiff diff = diff
    ∧ applyUnifiedDiff old (normalizeUnifiedDiff diff) = applyUnifiedDiff old diff := by
  have hid : normalizeUnifiedDiff diff = diff := by
    unfold normalizeUnifiedDiff
    rw [replaceCRLF_eq_self hcr, replaceCR_eq_self hcr]
    rw [flatten_map_of_singleton (f := normLine) (l := pySplitOn '\n' diff)
      (by
        intro l hl
        have hh := hlines l hl
        unfold normLine
        rw [hh.1]
        simp only [Bool.false_eq_true, if_false]
        rw [hh.2])]
    rw [join_splitOn_nl]
    unfold normEnsureNL
    rw [if_pos hnl]
  exact ⟨hid, by rw [hid]⟩

/-- C2 witness: a concrete already-canonical diff on which the amended
theorem applies and both sides evaluate. -/
theorem c2_amended_witness :
    normalizeUnifiedDiff (S "@@ -1,1 +1,1 @@\n-a\n+b\n") = S "@@ -1,1 +1,1 @@\n-a\n+b\n"
    ∧ applyUnifiedDiff (S "a\n") (normalizeUnifiedDiff (S "@@ -1,1 +1,1 @@\n-a\n+b\n"))
        = applyUnifiedDiff (S "a\n") (S "@@ -1,1 +1,1 @@\n-a\n+b\n") :=
  c2_amended_normalize_preserves_apply (S "a\n") (S "@@ -1,1 +1,1 @@\n-a\n+b\n")
    (by decide) (by decide) (by decide)

-- ==========================================================================
-- difflib.SequenceMatcher (stdlib), as used by the source: isjunk=None,
-- autojunk=True.  Needed for similarity ratios and for difflib.unified_diff.
-- ==========================================================================

/-- Association-list lookup (Python `dict.get`). -/
def assocFind [DecidableEq α] (m : List (α × β)) (k : α) : Option β :=
  match m with
  | [] => none
  | (k', v) :: rest => if k' = k then some v else assocFind rest k

/-- Replace the value stored under `k` (must be present). -/
def assocSet [DecidableEq α] (m : List (α × β)) (k : α) (v : β) : List (α × β) :=
  m.map (fun p => if p.1 = k then (k, v) else p)

/-- `__chain_b`'s index map before autojunk: for each element of `b`,
the ascending list of its positions (Python dict insertion order). -/
def b2jRawGo [DecidableEq α] (i : Nat) (m : List (α × List Nat)) : List α → List (α × List Nat)
  | [] => m
  | x :: rest =>
      match assocFind m x with
      | some l => b2jRawGo (i + 1) (assocSet m x (l ++ [i])) rest
      | none => b2jRawGo (i + 1) (m ++ [(x, [i])]) rest

/-- `b2j` of `SequenceMatcher` with `isjunk=None` (so `bjunk` is empty)
and `autojunk=True`: for `len(b) >= 200`, "popular" elements (more than
`n // 100 + 1` occurrences) are dropped from the map. -/
def b2j [DecidableEq α] (b : List α) : List (α × List Nat) :=
  let m := b2jRawGo 0 [] b
  if 200 ≤ b.length then m.filter (fun p => p.2.length ≤ b.length / 100 + 1) else m

/-- `j2len.get(j - 1, 0)` (where `j - 1 = -1` for `j = 0` finds nothing). -/
def j2lenGet (m : List (Nat × Nat)) (j : Nat) : Nat := (assocFind m j).getD 0

/-- The inner `for j in b2j.get(a[i], nothing)` loop of
`find_longest_match`: skips `j < blo`, breaks at `j >= bhi`, extends
`newj2len` and the running best.  `prev` is the previous row's `j2len`.
-/
def flmInner (blo bhi i : Nat) (prev : List (Nat × Nat)) :
    List Nat → List (Nat × Nat) → (Nat × Nat × Nat) → (List (Nat × Nat)) × (Nat × Nat × Nat)
  | [], acc, best => (acc, best)
  | j :: js, acc, best =>
      if j < blo then flmInner blo bhi i prev js acc best
      else if bhi ≤ j then (acc, best)
      else
        let k := (if j = 0 then 0 else j2lenGet prev (j - 1)) + 1
        -- Python's `i-k+1` / `j-k+1` (nonnegative since `k ≤ i+1`,
        -- `k ≤ j+1`); written `i+1-k` to avoid `Nat` truncation.
        let best' := if best.2.2 < k then (i + 1 - k, j + 1 - k, k) else best
        flmInner blo bhi i prev js (acc ++ [(j, k)]) best'

/-- The outer `for i in range(alo, ahi)` loop of `find_longest_match`;
`cnt` counts the remaining rows. -/
def flmRows [DecidableEq α] [Inhabited α] (a : List α) (b2jm : List (α × List Nat))
    (blo bhi : Nat) : Nat → Nat → List (Nat × Nat) → (Nat × Nat × Nat) → (Nat × Nat × Nat)
  | _, 0, _, best => best
  | i, cnt + 1, prev, best =>
      let js := (assocFind b2jm (a.getD i default)).getD []
      let (nj, best') := flmInner blo bhi i prev js [] best
      flmRows a b2jm blo bhi (i + 1) cnt nj best'

/-- The backward extension loop
`while besti > alo and bestj > blo and a[besti-1] == b[bestj-1]`
(the junk variants are vacuous: `bjunk` is empty since `isjunk=None`).
`fuel` bounds the iteration count (call it with `besti`). -/
def extLow [DecidableEq α] [Inhabited α] (a b : List α) (alo blo : Nat) :
    Nat → Nat → Nat → Nat → (Nat × Nat × Nat)
  | besti, bestj, k, 0 => (besti, bestj, k)
  | besti, bestj, k, fuel + 1 =>
      if alo < besti ∧ blo < bestj ∧ a.getD (besti - 1) default = b.getD (bestj - 1) default then
        extLow a b alo blo (besti - 1) (bestj - 1) (k + 1) fuel
      else (besti, bestj, k)

/-- The forward extension loop
`while besti+bestsize < ahi and bestj+bestsize < bhi and a[..] == b[..]`. -/
def extHigh [DecidableEq α] [Inhabited α] (a b : List α) (ahi bhi : Nat) :
    Nat → Nat → Nat → Nat → (Nat × Nat × Nat)
  | besti, bestj, k, 0 => (besti, bestj, k)
  | besti, bestj, k, fuel + 1 =>
      if besti + k < ahi ∧ bestj + k < bhi ∧
          a.getD (besti + k) default = b.getD (bestj + k) default then
        extHigh a b ahi bhi besti bestj (k + 1) fuel
      else (besti, bestj, k)

/-- `find_longest_match(alo, ahi, blo, bhi)` with `isjunk=None`. -/
def findLongestMatch [DecidableEq α] [Inhabited α] (a b : List α)
    (b2jm : List (α × List Nat)) (alo ahi blo bhi : Nat) : Nat × Nat × Nat :=
  let best1 := flmRows a b2jm blo bhi alo (ahi - alo) [] (alo, blo, 0)
  let low := extLow a b alo blo best1.1 best1.2.1 best1.2.2 best1.1
  extHigh a b ahi bhi low.1 low.2.1 low.2.2 (ahi - (low.1 + low.2.2))

/-- The recursive block collection of `get_matching_blocks`.  Python
keeps an explicit queue and sorts the collected triples at the end;
because the two sub-rectangles flanking each found match are disjoint
and ordered, the sorted queue output equals this recursion's
left-to-right order.  `fuel` bounds the recursion depth (any value
above `(ahi-alo)+(bhi-blo)` is enough). -/
def matchingBlocksGo [DecidableEq α] [Inhabited α] (a b : List α)
    (b2jm : List (α × List Nat)) : Nat → Nat → Nat → Nat → Nat → List (Nat × Nat × Nat)
  | 0, _, _, _, _ => []
  | fuel + 1, alo, ahi, blo, bhi =>
      let m := findLongestMatch a b b2jm alo ahi blo bhi
      if m.2.2 = 0 then []
      else
        (if alo < m.1 ∧ blo < m.2.1 then matchingBlocksGo a b b2jm fuel alo m.1 blo m.2.1
         else []) ++
        [m] ++
        (if m.1 + m.2.2 < ahi ∧ m.2.1 + m.2.2 < bhi then
          matchingBlocksGo a b b2jm fuel (m.1 + m.2.2) ahi (m.2.1 + m.2.2) bhi
         else [])

/-- The adjacent-block merging pass at the end of
`get_matching_blocks` (state `(i1, j1, k1)` starts at `(0, 0, 0)`). -/
def mergeBlocksGo : Nat → Nat → Nat → List (Nat × Nat × Nat) → List (Nat × Nat × Nat)
  | i1, j1, k1, [] => if k1 ≠ 0 then [(i1, j1, k1)] else []
  | i1, j1, k1, (i2, j2, k2) :: rest =>
      if i1 + k1 = i2 ∧ j1 + k1 = j2 then mergeBlocksGo i1 j1 (k1 + k2) rest
      else (if k1 ≠ 0 then [(i1, j1, k1)] else []) ++ mergeBlocksGo i2 j2 k2 rest

/-- `get_matching_blocks()`: recursion, merging, and the terminating
sentinel `(la, lb, 0)`. -/
def getMatchingBlocks [DecidableEq α] [Inhabited α] (a b : List α) : List (Nat × Nat × Nat) :=
  mergeBlocksGo 0 0 0
    (matchingBlocksGo a b (b2j b) (a.length + b.length + 1) 0 a.length 0 b.length)
  ++ [(a.length, b.length, 0)]

/-- Opcode tags of `get_opcodes()`. -/
inductive Tag : Type where
  | replace : Tag
  | delete : Tag
  | insert : Tag
  | equal : Tag
deriving DecidableEq, Repr

/-- One opcode `(tag, i1, i2, j1, j2)`. -/
abbrev Opcode := Tag × Nat × Nat × Nat × Nat

/-- The loop of `get_opcodes()` over the matching blocks. -/
def opcodesGo : Nat → Nat → List (Nat × Nat × Nat) → List Opcode
  | _, _, [] => []
  | i, j, (ai, bj, size) :: rest =>
      (if i < ai ∧ j < bj then [(Tag.replace, i, ai, j, bj)]
       else if i < ai then [(Tag.delete, i, ai, j, bj)]
       else if j < bj then [(Tag.insert, i, ai, j, bj)]
       else []) ++
      (if size ≠ 0 then [(Tag.equal, ai, ai + size, bj, bj + size)] else []) ++
      opcodesGo (ai + size) (bj + size) rest

/-- `get_opcodes()`. -/
def getOpcodes [DecidableEq α] [Inhabited α] (a b : List α) : List Opcode :=
  opcodesGo 0 0 (getMatchingBlocks a b)

/-- `SequenceMatcher.ratio()`, exactly: `2 * M / T` as a rational
(`1` when both sequences are empty).  The Python value is the nearest
double of this rational. -/
def ratioQ [DecidableEq α] [Inhabited α] (a b : List α) : ℚ :=
  let m := ((getMatchingBlocks a b).map (fun t => t.2.2)).sum
  if a.length + b.length ≠ 0 then mkRat (2 * m) (a.length + b.length) else mkRat 1 1

-- ==========================================================================
-- diff/guards.py
-- ==========================================================================

/-- `_TRIPLE_DQ = '"' * 3`. -/
def tripleDQ : Str := List.replicate 3 '"'

/-- `_TRIPLE_SQ = "'" * 3`. -/
def tripleSQ : Str := List.replicate 3 '\''

/-- `_has_control_chars(s)`. -/
def hasControlChars (s : Str) : Bool :=
  s.any (fun c => c.toNat < 32 && c ≠ '\n' && c ≠ '\r' && c ≠ '\t')

/-- A line whose first non-whitespace token is `from __future__ import`. -/
def isFutLine (ln : Str) : Bool := pyStartsWith (pyLstrip ln) (S "from __future__ import")

/-- `_has_future_import(text)`. -/
def hasFutureImport (text : Str) : Bool := (pySplitLines text).any isFutLine

/-- Python `s.count(sub)` (non-overlapping, left to right), for a
non-empty `sub`; `fuel` bounds the scan (call with `hay.length`). -/
def pyCountSubGo (needle : Str) : Str → Nat → Nat
  | _, 0 => 0
  | hay, fuel + 1 =>
      match hay with
      | [] => 0
      | _ :: tail =>
          if needle ≠ [] ∧ needle.isPrefixOf hay then
            1 + pyCountSubGo needle (hay.drop needle.length) fuel
          else pyCountSubGo needle tail fuel

/-- Python `s.count(sub)` for non-empty `sub`. -/
def pyCountSub (needle hay : Str) : Nat := pyCountSubGo needle hay hay.length

/-- The docstring-closing scan
`while i < len(lines): if q in lines[i]: i += 1; break ...`: drop lines
up to and including the first one containing `q`. -/
def dropThroughContaining (q : Str) : List Str → List Str
  | [] => []
  | l :: rest => if pySubstr q l then rest else dropThroughContaining q rest

/-- A blank line (`s.strip() == ""`). -/
def isBlankLine (s : Str) : Bool := pyStrip s = []

/-- `_future_import_is_in_allowed_region(new)` from `diff/guards.py`:
skip blank lines and comments, an optional module docstring, more blank
lines; the next statement must be a future import. -/
def futureImportInAllowedRegion (new : Str) : Bool :=
  let lines := pySplitLines new
  let rest1 := lines.dropWhile (fun s => isBlankLine s || pyStartsWith (pyLstrip s) (S "#"))
  let rest2 :=
    match rest1 with
    | [] => rest1
    | s :: tail =>
        let s0 := pyLstrip s
        if pyStartsWith s0 tripleDQ || pyStartsWith s0 tripleSQ then
          let q := if pyStartsWith s0 tripleDQ then tripleDQ else tripleSQ
          if 2 ≤ pyCountSub q s0 then tail
          else dropThroughContaining q tail
        else rest1
  let rest3 := rest2.dropWhile isBlankLine
  match rest3 with
  | [] => false
  | s :: _ => isFutLine s

/-- `_guard_future_import(old, new)` from `diff/guards.py`. -/
def guardFutureImport (old new : Str) : Bool × Str :=
  if ¬ hasFutureImport old then (true, S "")
  else if ¬ hasFutureImport new then (false, S "future_import_removed")
  else if ¬ futureImportInAllowedRegion new then (false, S "future_import_moved")
  else (true, S "")

/-- The blank-run-collapsing loop of `_normalize_for_similarity`
(state: `blank_run`). -/
def collapseBlanks : List Str → Nat → List Str
  | [], _ => []
  | ln :: rest, blankRun =>
      if pyStrip ln = [] then
        (if blankRun + 1 ≤ 1 then [[]] else []) ++ collapseBlanks rest (blankRun + 1)
      else ln :: collapseBlanks rest 0

/-- `_normalize_for_similarity(s)` from `diff/guards.py`. -/
def normalizeForSimilarity (s : Str) : Str :=
  let s1 := pyReplaceCR (pyReplaceCRLF s)
  let out := collapseBlanks ((pySplitLines s1).map pyRstrip) 0
  pyStrip (pyJoin (S "\n") out)

/-- `_similarity_ratio(old, new)` from `diff/guards.py`, as an exact
rational (the Python value is the nearest double). -/
def similarity (old new : Str) : ℚ :=
  ratioQ (pySplitLines (normalizeForSimilarity old)) (pySplitLines (normalizeForSimilarity new))

/-- The keyword tuple of `_allow_big_rewrite`. -/
def rewriteKeywords : List Str :=
  [S "rewrite", S "refactor", S "reformat", S "format", S "overhaul",
   S "replace", S "full", S "cleanup", S "clean up", S "modernize"]

/-- `_allow_big_rewrite(instruction)` from `diff/guards.py`. -/
def allowBigRewrite (instruction : Str) : Bool :=
  rewriteKeywords.any (fun k => pySubstr k (pyLower instruction))

/-- `PurePosixPath(relpath).name`: the last component after dropping
empty and `"."` parts. -/
def pathName (relpath : Str) : Str :=
  (((pySplitOn '/' relpath).filter (fun p => p ≠ [] ∧ p ≠ S ".")).getLastD [])

/-- Round-half-even of a rational to an integer (the rounding used by
Python's `format(x, '.2f')` at exactly-representable midpoints),
computed on the numerator and denominator. -/
def roundHalfEven (x : ℚ) : ℤ :=
  let n := x.num
  let d := (x.den : ℤ)
  let f := Int.fdiv n d
  let r := n - f * d
  if 2 * r < d then f else if d < 2 * r then f + 1 else if f % 2 = 0 then f else f + 1

/-- Python `f"{ratio:.2f}"` for a nonnegative rational. -/
def formatQ2 (q : ℚ) : Str :=
  let n := (roundHalfEven (mkRat (q.num * 100) q.den)).toNat
  Nat.toDigits 10 (n / 100) ++
    ('.' :: (if n % 100 < 10 then '0' :: Nat.toDigits 10 (n % 100) else Nat.toDigits 10 (n % 100)))

/-- `enforce_guards(relpath, instruction, old, new)` from
`diff/guards.py` (its debug `print` is an effect-free log and is
omitted). -/
def enforceGuards (relpath instruction old new : Str) : Bool × Str :=
  if hasControlChars new then (false, S "guard: control_chars")
  else if old = new then (true, S "")
  else
    let fut := guardFutureImport old new
    if fut.1 = false then (false, S "guard: " ++ fut.2)
    else
      let ratio := similarity old new
      let isReadme := pyLower (pathName relpath) = S "readme.md"
      if isReadme ∧ ¬ allowBigRewrite instruction ∧ ratio < mkRat 9 10 then
        (false, S "guard: README rewrite blocked")
      else if ¬ allowBigRewrite instruction ∧ ratio < mkRat 1 5 then
        (false, S "guard: rewrite too violent (similarity=" ++ formatQ2 ratio ++ S ")")
      else (true, S "")

example : enforceGuards (S "x.txt") (S "edit") (S "abc\n") (S "a\x01bc\n")
    = (false, S "guard: control_chars") := by decide

-- ==========================================================================
-- tools/coder.py : __future__ guard (BOM/zero-width tolerant variant)
-- ==========================================================================

/-- `_strip_bom_zw(s)`: `lstrip("﻿​")`. -/
def stripBOMZW (s : Str) : Str := s.dropWhile (fun c => c = '﻿' || c = '​')

/-- `_is_effectively_blank(s)`. -/
def isEffectivelyBlank (s : Str) : Bool := pyStrip (stripBOMZW s) = []

/-- A future-import line under the coder's BOM/zero-width-tolerant test
(`_strip_bom_zw(ln).lstrip().startswith("from __future__ import")`). -/
def isFutLineBZ (ln : Str) : Bool :=
  pyStartsWith (pyLstrip (stripBOMZW ln)) (S "from __future__ import")

/-- `_future_import_guard(old, new)` from `tools/coder.py`.  The test
on `old` is the plain `lstrip` one (`hasFutureImport`); the tests on
`new` strip BOM and zero-width characters first.  The trace logging is
omitted. -/
def futureImportGuardCoder (old new : Str) : Bool × Str :=
  if ¬ hasFutureImport old then (true, S "")
  else
    let newLines := pySplitLines new
    if ¬ newLines.any isFutLineBZ then (false, S "future_import_removed")
    else
      let rest1 := newLines.dropWhile
        (fun s => isEffectivelyBlank s || pyStartsWith (pyLstrip (stripBOMZW s)) (S "#"))
      let rest2 :=
        match rest1 with
        | [] => rest1
        | s :: tail =>
            let s0 := pyLstrip (stripBOMZW s)
            if pyStartsWith s0 tripleDQ || pyStartsWith s0 tripleSQ then
              let q := if pyStartsWith s0 tripleDQ then tripleDQ else tripleSQ
              if 2 ≤ pyCountSub q s0 then tail
              else dropThroughContaining q tail
            else rest1
      let rest3 := rest2.dropWhile isEffectivelyBlank
      match rest3 with
      | [] => (false, S "future_import_moved")
      | s :: _ => if isFutLineBZ s then (true, S "") else (false, S "future_import_moved")

-- ==========================================================================
-- Claim C5 (future-import guard applicability)
-- ==========================================================================

/-- C5, counterexample: for the target path `"a.py"` (which has suffix
`.py`), `old = "x = 1\n"` (no future-import line) and `new = "y = 2\n"`
(no future-import line either), the claim asserts a
`future_import_removed` rejection; but both future-import guards pass:
the guard is keyed solely on `old` containing a future import, never on
the `.py` suffix. -/
theorem c5_counterexample :
    pyEndsWith (S "a.py") (S ".py") = true
    ∧ hasFutureImport (S "x = 1\n") = false
    ∧ hasFutureImport (S "y = 2\n") = false
    ∧ (pySplitLines (S "y = 2\n")).any isFutLineBZ = false
    ∧ guardFutureImport (S "x = 1\n") (S "y = 2\n") = (true, S "")
    ∧ futureImportGuardCoder (S "x = 1\n") (S "y = 2\n") = (true, S "") := by
  decide

/-- C5, amended: both future-import guards apply exactly when the old
text contains a line whose first non-whitespace token is
`from __future__ import` (the target path is never consulted); when the
guard applies and the new text contains no such line, it rejects with
detail `future_import_removed`. -/
theorem c5_amended_future_guard (old new : Str) :
    (hasFutureImport old = false → guardFutureImport old new = (true, S ""))
    ∧ (hasFutureImport old = true → hasFutureImport new = false →
        guardFutureImport old new = (false, S "future_import_removed"))
    ∧ (hasFutureImport old = false → futureImportGuardCoder old new = (true, S ""))
    ∧ (hasFutureImport old = true → (pySplitLines new).any isFutLineBZ = false →
        futureImportGuardCoder old new = (false, S "future_import_removed")) := by
  refine ⟨?_, ?_, ?_, ?_⟩
  · intro h; simp [guardFutureImport, h]
  · intro h1 h2; simp [guardFutureImport, h1, h2]
  · intro h; simp [futureImportGuardCoder, h]
  · intro h1 h2; simp [futureImportGuardCoder, h1, h2]

/-- C5 witness: the amended theorem applied at a concrete removal. -/
theorem c5_amended_witness :
    guardFutureImport (S "from __future__ import x\n") (S "y\n")
      = (false, S "future_import_removed")
    ∧ futureImportGuardCoder (S "from __future__ import x\n") (S "y\n")
      = (false, S "future_import_removed") :=
  ⟨(c5_amended_future_guard (S "from __future__ import x\n") (S "y\n")).2.1
      (by decide) (by decide),
   (c5_amended_future_guard (S "from __future__ import x\n") (S "y\n")).2.2.2
      (by decide) (by decide)⟩

-- ==========================================================================
-- Claim C6 (README protection)
-- ==========================================================================

/-- C6, counterexample: under all of the claim's hypotheses (basename
`readme.md`, `old ≠ new`, no control bytes, no rewrite keyword in the
instruction) the code can reject with a different detail even though the
similarity ratio is not below 0.90: the future-import guard runs first.
Here `old` carries a future-import line that `new` drops while 9 of 10
lines match (ratio exactly 9/10). -/
theorem c6_counterexample :
    pyLower (pathName (S "README.md")) = S "readme.md"
    ∧ (S "from __future__ import annotations\na\na\na\na\na\na\na\na\na\n")
        ≠ (S "b\na\na\na\na\na\na\na\na\na\n")
    ∧ hasControlChars (S "b\na\na\na\na\na\na\na\na\na\n") = false
    ∧ allowBigRewrite (S "Add heading") = false
    ∧ enforceGuards (S "README.md") (S "Add heading")
        (S "from __future__ import annotations\na\na\na\na\na\na\na\na\na\n")
        (S "b\na\na\na\na\na\na\na\na\na\n")
        = (false, S "guard: future_import_removed")
    ∧ ¬ similarity (S "from __future__ import annotations\na\na\na\na\na\na\na\na\na\n")
          (S "b\na\na\na\na\na\na\na\na\na\n") < mkRat 9 10 := by
  decide

/-- C6, amended: under the claim's hypotheses plus "the future-import
guard passes on `(old, new)`", `enforce_guards` rejects exactly when the
similarity ratio is below 9/10, and the rejection is
`"guard: README rewrite blocked"`. -/
theorem c6_amended_readme_guard (relpath instruction old new : Str)
    (hname : pyLower (pathName relpath) = S "readme.md")
    (hne : old ≠ new)
    (hctrl : hasControlChars new = false)
    (hkw : allowBigRewrite instruction = false)
    (hfut : guardFutureImport old new = (true, S "")) :
    ((enforceGuards relpath instruction old new).1 = false
      ↔ similarity old new < mkRat 9 10)
    ∧ (similarity old new < mkRat 9 10 →
        enforceGuards relpath instruction old new
          = (false, S "guard: README rewrite blocked")) := by
  have h15 : (mkRat 1 5) < mkRat 9 10 := by decide
  by_cases hr : similarity old new < mkRat 9 10
  · have : enforceGuards relpath instruction old new
        = (false, S "guard: README rewrite blocked") := by
      unfold enforceGuards
      rw [hctrl]
      simp only [Bool.false_eq_true, if_false]
      rw [if_neg hne, hfut]
      simp only [Bool.true_eq_false, if_false]
      rw [if_pos ⟨hname, by simp [hkw], hr⟩]
    rw [this]
    exact ⟨by simp [hr], fun _ => rfl⟩
  · have : enforceGuards relpath instruction old new = (true, S "") := by
      unfold enforceGuards
      rw [hctrl]
      simp only [Bool.false_eq_true, if_false]
      rw [if_neg hne, hfut]
      simp only [Bool.true_eq_false, if_false]
      rw [if_neg (by exact fun hand => hr hand.2.2)]
      rw [if_neg (by exact fun hand => hr (lt_trans hand.2 h15))]
    rw [this]
    exact ⟨by simp [hr], fun hlt => absurd hlt hr⟩

/-- C6 witness: the amended theorem applied at a concrete low-similarity
README edit. -/
theorem c6_amended_witness :
    enforceGuards (S "README.md") (S "Add heading") (S "a\nb\n") (S "a\nc\n")
      = (false, S "guard: README rewrite blocked") :=
  (c6_amended_readme_guard (S "README.md") (S "Add heading") (S "a\nb\n") (S "a\nc\n")
    (by decide) (by decide) (by decide) (by decide) (by decide)).2 (by decide)

-- ==========================================================================
-- Claim C8 (insert into empty file)
-- ==========================================================================

/-- C8: the applier half of the scenario holds (`"@@ -0,0 +1,1 @@\n+hello\n"`
applied to `""` yields `"hello\n"`), but `enforce_guards` does **not**
accept `(old = "", new = "hello\n")`: the normalized similarity of an
empty file against anything is `0.0 < 0.2`, so unless the instruction
contains a big-rewrite keyword the guard rejects with
`rewrite too violent (similarity=0.00)` (with a keyword, e.g.
`"replace contents"`, it passes). -/
theorem c8_insert_into_empty :
    applyUnifiedDiff (S "") (S "@@ -0,0 +1,1 @@\n+hello\n") = .ok (S "hello\n")
    ∧ enforceGuards (S "x.txt") (S "add greeting") (S "") (S "hello\n")
        = (false, S "guard: rewrite too violent (similarity=0.00)")
    ∧ allowBigRewrite (S "add greeting") = false
    ∧ enforceGuards (S "x.txt") (S "replace contents") (S "") (S "hello\n")
        = (true, S "") := by
  decide

-- ==========================================================================
-- util_json.py : a model of json.loads and the salvage pipeline
-- ==========================================================================

/-- Parsed JSON values.  Numbers keep their source lexeme (no claim
inspects numeric values); objects keep Python-dict semantics: unique
keys in first-insertion order, later duplicates overwrite in place. -/
inductive JVal : Type where
  | jnull : JVal
  | jbool (b : Bool) : JVal
  | jnum (lexeme : Str) : JVal
  | jstr (s : Str) : JVal
  | jarr (xs : List JVal) : JVal
  | jobj (m : List (Str × JVal)) : JVal

/-- Python-dict insertion: overwrite in place if the key exists. -/
def jobjInsert (m : List (Str × JVal)) (k : Str) (v : JVal) : List (Str × JVal) :=
  if (assocFind m k).isSome then assocSet m k v else m ++ [(k, v)]

/-- JSON whitespace (`json.decoder.WHITESPACE`). -/
def jWs (c : Char) : Bool := c = ' ' || c = '\t' || c = '\n' || c = '\r'

/-- Four hex digits (for `\uXXXX`). -/
def parseHex4 (s : Str) : Option (Nat × Str) :=
  match s with
  | h1 :: h2 :: h3 :: h4 :: rest =>
      let dv := fun (c : Char) =>
        if '0' ≤ c ∧ c ≤ '9' then some (c.toNat - '0'.toNat)
        else if 'a' ≤ c ∧ c ≤ 'f' then some (c.toNat - 'a'.toNat + 10)
        else if 'A' ≤ c ∧ c ≤ 'F' then some (c.toNat - 'A'.toNat + 10)
        else none
      match dv h1, dv h2, dv h3, dv h4 with
      | some a, some b, some c, some d => some (((a * 16 + b) * 16 + c) * 16 + d, rest)
      | _, _, _, _ => none
  | _ => none

/-- JSON string body scanner (after the opening quote), strict mode:
raw control characters are rejected.  Lone surrogates, which Python
keeps in the `str`, have no `Char` representative and are modelled as
U+FFFD. -/
def parseJStrGo (acc : Str) : Str → Nat → Option (Str × Str)
  | _, 0 => none
  | [], _ => none
  | c :: rest, fuel + 1 =>
      if c = '"' then some (acc, rest)
      else if c = '\\' then
        match rest with
        | [] => none
        | e :: rest2 =>
            if e = '"' then parseJStrGo (acc ++ ['"']) rest2 fuel
            else if e = '\\' then parseJStrGo (acc ++ ['\\']) rest2 fuel
            else if e = '/' then parseJStrGo (acc ++ ['/']) rest2 fuel
            else if e = 'b' then parseJStrGo (acc ++ ['\x08']) rest2 fuel
            else if e = 'f' then parseJStrGo (acc ++ ['\x0c']) rest2 fuel
            else if e = 'n' then parseJStrGo (acc ++ ['\n']) rest2 fuel
            else if e = 'r' then parseJStrGo (acc ++ ['\r']) rest2 fuel
            else if e = 't' then parseJStrGo (acc ++ ['\t']) rest2 fuel
            else if e = 'u' then
              match parseHex4 rest2 with
              | none => none
              | some (n, rest3) =>
                  if 0xD800 ≤ n ∧ n ≤ 0xDBFF then
                    match rest3 with
                    | '\\' :: 'u' :: rest4 =>
                        match parseHex4 rest4 with
                        | some (n2, rest5) =>
                            if 0xDC00 ≤ n2 ∧ n2 ≤ 0xDFFF then
                              parseJStrGo
                                (acc ++ [Char.ofNat (0x10000 + (n - 0xD800) * 0x400 + (n2 - 0xDC00))])
                                rest5 fuel
                            else parseJStrGo (acc ++ ['�']) rest3 fuel
                        | none => parseJStrGo (acc ++ ['�']) rest3 fuel
                    | _ => parseJStrGo (acc ++ ['�']) rest3 fuel
                  else if 0xDC00 ≤ n ∧ n ≤ 0xDFFF then
                    parseJStrGo (acc ++ ['�']) rest3 fuel
                  else parseJStrGo (acc ++ [Char.ofNat n]) rest3 fuel
            else none
      else if c.toNat < 0x20 then none
      else parseJStrGo (acc ++ [c]) rest fuel

/-- Parse a JSON string starting at its opening quote. -/
def parseJStr (s : Str) : Option (Str × Str) :=
  match s with
  | '"' :: rest => parseJStrGo [] rest (rest.length + 1)
  | _ => none

/-- Parse a JSON number (`NUMBER_RE`), returning its lexeme. -/
def parseJNum (s : Str) : Option (Str × Str) :=
  let (sign, s1) := match s with
    | '-' :: r => (['-'], r)
    | _ => ([], s)
  match s1 with
  | [] => none
  | d :: _ =>
      if ¬ d.isDigit then none
      else
        let intPart := if d = '0' then [d] else s1.takeWhile Char.isDigit
        let s2 := s1.drop intPart.length
        let (frac, s3) :=
          match s2 with
          | '.' :: r =>
              let ds := r.takeWhile Char.isDigit
              if ds = [] then (([] : Str), s2) else ('.' :: ds, r.drop ds.length)
          | _ => ([], s2)
        let (expPart, s4) :=
          match s3 with
          | e :: r =>
              if e = 'e' ∨ e = 'E' then
                let (es, r2) := match r with
                  | '+' :: rr => (['+'], rr)
                  | '-' :: rr => (['-'], rr)
                  | _ => (([] : Str), r)
                let ds := r2.takeWhile Char.isDigit
                if ds = [] then (([] : Str), s3) else (e :: (es ++ ds), r2.drop ds.length)
              else ([], s3)
          | _ => ([], s3)
        some (sign ++ intPart ++ frac ++ expPart, s4)

/-- Input modes of the fused JSON parser: a value, the member loop of
an object (after its `{`), or the element loop of an array. -/
inductive PIn : Type where
  | v (s : Str) : PIn
  | obj (first : Bool) (s : Str) (acc : List (Str × JVal)) : PIn
  | arr (first : Bool) (s : Str) (acc : List JVal) : PIn

/-- One fused, fuel-indexed recursive parser covering values, object
member lists and array element lists (fused so that the definition is
structurally recursive and hence kernel-reducible; `fuel` is an
embedding artifact — any value above twice the input length is enough).
Models `json.JSONDecoder.raw_decode` (strict mode, including the
`NaN`/`Infinity` extensions). -/
def parseJ : Nat → PIn → Option (JVal × Str)
  | 0, _ => none
  | fuel + 1, PIn.v s =>
      match s with
      | [] => none
      | c :: rest =>
          if c = '"' then (parseJStr s).map (fun p => (JVal.jstr p.1, p.2))
          else if c = '\x7b' then parseJ fuel (PIn.obj true (rest.dropWhile jWs) [])
          else if c = '[' then parseJ fuel (PIn.arr true (rest.dropWhile jWs) [])
          else if (S "true").isPrefixOf s then some (JVal.jbool true, s.drop 4)
          else if (S "false").isPrefixOf s then some (JVal.jbool false, s.drop 5)
          else if (S "null").isPrefixOf s then some (JVal.jnull, s.drop 4)
          else if (S "NaN").isPrefixOf s then some (JVal.jnum (S "NaN"), s.drop 3)
          else if (S "Infinity").isPrefixOf s then some (JVal.jnum (S "Infinity"), s.drop 8)
          else if (S "-Infinity").isPrefixOf s then some (JVal.jnum (S "-Infinity"), s.drop 9)
          else (parseJNum s).map (fun p => (JVal.jnum p.1, p.2))
  | fuel + 1, PIn.obj first s acc =>
      match s with
      | '\x7d' :: rest =>
          if first then some (JVal.jobj acc, rest) else none
      | _ =>
          match parseJStr s with
          | none => none
          | some (k, r1) =>
              match r1.dropWhile jWs with
              | ':' :: r2 =>
                  match parseJ fuel (PIn.v (r2.dropWhile jWs)) with
                  | none => none
                  | some (v, r3) =>
                      let acc' := jobjInsert acc k v
                      match r3.dropWhile jWs with
                      | ',' :: r4 => parseJ fuel (PIn.obj false (r4.dropWhile jWs) acc')
                      | '\x7d' :: r4 => some (JVal.jobj acc', r4)
                      | _ => none
              | _ => none
  | fuel + 1, PIn.arr first s acc =>
      match s with
      | ']' :: rest =>
          if first then some (JVal.jarr acc, rest) else none
      | _ =>
          match parseJ fuel (PIn.v s) with
          | none => none
          | some (v, r1) =>
              match r1.dropWhile jWs with
              | ',' :: r2 => parseJ fuel (PIn.arr false (r2.dropWhile jWs) (acc ++ [v]))
              | ']' :: r2 => some (JVal.jarr (acc ++ [v]), r2)
              | _ => none

/-- `json.JSONDecoder().raw_decode(s, idx=0)`: one value parsed at the
start, returning it and the unconsumed remainder. -/
def rawDecode (s : Str) : Option (JVal × Str) := parseJ (2 * s.length + 8) (PIn.v s)

/-- `json.loads(s)`: skip leading whitespace, parse one value, require
only whitespace after it. -/
def pyJsonLoads (s : Str) : Option JVal :=
  match rawDecode (s.dropWhile jWs) with
  | some (v, rest) => if rest.dropWhile jWs = [] then some v else none
  | none => none

/-- `_CTRL_RE.sub("", s)`: drop `[\x00-\x08\x0b\x0c\x0e-\x1f]`. -/
def stripCtrl (s : Str) : Str :=
  s.filter (fun c =>
    ¬ (c.toNat ≤ 8 ∨ c.toNat = 11 ∨ c.toNat = 12 ∨ (14 ≤ c.toNat ∧ c.toNat ≤ 31)))

/-- `_FENCE_RE = ^\s*```(?:json)?\s*$` (IGNORECASE) against one line. -/
def fenceLine (l : Str) : Bool :=
  let r := l.dropWhile pyIsSpace
  pyStartsWith r (S "```") &&
    (let r2 := r.drop 3
     r2.all pyIsSpace || (pyLower (r2.take 4) = S "json" && (r2.drop 4).all pyIsSpace))

/-- `_strip_code_fences(s)` from `util_json.py`. -/
def stripCodeFences (s : Str) : Str :=
  let s1 := pyStrip s
  if s1 = [] then s1
  else
    match pySplitLines s1 with
    | [] => s1
    | l0 :: restL =>
        if fenceLine l0 then
          let lines2 :=
            if restL ≠ [] ∧ fenceLine (restL.getLastD []) then restL.dropLast else restL
          pyStrip (pyJoin (S "\n") lines2)
        else s1

/-- Index of the first occurrence of a character (`s.find(c)`). -/
def pyFindChar (c : Char) (s : Str) : Option Nat := s.findIdx? (fun x => x = c)

/-- Index of the last occurrence of a character (`s.rfind(c)`). -/
def pyRFindChar (c : Char) (s : Str) : Option Nat :=
  (s.reverse.findIdx? (fun x => x = c)).map (fun i => s.length - 1 - i)

/-- `_extract_first_json_value(raw, "object")` = `extract_json_object`:
strip fences, find the first `{`, `raw_decode` from there; on failure
fall back to the last `}` (or the rest of the string). -/
def extractJsonObject (raw : Str) : Str :=
  let s := stripCodeFences raw
  match pyFindChar '\x7b' s with
  | none => s
  | some start =>
      let tailS := s.drop start
      match rawDecode tailS with
      | some (_, rest) => tailS.take (tailS.length - rest.length)
      | none =>
          match pyRFindChar '\x7d' s with
          | some e => if start < e then seg s start (e + 1) else tailS
          | none => tailS

/-- Generic `s.replace(pat, rep)` (non-overlapping, left to right);
`fuel` bounds the scan (call with `s.length`). -/
def pyReplaceGo (pat rep : Str) : Str → Nat → Str
  | s, 0 => s
  | [], _ + 1 => []
  | c :: rest, fuel + 1 =>
      if pat ≠ [] ∧ pat.isPrefixOf (c :: rest) then
        rep ++ pyReplaceGo pat rep ((c :: rest).drop pat.length) fuel
      else c :: pyReplaceGo pat rep rest fuel

/-- Python `s.replace(pat, rep)` for non-empty `pat`. -/
def pyReplace (pat rep s : Str) : Str := pyReplaceGo pat rep s s.length

/-- Match `_SINGLE_QUOTE_KEY_RE = {\s*'([^']+)'\s*:` at the head of
`s`: returns the key and the remainder after the colon. -/
def matchSQKey (s : Str) : Option (Str × Str) :=
  match s with
  | '\x7b' :: r0 =>
      match (r0.dropWhile pyIsSpace) with
      | '\'' :: r2 =>
          let content := r2.takeWhile (fun c => c ≠ '\'')
          if content = [] then none
          else
            match r2.drop content.length with
            | '\'' :: r3 =>
                match r3.dropWhile pyIsSpace with
                | ':' :: r5 => some (content, r5)
                | _ => none
            | _ => none
      | _ => none
  | _ => none

/-- `_SINGLE_QUOTE_KEY_RE.sub(r'{"\1":', s)`. -/
def subSQKeyGo : Str → Nat → Str
  | s, 0 => s
  | [], _ + 1 => []
  | c :: rest, fuel + 1 =>
      match matchSQKey (c :: rest) with
      | some (g1, r) =>
          '\x7b' :: '"' :: (g1 ++ ('"' :: ':' :: subSQKeyGo r fuel))
      | none => c :: subSQKeyGo rest fuel

/-- An identifier character (`[A-Za-z0-9_]`). -/
def isIdentChar (c : Char) : Bool :=
  ('A' ≤ c && c ≤ 'Z') || ('a' ≤ c && c ≤ 'z') || ('0' ≤ c && c ≤ '9') || c = '_'

/-- Match `_UNQUOTED_KEY_RE = ([{\s,])([A-Za-z_][A-Za-z0-9_]*)\s*:` at
the head of `s`: returns the lead character, the key, and the remainder
after the colon. -/
def matchUK (s : Str) : Option (Char × Str × Str) :=
  match s with
  | c0 :: r0 =>
      if c0 = '\x7b' ∨ c0 = ',' ∨ pyIsSpace c0 then
        match r0 with
        | c1 :: _ =>
            if ('A' ≤ c1 && c1 ≤ 'Z') || ('a' ≤ c1 && c1 ≤ 'z') || c1 = '_' then
              let ident := r0.takeWhile isIdentChar
              match (r0.drop ident.length).dropWhile pyIsSpace with
              | ':' :: r2 => some (c0, ident, r2)
              | _ => none
            else none
        | [] => none
      else none
  | [] => none

/-- `_UNQUOTED_KEY_RE.sub(r'\1"\2":', s)`. -/
def subUKGo : Str → Nat → Str
  | s, 0 => s
  | [], _ + 1 => []
  | c :: rest, fuel + 1 =>
      match matchUK (c :: rest) with
      | some (c0, ident, r) =>
          c0 :: '"' :: (ident ++ ('"' :: ':' :: subUKGo r fuel))
      | none => c :: subUKGo rest fuel

/-- Content scan of `(?:\\'|[^'])*'`: consume `\'` pairs and non-quote
characters greedily, then require a closing quote (the regex engine
could additionally backtrack into the starred group; the greedy
no-backtracking reading agrees with it on every input whose match
succeeds greedily). -/
def sqValContent : Str → Nat → Option (Str × Str)
  | _, 0 => none
  | s, fuel + 1 =>
      match s with
      | [] => none
      | '\\' :: '\'' :: r => (sqValContent r fuel).map (fun p => ('\\' :: '\'' :: p.1, p.2))
      | '\'' :: r => some ([], r)
      | c :: r => (sqValContent r fuel).map (fun p => (c :: p.1, p.2))

/-- Match `:\s*'((?:\\'|[^'])*)'` at the head of `s`. -/
def matchSQVal (s : Str) : Option (Str × Str) :=
  match s with
  | ':' :: r0 =>
      match r0.dropWhile pyIsSpace with
      | '\'' :: r2 => sqValContent r2 (r2.length + 1)
      | _ => none
  | _ => none

/-- The `_sq_val` replacement: `': "' + inner' + '"'` with
`inner' = inner.replace("\\'", "'").replace('"', '\\"')`. -/
def sqValRep (inner : Str) : Str :=
  let i1 := pyReplace (S "\\'") (S "'") inner
  let i2 := (i1.map (fun c => if c = '"' then ['\\', '"'] else [c])).flatten
  ':' :: ' ' :: '"' :: (i2 ++ ['"'])

/-- `re.sub(r":\s*'((?:\\'|[^'])*)'", _sq_val, s)`. -/
def subSQValGo : Str → Nat → Str
  | s, 0 => s
  | [], _ + 1 => []
  | c :: rest, fuel + 1 =>
      match matchSQVal (c :: rest) with
      | some (inner, r) => sqValRep inner ++ subSQValGo r fuel
      | none => c :: subSQValGo rest fuel

/-- `_repair_common_llm_json(s)` from `util_json.py`. -/
def repairCommonLlmJson (s : Str) : Str :=
  let s1 := pyStrip s
  if s1 = [] then s1
  else
    let s2 := stripCtrl s1
    let s3 := subSQKeyGo s2 s2.length
    let s4 := subUKGo s3 s3.length
    subSQValGo s4 s4.length

/-- UTF-8 bytes of one character. -/
def utf8Bytes (c : Char) : List Nat :=
  let n := c.toNat
  if n < 0x80 then [n]
  else if n < 0x800 then [0xC0 + n / 0x40, 0x80 + n % 0x40]
  else if n < 0x10000 then
    [0xE0 + n / 0x1000, 0x80 + (n / 0x40) % 0x40, 0x80 + n % 0x40]
  else
    [0xF0 + n / 0x40000, 0x80 + (n / 0x1000) % 0x40, 0x80 + (n / 0x40) % 0x40, 0x80 + n % 0x40]

/-- Hex digit value. -/
def hexVal (b : Nat) : Option Nat :=
  if 48 ≤ b ∧ b ≤ 57 then some (b - 48)
  else if 97 ≤ b ∧ b ≤ 102 then some (b - 87)
  else if 65 ≤ b ∧ b ≤ 70 then some (b - 55)
  else none

/-- Read exactly `k` hex digits from a byte list. -/
def readHex : Nat → List Nat → Nat → Option (Nat × List Nat)
  | 0, bs, acc => some (acc, bs)
  | k + 1, b :: bs, acc =>
      match hexVal b with
      | some v => readHex k bs (acc * 16 + v)
      | none => none
  | _ + 1, [], _ => none

/-- A code point as a `Char` (code points without a `Char`
representative — lone surrogates — become U+FFFD). -/
def charOf (n : Nat) : Char := if n.isValidChar then Char.ofNat n else '�'

/-- `bytes(s, "utf-8").decode("unicode_escape")`: escape decoding over
the UTF-8 bytes, each unescaped byte read back as Latin-1.  Unknown
escapes keep the backslash; a trailing backslash or a malformed
`\x`/`\u`/`\U` is an error (`none`). -/
def uEscGo : List Nat → Nat → Option Str
  | _, 0 => none
  | [], _ => some []
  | 92 :: rest, fuel + 1 =>
      match rest with
      | [] => none
      | e :: r2 =>
          if e = 110 then (uEscGo r2 fuel).map (fun t => '\n' :: t)
          else if e = 116 then (uEscGo r2 fuel).map (fun t => '\t' :: t)
          else if e = 114 then (uEscGo r2 fuel).map (fun t => '\r' :: t)
          else if e = 98 then (uEscGo r2 fuel).map (fun t => '\x08' :: t)
          else if e = 102 then (uEscGo r2 fuel).map (fun t => '\x0c' :: t)
          else if e = 97 then (uEscGo r2 fuel).map (fun t => '\x07' :: t)
          else if e = 118 then (uEscGo r2 fuel).map (fun t => '\x0b' :: t)
          else if e = 92 then (uEscGo r2 fuel).map (fun t => '\\' :: t)
          else if e = 39 then (uEscGo r2 fuel).map (fun t => '\'' :: t)
          else if e = 34 then (uEscGo r2 fuel).map (fun t => '"' :: t)
          else if e = 10 then uEscGo r2 fuel
          else if 48 ≤ e ∧ e ≤ 55 then
            let o1 := e - 48
            match r2 with
            | d2 :: r3 =>
                if 48 ≤ d2 ∧ d2 ≤ 55 then
                  match r3 with
                  | d3 :: r4 =>
                      if 48 ≤ d3 ∧ d3 ≤ 55 then
                        (uEscGo r4 fuel).map
                          (fun t => charOf ((o1 * 8 + (d2 - 48)) * 8 + (d3 - 48)) :: t)
                      else (uEscGo r3 fuel).map (fun t => charOf (o1 * 8 + (d2 - 48)) :: t)
                  | [] => (uEscGo r3 fuel).map (fun t => charOf (o1 * 8 + (d2 - 48)) :: t)
                else (uEscGo r2 fuel).map (fun t => charOf o1 :: t)
            | [] => (uEscGo r2 fuel).map (fun t => charOf o1 :: t)
          else if e = 120 then
            match readHex 2 r2 0 with
            | some (v, r3) => (uEscGo r3 fuel).map (fun t => charOf v :: t)
            | none => none
          else if e = 117 then
            match readHex 4 r2 0 with
            | some (v, r3) => (uEscGo r3 fuel).map (fun t => charOf v :: t)
            | none => none
          else if e = 85 then
            match readHex 8 r2 0 with
            | some (v, r3) =>
                if v ≤ 0x10FFFF then (uEscGo r3 fuel).map (fun t => charOf v :: t) else none
            | none => none
          else (uEscGo r2 fuel).map (fun t => '\\' :: charOf e :: t)
  | b :: rest, fuel + 1 => (uEscGo rest fuel).map (fun t => charOf b :: t)

/-- `_unescape_if_looks_escaped(s)` from `util_json.py`. -/
def unescapeIfLooksEscaped (s : Str) : Str :=
  if pySubstr (S "\\n") s || pySubstr (S "\\t") s || pySubstr (S "\\\"") s
      || pySubstr (S "\\r") s then
    match uEscGo (s.flatMap utf8Bytes) ((s.flatMap utf8Bytes).length + 1) with
    | some t => t
    | none => s
  else s

/-- `_postprocess_obj(d)` from `util_json.py`. -/
def postprocessObj (d : List (Str × JVal)) : List (Str × JVal) :=
  d.map (fun p =>
    if p.1 = S "diff" ∨ p.1 = S "text" ∨ p.1 = S "content" then
      match p.2 with
      | JVal.jstr v => (p.1, JVal.jstr (unescapeIfLooksEscaped v))
      | _ => p
    else p)

/-- `loads_obj(text)` from `util_json.py`; `none` models every raised
exception (including the final `json_not_object`). -/
def loadsObj (text : Str) : Option (List (Str × JVal)) :=
  let raw := stripCtrl (stripCodeFences text)
  match pyJsonLoads raw with
  | some (JVal.jobj d) => some (postprocessObj d)
  | _ =>
      let frag := stripCtrl (pyStrip (extractJsonObject raw))
      match pyJsonLoads frag with
      | some (JVal.jobj d) => some (postprocessObj d)
      | _ =>
          match pyJsonLoads (repairCommonLlmJson frag) with
          | some (JVal.jobj d) => some (postprocessObj d)
          | _ => none

/-- The string value stored under key `k` of a salvaged mapping. -/
def jGetStr (o : Option (List (Str × JVal))) (k : Str) : Option Str :=
  match o with
  | none => none
  | some d =>
      match assocFind d k with
      | some (JVal.jstr v) => some v
      | _ => none

-- ==========================================================================
-- Claim C9 (JSON salvage scenarios)
-- ==========================================================================

/-- C9: `loads_obj` recovers `{diff: "hello"}` through the
unquoted-key repair, and strips a ```` ```json ```` fence around
`{"diff":"abc"}`. -/
theorem c9_loads_obj_salvage :
    jGetStr (loadsObj (S "\x7bdiff: \"hello\"\x7d")) (S "diff") = some (S "hello")
    ∧ jGetStr (loadsObj (S "```json\n\x7b\"diff\":\"abc\"\x7d\n```")) (S "diff")
        = some (S "abc") := by
  decide

-- ==========================================================================
-- tools/coder.py : path resolver (C4)
-- ==========================================================================

/-- `_resolve_repo_path(root, rel)` from `tools/coder.py`.
Filesystem canonicalization (`Path.resolve()`, which follows symlinks)
cannot be modelled without a filesystem; it is abstracted as an
arbitrary function `resolveFn` from a path string to the canonical
absolute path's component list.  `(root / rel)` is the textual join
(`rel` is never absolute on the non-error path), and
`p.relative_to(base)` succeeds exactly when `base`'s components are a
prefix of `p`'s. -/
def resolveRepoPath (resolveFn : Str → List Str) (root rel : Str) : Except Str (List Str) :=
  if rel = [] ∨ pyStartsWith rel (S "/") = true ∨ pyStartsWith rel (S "~") = true then
    .error (S "invalid_path")
  else
    let p := resolveFn (root ++ ('/' :: rel))
    if (resolveFn root).isPrefixOf p then .ok p else .error (S "path_escape")

-- ==========================================================================
-- Claim C4 (path resolver)
-- ==========================================================================

/-- C4: with canonicalization abstracted, the resolver fails with
`invalid_path` exactly when `rel` is empty or begins with `/` or `~`;
fails with `path_escape` exactly when `rel` is well-formed but the
canonical joined path is not a descendant of the canonical root; and
otherwise returns the canonical joined path, which lies under the
canonical root. -/
theorem c4_resolve_repo_path (resolveFn : Str → List Str) (root rel : Str) :
    (resolveRepoPath resolveFn root rel = .error (S "invalid_path")
      ↔ (rel = [] ∨ pyStartsWith rel (S "/") = true ∨ pyStartsWith rel (S "~") = true))
    ∧ (resolveRepoPath resolveFn root rel = .error (S "path_escape")
      ↔ (¬ (rel = [] ∨ pyStartsWith rel (S "/") = true ∨ pyStartsWith rel (S "~") = true)
          ∧ ¬ (resolveFn root).isPrefixOf (resolveFn (root ++ ('/' :: rel))) = true))
    ∧ (∀ p, resolveRepoPath resolveFn root rel = .ok p →
        p = resolveFn (root ++ ('/' :: rel))
        ∧ (resolveFn root).isPrefixOf p = true) := by
  unfold resolveRepoPath
  by_cases hinv : rel = [] ∨ pyStartsWith rel (S "/") = true ∨ pyStartsWith rel (S "~") = true
  · rw [if_pos hinv]
    refine ⟨⟨fun _ => hinv, fun _ => rfl⟩, ⟨fun h => absurd (Except.error.inj h) (by decide),
      fun h => absurd hinv h.1⟩, fun p hp => Except.noConfusion hp⟩
  · rw [if_neg hinv]
    by_cases hpre : (resolveFn root).isPrefixOf (resolveFn (root ++ ('/' :: rel))) = true
    · rw [if_pos hpre]
      exact ⟨⟨fun h => Except.noConfusion h, fun h => absurd h hinv⟩,
        ⟨fun h => Except.noConfusion h, fun h => absurd hpre h.2⟩,
        fun p hp => ⟨(Except.ok.inj hp).symm, by rw [← Except.ok.inj hp]; exact hpre⟩⟩
    · rw [if_neg hpre]
      exact ⟨⟨fun h => absurd (Except.error.inj h) (by decide), fun h => absurd h hinv⟩,
        ⟨fun _ => ⟨hinv, hpre⟩, fun _ => rfl⟩, fun p hp => Except.noConfusion hp⟩

/-- C4 witness: a concrete resolver instance on which the ok-case of
the theorem evaluates. -/
theorem c4_witness :
    resolveRepoPath (fun s => [s]) (S "r") (S "a") = .error (S "path_escape")
    ∧ (∀ p, resolveRepoPath (fun _ => ([] : List Str)) (S "r") (S "a") = .ok p →
        p = [] ∧ ([] : List Str).isPrefixOf p = true) :=
  ⟨((c4_resolve_repo_path (fun s => [s]) (S "r") (S "a")).2.1).mpr
      ⟨by decide, by decide⟩,
   fun p hp => by
    have h := (c4_resolve_repo_path (fun _ => ([] : List Str)) (S "r") (S "a")).2.2 p hp
    exact ⟨h.1, h.2⟩⟩

-- ==========================================================================
-- tools/coder.py : _maybe_unescape_llm_string, _py_syntax_ok
-- ==========================================================================

/-- `_maybe_unescape_llm_string(s)` from `tools/coder.py`. -/
def maybeUnescapeLLM (s : Str) : Str :=
  if pySubstr (S "\\n") s && ¬ pySubstr (S "\n") s then
    pyReplace (S "\\\\") (S "\\")
      (pyReplace (S "\\'") (S "'")
        (pyReplace (S "\\\"") (S "\"")
          (pyReplace (S "\\t") (S "\t")
            (pyReplace (S "\\r") (S "\r")
              (pyReplace (S "\\n") (S "\n")
                (pyReplace (S "\\r\\n") (S "\n") s))))))
  else s

/-- `_py_syntax_ok(path, content)`: non-`.py` paths pass; `.py` paths
consult the abstracted `compile()` oracle. -/
def pySyntaxOk (oracle : Str → Bool) (path content : Str) : Bool :=
  if ¬ pyEndsWith path (S ".py") then true else oracle content

-- ==========================================================================
-- tools/coder.py : _autofix_future_import
-- ==========================================================================

/-- Split off a docstring region ending at the first line containing `q`
(inclusive); the pair is (consumed lines, remainder). -/
def splitThroughContaining (q : Str) : List Str → (List Str × List Str)
  | [] => ([], [])
  | l :: rest =>
      if pySubstr q l then ([l], rest)
      else
        let (d, r) := splitThroughContaining q rest
        (l :: d, r)

/-- The prelude scan shared by `_autofix_future_import`'s two branches:
skip blank/comment lines and an optional module docstring, returning
the (prefix, suffix) split at the insertion point for future imports. -/
def preludeSplit (lines : List Str) : List Str × List Str :=
  let p1 := lines.takeWhile
    (fun s => isEffectivelyBlank s || pyStartsWith (pyLstrip (stripBOMZW s)) (S "#"))
  let r1 := lines.drop p1.length
  match r1 with
  | [] => (p1, [])
  | s :: tail =>
      let s0 := pyLstrip (stripBOMZW s)
      if pyStartsWith s0 tripleDQ || pyStartsWith s0 tripleSQ then
        let q := if pyStartsWith s0 tripleDQ then tripleDQ else tripleSQ
        if 2 ≤ pyCountSub q s0 then (p1 ++ [s], tail)
        else
          let (d, r) := splitThroughContaining q tail
          (p1 ++ [s] ++ d, r)
      else (p1, r1)

/-- `_autofix_future_import(old, new)` from `tools/coder.py`. -/
def autofixFutureImport (old new : Str) : Str :=
  let oldFuture := ((pySplitKeep old).filter isFutLineBZ).map (fun l => pyLstrip (stripBOMZW l))
  if oldFuture = [] then new
  else
    let newLines := pySplitKeep new
    if newLines = [] then new
    else
      let futLines := newLines.filter isFutLineBZ
      if futLines = [] then
        let pr := preludeSplit newLines
        let fixed := (pr.1 ++ oldFuture ++ pr.2).flatten
        if (futureImportGuardCoder old fixed).1 then fixed else new
      else
        let g := futureImportGuardCoder old new
        if g.1 then new
        else if g.2 ≠ S "future_import_moved" then new
        else
          let rest := newLines.filter (fun l => ¬ isFutLineBZ l)
          let futL := futLines.map (fun l => pyLstrip (stripBOMZW l))
          let pr := preludeSplit rest
          let fixed := (pr.1 ++ futL ++ pr.2).flatten
          if (futureImportGuardCoder old fixed).1 then fixed else new

-- ==========================================================================
-- tools/coder.py : apply_edit (C7 wiring, C10)
-- ==========================================================================

/-- Result dictionaries of `apply_edit` / `apply_full_replace`:
`ok` carries `(file, written, staged)`; `err` carries `(error, detail)`
(detail `""` where the Python dict has none). -/
inductive ApplyResult : Type where
  | ok (file : Str) (written staged : Bool) : ApplyResult
  | err (error detail : Str) : ApplyResult
deriving DecidableEq, Repr

/-- An `apply_edit` call's outcome together with its externally visible
filesystem effects: the contents atomically written to the target (if
any) and whether a sibling backup file was written. -/
structure ApplyOutcome : Type where
  result : ApplyResult
  written : Option Str
  backedUp : Bool
deriving DecidableEq, Repr

/-- The validation pipeline of `apply_edit` (everything textually
before the backup/atomic-write calls), in the source's order: existence
check, `@@` check, normalization, empty-OLD validation, diff
application, future-import autofix, syntax probe, content guards,
future-import guard.  Returns the content to write, or the error pair.
-/
def applyEditCheck (path patch old instruction : Str) (fileExists : Bool)
    (syntaxOracle : Str → Bool) : Except (Str × Str) Str :=
  if ¬ fileExists then .error (S "file_not_found", S "")
  else if ¬ pySubstr (S "@@") patch then .error (S "invalid_patch", S "")
  else
    let patch1 := normalizeUnifiedDiff (maybeUnescapeLLM patch)
    if old = [] ∧ (validateDiffForEmptyOld patch1).1 = false then
      .error (S "bad_patch_empty_old", (validateDiffForEmptyOld patch1).2)
    else
      match applyUnifiedDiff old patch1 with
      | .error e => .error (S "patch_apply_failed", e.message)
      | .ok new0 =>
          let new := autofixFutureImport old new0
          if ¬ pySyntaxOk syntaxOracle path new then
            if (futureImportGuardCoder old new).1 = false then
              .error (S "guard_blocked", (futureImportGuardCoder old new).2)
            else .error (S "guard_blocked", S "syntax_error_after_edit")
          else
            let g := enforceGuards path (if instruction = [] then S "apply" else instruction)
              old new
            if g.1 = false then .error (S "guard_blocked", g.2)
            else if (futureImportGuardCoder old new).1 = false then
              .error (S "guard_blocked", (futureImportGuardCoder old new).2)
            else .ok new

/-- `apply_edit(path, patch, root, instruction, stage, backup)` from
`tools/coder.py`.  The backup and the atomic write happen only after
every check of `applyEditCheck`; `git add` runs after the write
(`gitAddOk` abstracts its exit status; its captured output, truncated
to 8000 bytes, is abstracted as `""`). -/
def applyEdit (path patch old instruction : Str) (fileExists : Bool)
    (syntaxOracle : Str → Bool) (stage backup gitAddOk : Bool) : ApplyOutcome :=
  match applyEditCheck path patch old instruction fileExists syntaxOracle with
  | .error ed => ⟨.err ed.1 ed.2, none, false⟩
  | .ok new =>
      if stage ∧ ¬ gitAddOk then ⟨.err (S "git_add_failed") (S ""), some new, backup⟩
      else ⟨.ok path true stage, some new, backup⟩

-- ==========================================================================
-- Claim C10 (no write on failure)
-- ==========================================================================

/-- C10: whenever `apply_edit` returns `ok:false` with an error other
than `git_add_failed`, nothing was written to the target file and no
backup was made — the write and the optional backup happen only after
every validation and guard has passed. -/
theorem c10_no_write_on_failure (path patch old instruction : Str) (fileExists : Bool)
    (syntaxOracle : Str → Bool) (stage backup gitAddOk : Bool) (e d : Str)
    (hres : (applyEdit path patch old instruction fileExists syntaxOracle
        stage backup gitAddOk).result = .err e d)
    (hgit : e ≠ S "git_add_failed") :
    (applyEdit path patch old instruction fileExists syntaxOracle
        stage backup gitAddOk).written = none
    ∧ (applyEdit path patch old instruction fileExists syntaxOracle
        stage backup gitAddOk).backedUp = false := by
  cases hc : applyEditCheck path patch old instruction fileExists syntaxOracle with
  | error ed => constructor <;> simp [applyEdit, hc]
  | ok new =>
      have hres' := hres
      simp only [applyEdit, hc] at hres' ⊢
      by_cases hs : stage ∧ ¬ gitAddOk
      · rw [if_pos hs] at hres'
        exact absurd (ApplyResult.err.inj hres').1.symm hgit
      · rw [if_neg hs] at hres'
        exact ApplyResult.noConfusion hres'

/-- C10 witness: a concrete failing call (missing `@@` ⇒
`invalid_patch`) with no write and no backup. -/
theorem c10_witness :
    (applyEdit (S "f.txt") (S "nope") (S "x\n") (S "apply") true (fun _ => true)
        true true true).written = none
    ∧ (applyEdit (S "f.txt") (S "nope") (S "x\n") (S "apply") true (fun _ => true)
        true true true).backedUp = false :=
  c10_no_write_on_failure (S "f.txt") (S "nope") (S "x\n") (S "apply") true (fun _ => true)
    true true true (S "invalid_patch") (S "") (by decide) (by decide)

-- ==========================================================================
-- Claim C7 (empty-OLD validator)
-- ==========================================================================

/-- Lines from the first hunk header on (`in_hunk` region). -/
def hunkRegion (d : Str) : List Str :=
  (pySplitLines d).dropWhile (fun l => ¬ pyStartsWith l (S "@@"))

/-- The hunk-body lines of a diff: non-header lines in the hunk region. -/
def bodyLines (d : Str) : List Str :=
  (hunkRegion d).filter (fun l => ¬ pyStartsWith l (S "@@"))

/-- A line the validator skips: a `\`-meta line or an empty line. -/
def ignorableLine (l : Str) : Bool := pyStartsWith l (S "\\") || l = []

/-- The first rejection the validator's in-hunk scan produces, if any. -/
def scanDetail : List Str → Option Str
  | [] => none
  | l :: rest =>
      if pyStartsWith l (S "@@") then scanDetail rest
      else if ignorableLine l then scanDetail rest
      else if pyStartsWith l (S " ") then some (S "context_lines")
      else if pyStartsWith l (S "-") then some (S "deletions")
      else if pyStartsWith l (S "+") then scanDetail rest
      else some (S "invalid_line")

theorem pyStartsWith_head {l : Str} {c : Char} {cs : Str}
    (h : pyStartsWith l (c :: cs) = true) : l.head? = some c := by
  cases l with
  | nil => simp [pyStartsWith, List.isPrefixOf] at h
  | cons x t =>
      simp only [pyStartsWith, List.isPrefixOf, Bool.and_eq_true, beq_iff_eq] at h
      simp [h.1]

theorem pyStartsWith_false_of_head {l : Str} {c c' : Char} {cs cs' : Str}
    (h : pyStartsWith l (c :: cs) = true) (hne : c ≠ c') :
    pyStartsWith l (c' :: cs') = false := by
  cases hsw : pyStartsWith l (c' :: cs') with
  | false => rfl
  | true =>
      have h1 := pyStartsWith_head h
      have h2 := pyStartsWith_head hsw
      rw [h1] at h2
      exact absurd (Option.some.inj h2) hne

theorem ignorableLine_false_of_head {l : Str} {c : Char} {cs : Str}
    (h : pyStartsWith l (c :: cs) = true) (hne : c ≠ '\\') :
    ignorableLine l = false := by
  unfold ignorableLine
  have h1 : pyStartsWith l ('\\' :: []) = false := by
    cases hsw : pyStartsWith l ('\\' :: []) with
    | false => rfl
    | true =>
        have ha := pyStartsWith_head h
        have hb := pyStartsWith_head hsw
        rw [ha] at hb
        exact absurd (Option.some.inj hb) hne
  have h2 : l ≠ [] := by
    intro hl
    rw [hl] at h
    simp [pyStartsWith, List.isPrefixOf] at h
  rw [show (S "\\") = ['\\'] from rfl, h1]
  simp [h2]

theorem scanDetail_none_all {lines : List Str} (h : scanDetail lines = none) :
    ∀ l ∈ lines, pyStartsWith l (S "@@") = false → ignorableLine l = false →
      pyStartsWith l (S "+") = true := by
  induction lines with
  | nil => intro l hl; exact absurd hl (List.not_mem_nil l)
  | cons x rest ih =>
      intro l hl hsw hig
      unfold scanDetail at h
      rcases List.mem_cons.mp hl with hx | hr
      · subst hx
        rw [hsw] at h
        simp only [Bool.false_eq_true, if_false] at h
        rw [hig] at h
        simp only [Bool.false_eq_true, if_false] at h
        by_cases h1 : pyStartsWith l (S " ") = true
        · rw [if_pos h1] at h; exact Option.noConfusion h
        · rw [if_neg h1] at h
          by_cases h2 : pyStartsWith l (S "-") = true
          · rw [if_pos h2] at h; exact Option.noConfusion h
          · rw [if_neg h2] at h
            by_cases h3 : pyStartsWith l (S "+") = true
            · exact h3
            · rw [if_neg h3] at h; exact Option.noConfusion h
      · refine ih ?_ l hr hsw hig
        by_cases hx1 : pyStartsWith x (S "@@") = true
        · rwa [if_pos hx1] at h
        · rw [if_neg hx1] at h
          by_cases hx2 : ignorableLine x = true
          · rwa [if_pos hx2] at h
          · rw [if_neg hx2] at h
            by_cases hx3 : pyStartsWith x (S " ") = true
            · rw [if_pos hx3] at h; exact Option.noConfusion h
            · rw [if_neg hx3] at h
              by_cases hx4 : pyStartsWith x (S "-") = true
              · rw [if_pos hx4] at h; exact Option.noConfusion h
              · rw [if_neg hx4] at h
                by_cases hx5 : pyStartsWith x (S "+") = true
                · rwa [if_pos hx5] at h
                · rw [if_neg hx5] at h; exact Option.noConfusion h

theorem scanDetail_none_of_all {lines : List Str}
    (h : ∀ l ∈ lines, pyStartsWith l (S "@@") = true ∨ ignorableLine l = true
        ∨ pyStartsWith l (S "+") = true) : scanDetail lines = none := by
  induction lines with
  | nil => rfl
  | cons x rest ih =>
      have hrest := ih (fun l hl => h l (List.mem_cons_of_mem _ hl))
      unfold scanDetail
      rcases h x (List.mem_cons_self _ _) with hx | hx | hx
      · rw [if_pos hx]; exact hrest
      · by_cases ha : pyStartsWith x (S "@@") = true
        · rw [if_pos ha]; exact hrest
        · rw [if_neg ha, if_pos hx]; exact hrest
      · by_cases ha : pyStartsWith x (S "@@") = true
        · rw [if_pos ha]; exact hrest
        · rw [if_neg ha]
          by_cases hb : ignorableLine x = true
          · rw [if_pos hb]; exact hrest
          · rw [if_neg hb]
            have hsp : pyStartsWith x (S " ") = false :=
              pyStartsWith_false_of_head hx (by decide)
            have hmn : pyStartsWith x (S "-") = false :=
              pyStartsWith_false_of_head hx (by decide)
            rw [hsp]
            simp only [Bool.false_eq_true, if_false]
            rw [hmn]
            simp only [Bool.false_eq_true, if_false]
            rw [if_pos hx]
            exact hrest

theorem scanDetail_first {lines : List Str} {c : Char} {det : Str}
    (hc : (c = ' ' ∧ det = S "context_lines") ∨ (c = '-' ∧ det = S "deletions"))
    (hall : ∀ l ∈ lines, pyStartsWith l (S "@@") = true ∨ ignorableLine l = true
        ∨ pyStartsWith l [c] = true ∨ pyStartsWith l (S "+") = true)
    (hex : ∃ l ∈ lines, pyStartsWith l [c] = true) :
    scanDetail lines = some det := by
  induction lines with
  | nil => obtain ⟨l, hl, _⟩ := hex; exact absurd hl (List.not_mem_nil l)
  | cons x rest ih =>
      have hcsp : c ≠ '\\' := by rcases hc with ⟨h1, _⟩ | ⟨h1, _⟩ <;> subst h1 <;> decide
      have hcat : c ≠ '@' := by rcases hc with ⟨h1, _⟩ | ⟨h1, _⟩ <;> subst h1 <;> decide
      unfold scanDetail
      by_cases hx : pyStartsWith x [c] = true
      · have hsw : pyStartsWith x (S "@@") = false := by
          rw [show S "@@" = '@' :: ['@'] from rfl]
          exact pyStartsWith_false_of_head hx hcat
        have hig : ignorableLine x = false := ignorableLine_false_of_head hx hcsp
        rw [hsw]
        simp only [Bool.false_eq_true, if_false]
        rw [hig]
        simp only [Bool.false_eq_true, if_false]
        rcases hc with ⟨h1, h2⟩ | ⟨h1, h2⟩
        · subst h1; subst h2
          rw [if_pos (by rwa [show S " " = [' '] from rfl])]
        · subst h1; subst h2
          have hnsp : pyStartsWith x (S " ") = false := by
            rw [show S " " = [' '] from rfl]
            exact pyStartsWith_false_of_head hx (by decide)
          rw [hnsp]
          simp only [Bool.false_eq_true, if_false]
          rw [if_pos (by rwa [show S "-" = ['-'] from rfl])]
      · have hex' : ∃ l ∈ rest, pyStartsWith l [c] = true := by
          obtain ⟨l, hl, hsw⟩ := hex
          rcases List.mem_cons.mp hl with h1 | h1
          · subst h1; exact absurd hsw hx
          · exact ⟨l, h1, hsw⟩
        have hrec := ih (fun l hl => hall l (List.mem_cons_of_mem _ hl)) hex'
        rcases hall x (List.mem_cons_self _ _) with ha | ha | ha | ha
        · rw [if_pos ha]; exact hrec
        · by_cases hb : pyStartsWith x (S "@@") = true
          · rw [if_pos hb]; exact hrec
          · rw [if_neg hb, if_pos ha]; exact hrec
        · exact absurd ha hx
        · by_cases hb : pyStartsWith x (S "@@") = true
          · rw [if_pos hb]; exact hrec
          · rw [if_neg hb]
            by_cases hg : ignorableLine x = true
            · rw [if_pos hg]; exact hrec
            · rw [if_neg hg]
              have hnsp : pyStartsWith x (S " ") = false :=
                pyStartsWith_false_of_head ha (by decide)
              have hnmn : pyStartsWith x (S "-") = false :=
                pyStartsWith_false_of_head ha (by decide)
              rw [hnsp]
              simp only [Bool.false_eq_true, if_false]
              rw [hnmn]
              simp only [Bool.false_eq_true, if_false]
              rw [if_pos ha]
              exact hrec

theorem validateGo_true_eq (lines : List Str) (sawPlus : Bool) :
    validateEmptyOldGo lines true sawPlus =
      match scanDetail lines with
      | some det => (false, det)
      | none =>
          if sawPlus || lines.any (fun l => pyStartsWith l (S "+")) then (true, S "")
          else (false, S "empty_hunk") := by
  induction lines generalizing sawPlus with
  | nil =>
      unfold validateEmptyOldGo scanDetail
      cases sawPlus <;> simp
  | cons x rest ih =>
      unfold validateEmptyOldGo scanDetail
      by_cases h1 : pyStartsWith x (S "@@") = true
      · rw [if_pos h1, if_pos h1, ih]
        have hplus : pyStartsWith x (S "+") = false := by
          rw [show S "@@" = '@' :: ['@'] from rfl] at h1
          rw [show S "+" = ['+'] from rfl]
          exact pyStartsWith_false_of_head h1 (by decide)
        cases hscan : scanDetail rest <;> simp [hplus]
      · rw [if_neg h1, if_neg h1]
        simp only [not_true, Bool.true_eq_false, if_false, if_true]
        by_cases h2 : ignorableLine x = true
        · have h2' : (pyStartsWith x (S "\\") || x = []) = true := h2
          have hplus : pyStartsWith x (S "+") = false := by
            rcases Bool.or_eq_true_iff.mp h2' with hb | hb
            · rw [show S "\\" = '\\' :: [] from rfl] at hb
              rw [show S "+" = ['+'] from rfl]
              exact pyStartsWith_false_of_head hb (by decide)
            · have : x = [] := by simpa using hb
              subst this
              decide
          rw [if_pos (by simpa [ignorableLine] using h2), if_pos h2, ih]
          cases hscan : scanDetail rest <;> simp [hplus]
        · rw [if_neg (by simpa [ignorableLine] using h2), if_neg h2]
          by_cases h3 : pyStartsWith x (S " ") = true
          · rw [if_pos h3, if_pos h3]
          · rw [if_neg h3, if_neg h3]
            by_cases h4 : pyStartsWith x (S "-") = true
            · rw [if_pos h4, if_pos h4]
            · rw [if_neg h4, if_neg h4]
              by_cases h5 : pyStartsWith x (S "+") = true
              · rw [if_pos h5, if_pos h5, ih]
                cases hscan : scanDetail rest <;> simp [h5]
              · rw [if_neg h5, if_neg h5]

theorem validateGo_false_eq (lines : List Str) :
    validateEmptyOldGo lines false false =
      (if lines.dropWhile (fun l => ¬ pyStartsWith l (S "@@")) = [] then (false, S "no_hunks")
       else validateEmptyOldGo (lines.dropWhile (fun l => ¬ pyStartsWith l (S "@@"))) true false)
    := by
  induction lines with
  | nil => rfl
  | cons x rest ih =>
      by_cases h1 : pyStartsWith x (S "@@") = true
      · have hd : (x :: rest).dropWhile (fun l => ¬ pyStartsWith l (S "@@")) = x :: rest := by
          rw [List.dropWhile_cons]
          simp [h1]
        rw [hd]
        rw [if_neg (by simp)]
        conv_lhs => rw [validateEmptyOldGo]
        rw [if_pos h1]
        conv_rhs => rw [validateEmptyOldGo]
        rw [if_pos h1]
      · have hd : (x :: rest).dropWhile (fun l => ¬ pyStartsWith l (S "@@"))
            = rest.dropWhile (fun l => ¬ pyStartsWith l (S "@@")) := by
          rw [List.dropWhile_cons]
          simp [h1]
        rw [hd]
        have hstep : validateEmptyOldGo (x :: rest) false false
            = validateEmptyOldGo rest false false := by
          conv_lhs => rw [validateEmptyOldGo]
          rw [if_neg h1]
          simp
        rw [hstep, ih]

theorem plus_false_of_ignorable {l : Str} (h : ignorableLine l = true) :
    pyStartsWith l (S "+") = false := by
  rcases Bool.or_eq_true_iff.mp h with hb | hb
  · rw [show S "\\" = '\\' :: [] from rfl] at hb
    rw [show S "+" = ['+'] from rfl]
    exact pyStartsWith_false_of_head hb (by decide)
  · have : l = [] := by simpa using hb
    subst this
    rfl

theorem plus_false_of_header {l : Str} (h : pyStartsWith l (S "@@") = true) :
    pyStartsWith l (S "+") = false := by
  rw [show S "@@" = '@' :: ['@'] from rfl] at h
  rw [show S "+" = ['+'] from rfl]
  exact pyStartsWith_false_of_head h (by decide)

/-- C7: behaviour of the empty-OLD validator and its wiring in
`apply_edit`: hunk bodies with a context line are rejected
(`context_lines`), with a deletion line (`deletions`), hunks whose
bodies have no `+` line are rejected (`empty_hunk` when nothing else
offends first), diffs without hunks (`no_hunks`); a diff of pure
insertions passes; and when the target file is empty, `apply_edit`
reports a validator rejection as error `bad_patch_empty_old` with the
validator's detail, writing nothing.  (When several offending kinds
co-occur the detail is the scan's first offender, so the per-detail
clauses exclude the respectively other kinds.) -/
theorem c7_empty_old_validator :
    (∀ d : Str,
      ((∃ l ∈ bodyLines d, pyStartsWith l (S " ") = true)
        ∨ (∃ l ∈ bodyLines d, pyStartsWith l (S "-") = true)) →
        (validateDiffForEmptyOld d).1 = false)
    ∧ (∀ d : Str,
        (∀ l ∈ bodyLines d, pyStartsWith l (S " ") = true ∨ pyStartsWith l (S "+") = true
            ∨ ignorableLine l = true) →
        (∃ l ∈ bodyLines d, pyStartsWith l (S " ") = true) →
        validateDiffForEmptyOld d = (false, S "context_lines"))
    ∧ (∀ d : Str,
        (∀ l ∈ bodyLines d, pyStartsWith l (S "-") = true ∨ pyStartsWith l (S "+") = true
            ∨ ignorableLine l = true) →
        (∃ l ∈ bodyLines d, pyStartsWith l (S "-") = true) →
        validateDiffForEmptyOld d = (false, S "deletions"))
    ∧ (∀ d : Str, hunkRegion d ≠ [] → (∀ l ∈ bodyLines d, ignorableLine l = true) →
        validateDiffForEmptyOld d = (false, S "empty_hunk"))
    ∧ (∀ d : Str, hunkRegion d = [] → validateDiffForEmptyOld d = (false, S "no_hunks"))
    ∧ (∀ d : Str, (∀ l ∈ bodyLines d, pyStartsWith l (S "+") = true ∨ ignorableLine l = true) →
        (∃ l ∈ bodyLines d, pyStartsWith l (S "+") = true) →
        validateDiffForEmptyOld d = (true, S ""))
    ∧ (∀ (path patch instruction : Str) (syntaxOracle : Str → Bool)
        (stage backup gitAddOk : Bool) (why : Str),
        pySubstr (S "@@") patch = true →
        validateDiffForEmptyOld (normalizeUnifiedDiff (maybeUnescapeLLM patch))
          = (false, why) →
        applyEdit path patch [] instruction true syntaxOracle stage backup gitAddOk
          = ⟨.err (S "bad_patch_empty_old") why, none, false⟩) := by
  have hmain : ∀ d : Str, validateDiffForEmptyOld d =
      (if hunkRegion d = [] then (false, S "no_hunks")
       else
        match scanDetail (hunkRegion d) with
        | some det => (false, det)
        | none =>
            if (hunkRegion d).any (fun l => pyStartsWith l (S "+")) then (true, S "")
            else (false, S "empty_hunk")) := by
    intro d
    unfold validateDiffForEmptyOld
    rw [validateGo_false_eq]
    rw [show (pySplitLines d).dropWhile (fun l => ¬ pyStartsWith l (S "@@")) = hunkRegion d
      from rfl]
    by_cases hr : hunkRegion d = []
    · rw [if_pos hr, if_pos hr]
    · rw [if_neg hr, if_neg hr, validateGo_true_eq]
      cases scanDetail (hunkRegion d) <;> simp
  have hmem : ∀ (d : Str) (l : Str), l ∈ hunkRegion d →
      pyStartsWith l (S "@@") = false → l ∈ bodyLines d := by
    intro d l hl hsw
    unfold bodyLines
    rw [List.mem_filter]
    exact ⟨hl, by simp [hsw]⟩
  have hmem' : ∀ (d : Str) (l : Str), l ∈ bodyLines d →
      l ∈ hunkRegion d ∧ pyStartsWith l (S "@@") = false := by
    intro d l hl
    refine ⟨(List.mem_filter.mp hl).1, ?_⟩
    simpa using (List.mem_filter.mp hl).2
  refine ⟨?_, ?_, ?_, ?_, ?_, ?_, ?_⟩
  · -- (1) any context or deletion line rejects
    intro d hex
    have hne : hunkRegion d ≠ [] := by
      intro hr
      rcases hex with ⟨l, hl, _⟩ | ⟨l, hl, _⟩ <;>
        { have hh := (hmem' d l hl).1
          rw [hr] at hh
          exact absurd hh (List.not_mem_nil l) }
    rw [hmain d, if_neg hne]
    cases hscan : scanDetail (hunkRegion d) with
    | some det => simp
    | none =>
        exfalso
        have hall := scanDetail_none_all hscan
        rcases hex with ⟨l, hl, hc⟩ | ⟨l, hl, hc⟩
        · rw [show S " " = [' '] from rfl] at hc
          have hig : ignorableLine l = false := ignorableLine_false_of_head hc (by decide)
          have hplus := hall l (hmem' d l hl).1 (hmem' d l hl).2 hig
          rw [show S "+" = ['+'] from rfl] at hplus
          have hf : pyStartsWith l ('+' :: []) = false :=
            pyStartsWith_false_of_head hc (show ' ' ≠ '+' from by decide)
          rw [hf] at hplus
          exact Bool.noConfusion hplus
        · rw [show S "-" = ['-'] from rfl] at hc
          have hig : ignorableLine l = false := ignorableLine_false_of_head hc (by decide)
          have hplus := hall l (hmem' d l hl).1 (hmem' d l hl).2 hig
          rw [show S "+" = ['+'] from rfl] at hplus
          have hf : pyStartsWith l ('+' :: []) = false :=
            pyStartsWith_false_of_head hc (show '-' ≠ '+' from by decide)
          rw [hf] at hplus
          exact Bool.noConfusion hplus
  · -- (2) context lines dominate a context/insert body
    intro d hall hex
    have hne : hunkRegion d ≠ [] := by
      intro hr
      obtain ⟨l, hl, _⟩ := hex
      have hh := (hmem' d l hl).1
      rw [hr] at hh
      exact absurd hh (List.not_mem_nil l)
    rw [hmain d, if_neg hne]
    have hscan : scanDetail (hunkRegion d) = some (S "context_lines") := by
      apply scanDetail_first (c := ' ') (Or.inl ⟨rfl, rfl⟩)
      · intro l hl
        by_cases hh : pyStartsWith l (S "@@") = true
        · exact Or.inl hh
        · rcases hall l (hmem d l hl (by simpa using hh)) with h | h | h
          · exact Or.inr (Or.inr (Or.inl (by rwa [show ([' '] : Str) = S " " from rfl])))
          · exact Or.inr (Or.inr (Or.inr h))
          · exact Or.inr (Or.inl h)
      · obtain ⟨l, hl, hc⟩ := hex
        exact ⟨l, (hmem' d l hl).1, by rwa [show ([' '] : Str) = S " " from rfl]⟩
    rw [hscan]
  · -- (3) deletions dominate a delete/insert body
    intro d hall hex
    have hne : hunkRegion d ≠ [] := by
      intro hr
      obtain ⟨l, hl, _⟩ := hex
      have hh := (hmem' d l hl).1
      rw [hr] at hh
      exact absurd hh (List.not_mem_nil l)
    rw [hmain d, if_neg hne]
    have hscan : scanDetail (hunkRegion d) = some (S "deletions") := by
      apply scanDetail_first (c := '-') (Or.inr ⟨rfl, rfl⟩)
      · intro l hl
        by_cases hh : pyStartsWith l (S "@@") = true
        · exact Or.inl hh
        · rcases hall l (hmem d l hl (by simpa using hh)) with h | h | h
          · exact Or.inr (Or.inr (Or.inl (by rwa [show (['-'] : Str) = S "-" from rfl])))
          · exact Or.inr (Or.inr (Or.inr h))
          · exact Or.inr (Or.inl h)
      · obtain ⟨l, hl, hc⟩ := hex
        exact ⟨l, (hmem' d l hl).1, by rwa [show (['-'] : Str) = S "-" from rfl]⟩
    rw [hscan]
  · -- (4) hunks with only ignorable body lines: empty_hunk
    intro d hne hall
    rw [hmain d, if_neg hne]
    have hscan : scanDetail (hunkRegion d) = none := by
      apply scanDetail_none_of_all
      intro l hl
      by_cases hh : pyStartsWith l (S "@@") = true
      · exact Or.inl hh
      · exact Or.inr (Or.inl (hall l (hmem d l hl (by simpa using hh))))
    rw [hscan]
    have hany : (hunkRegion d).any (fun l => pyStartsWith l (S "+")) = false := by
      rw [List.any_eq_false]
      intro l hl
      by_cases hh : pyStartsWith l (S "@@") = true
      · simp [plus_false_of_header hh]
      · simp [plus_false_of_ignorable (hall l (hmem d l hl (by simpa using hh)))]
    rw [hany]
    simp
  · -- (5) no hunks
    intro d hr
    rw [hmain d, if_pos hr]
  · -- (6) pure insertions pass
    intro d hall hex
    have hne : hunkRegion d ≠ [] := by
      intro hr
      obtain ⟨l, hl, _⟩ := hex
      have hh := (hmem' d l hl).1
      rw [hr] at hh
      exact absurd hh (List.not_mem_nil l)
    rw [hmain d, if_neg hne]
    have hscan : scanDetail (hunkRegion d) = none := by
      apply scanDetail_none_of_all
      intro l hl
      by_cases hh : pyStartsWith l (S "@@") = true
      · exact Or.inl hh
      · rcases hall l (hmem d l hl (by simpa using hh)) with h | h
        · exact Or.inr (Or.inr h)
        · exact Or.inr (Or.inl h)
    rw [hscan]
    have hany : (hunkRegion d).any (fun l => pyStartsWith l (S "+")) = true := by
      rw [List.any_eq_true]
      obtain ⟨l, hl, hc⟩ := hex
      exact ⟨l, (hmem' d l hl).1, hc⟩
    rw [hany]
    simp
  · -- (7) wiring in apply_edit
    intro path patch instruction syntaxOracle stage backup gitAddOk why hat hval
    have hcheck : applyEditCheck path patch [] instruction true syntaxOracle
        = .error (S "bad_patch_empty_old", why) := by
      unfold applyEditCheck
      rw [if_neg (by simp)]
      rw [if_neg (by simp [hat])]
      rw [if_pos ⟨rfl, by rw [hval]⟩]
      rw [hval]
    unfold applyEdit
    rw [hcheck]

/-- C7 witness: a context line under empty OLD is reported as
`bad_patch_empty_old` / `context_lines`, with nothing written. -/
theorem c7_witness :
    applyEdit (S "f.txt") (S "@@ -1,1 +1,1 @@\n x\n+y\n") [] (S "apply") true
        (fun _ => true) false true true
      = ⟨.err (S "bad_patch_empty_old") (S "context_lines"), none, false⟩ :=
  (c7_empty_old_validator).2.2.2.2.2.2 (S "f.txt") (S "@@ -1,1 +1,1 @@\n x\n+y\n")
    (S "apply") (fun _ => true) false true true (S "context_lines") (by decide) (by decide)

-- ==========================================================================
-- difflib.unified_diff (stdlib), as used by _make_patch_from_fulltext
-- ==========================================================================

/-- Decimal digits of a number (`str(n)` / `'{}'.format(n)`). -/
def natChars (n : Nat) : Str := Nat.toDigits 10 n

/-- `difflib._format_range_unified(start, stop)`. -/
def fmtRangeUnified (start stop : Nat) : Str :=
  let beginning := start + 1
  let length := stop - start
  if length = 1 then natChars beginning
  else natChars (if length = 0 then beginning - 1 else beginning) ++ (',' :: natChars length)

/-- The `codes[0]` head-context trim of `get_grouped_opcodes`. -/
def trimHead (n : Nat) : List Opcode → List Opcode
  | [] => []
  | (tag, i1, i2, j1, j2) :: rest =>
      if tag = Tag.equal then (tag, max i1 (i2 - n), i2, max j1 (j2 - n), j2) :: rest
      else (tag, i1, i2, j1, j2) :: rest

/-- The `codes[-1]` tail-context trim of `get_grouped_opcodes`. -/
def trimTail (n : Nat) (codes : List Opcode) : List Opcode :=
  match codes.reverse with
  | [] => []
  | (tag, i1, i2, j1, j2) :: restRev =>
      if tag = Tag.equal then ((tag, i1, min i2 (i1 + n), j1, min j2 (j1 + n)) :: restRev).reverse
      else codes

/-- The grouping loop of `get_grouped_opcodes`: split at equal runs
longer than `nn = 2n`, keeping `n` lines of context on each side; a
trailing group consisting of one equal opcode is not yielded. -/
def groupSplitGo (nn n : Nat) : List Opcode → List Opcode → List (List Opcode)
  | [], group =>
      match group with
      | [] => []
      | [(Tag.equal, _, _, _, _)] => []
      | _ => [group]
  | (tag, i1, i2, j1, j2) :: rest, group =>
      if tag = Tag.equal ∧ nn < i2 - i1 then
        (group ++ [(tag, i1, min i2 (i1 + n), j1, min j2 (j1 + n))]) ::
          groupSplitGo nn n rest [(tag, max i1 (i2 - n), i2, max j1 (j2 - n), j2)]
      else groupSplitGo nn n rest (group ++ [(tag, i1, i2, j1, j2)])

/-- `get_grouped_opcodes(n)` of `SequenceMatcher(None, a, b)`. -/
def getGroupedOpcodes [DecidableEq α] [Inhabited α] (a b : List α) (n : Nat) :
    List (List Opcode) :=
  let codes0 := getOpcodes a b
  let codes1 := if codes0 = [] then [(Tag.equal, 0, 1, 0, 1)] else codes0
  groupSplitGo (n + n) n (trimTail n (trimHead n codes1)) []

/-- The body lines one opcode contributes to a unified diff
(`-` lines from `a` before `+` lines from `b` for a replace). -/
def opLines (a b : List Str) : Opcode → List Str
  | (Tag.equal, i1, i2, _, _) => (seg a i1 i2).map (fun l => ' ' :: l)
  | (Tag.replace, i1, i2, j1, j2) =>
      (seg a i1 i2).map (fun l => '-' :: l) ++ (seg b j1 j2).map (fun l => '+' :: l)
  | (Tag.delete, i1, i2, _, _) => (seg a i1 i2).map (fun l => '-' :: l)
  | (Tag.insert, _, _, j1, j2) => (seg b j1 j2).map (fun l => '+' :: l)

/-- The `@@ -r1 +r2 @@\n` header line of one group. -/
def groupHeader (g : List Opcode) : Str :=
  match g with
  | [] => []
  | first :: _ =>
      let last := g.getLastD first
      (S "@@ -" ++ fmtRangeUnified first.2.1 last.2.2.1)
        ++ (S " +" ++ fmtRangeUnified first.2.2.2.1 last.2.2.2.2)
        ++ (S " @@" ++ ['\n'])

/-- All lines one group contributes to the unified diff. -/
def groupLines (a b : List Str) (g : List Opcode) : List Str :=
  groupHeader g :: (g.map (opLines a b)).flatten

/-- `difflib.unified_diff(a, b, fromfile, tofile)` (defaults `n=3`,
`lineterm="\n"`, no dates), as the list of yielded lines; empty when
there are no groups (the `---`/`+++` headers are emitted only once
before the first group). -/
def unifiedDiffLines (fromfile tofile : Str) (a b : List Str) : List Str :=
  match getGroupedOpcodes a b 3 with
  | [] => []
  | groups =>
      (S "--- " ++ fromfile ++ ['\n']) :: (S "+++ " ++ tofile ++ ['\n']) ::
        (groups.map (groupLines a b)).flatten

/-- `_make_patch_from_fulltext(path, old, new)` from `tools/coder.py`. -/
def makePatchFromFulltext (path old new : Str) : Str :=
  (unifiedDiffLines (path ++ S " (old)") (path ++ S " (new)")
    (pySplitKeep old) (pySplitKeep new)).flatten

-- ==========================================================================
-- tools/coder.py : fence/diff/fulltext salvage helpers
-- ==========================================================================

/-- `_strip_fences(s)` from `tools/coder.py`. -/
def stripFencesCoder (s : Str) : Str :=
  let s1 := pyStrip s
  if s1 = [] then s1
  else if pyStartsWith s1 (S "```") then
    let lines := pySplitLines s1
    let lines2 :=
      match lines with
      | l0 :: rest => if pyStartsWith (pyLstrip l0) (S "```") then rest else lines
      | [] => lines
    let lines3 :=
      match lines2.getLast? with
      | some ll => if pyStartsWith (pyLstrip ll) (S "```") then lines2.dropLast else lines2
      | none => lines2
    pyStrip (pyJoin (S "\n") lines3)
  else s1

/-- Index of the first occurrence of `needle` in `hay` (`hay.find`),
scanning with `fuel = hay.length + 1`. -/
def pyFindSubGo (needle : Str) : Str → Nat → Nat → Option Nat
  | _, _, 0 => none
  | hay, i, fuel + 1 =>
      if needle.isPrefixOf hay then some i
      else
        match hay with
        | [] => none
        | _ :: t => pyFindSubGo needle t (i + 1) fuel

/-- Python `hay.find(needle)` (as an `Option`). -/
def pyFindSub (needle hay : Str) : Option Nat := pyFindSubGo needle hay 0 (hay.length + 1)

/-- `_extract_diff_fallback(raw)` from `tools/coder.py`. -/
def extractDiffFallback (raw : Str) : Option Str :=
  match pyFindSub (S "@@") raw with
  | none => none
  | some i =>
      let guess := normalizeUnifiedDiff (raw.drop i)
      if pySubstr (S "@@") guess then some guess else none

/-- `_ensure_display_diff(path, patch_hunks_only)` from `tools/coder.py`. -/
def ensureDisplayDiff (path p : Str) : Str :=
  if ¬ pySubstr (S "@@") p then p
  else if pyStartsWith (pyLstrip p) (S "--- ") then
    if pyEndsWith p (S "\n") then p else p ++ S "\n"
  else
    let out := (S "--- a/" ++ path ++ S "\n") ++ (S "+++ b/" ++ path ++ S "\n") ++ p
    if pyEndsWith out (S "\n") then out else out ++ S "\n"

/-- Body scan of `_CONTENT_FIELD_RE`'s `(?:\\.|[^"\\])*` (DOTALL):
escape pairs or non-quote-non-backslash characters, then the closing
quote; deterministic (no atom can consume an unescaped quote). -/
def cfBody : Str → Option (Str × Str)
  | [] => none
  | '"' :: r => some ([], r)
  | '\\' :: c :: r => (cfBody r).map (fun p => ('\\' :: c :: p.1, p.2))
  | '\\' :: [] => none
  | c :: r => (cfBody r).map (fun p => (c :: p.1, p.2))

/-- The `"\s*[}\]]?\s*$` tail of `_CONTENT_FIELD_RE` (with DOTALL,
`$` is end-of-string modulo the whitespace already consumed). -/
def cfTail (s : Str) : Bool :=
  let r1 := s.dropWhile pyIsSpace
  let r2 := match r1 with
    | '\x7d' :: t => t
    | ']' :: t => t
    | _ => r1
  r2.dropWhile pyIsSpace = []

/-- `_CONTENT_FIELD_RE.search(txt)`: leftmost position where
`"content"\s*:\s*"(body)"` followed by the tail matches. -/
def contentFieldSearchGo : Str → Nat → Option Str
  | _, 0 => none
  | s, fuel + 1 =>
      (if (S "\"content\"").isPrefixOf s then
        match (s.drop 9).dropWhile pyIsSpace with
        | ':' :: r2 =>
            match r2.dropWhile pyIsSpace with
            | '"' :: r3 =>
                match cfBody r3 with
                | some (body, r4) => if cfTail r4 then some body else none
                | none => none
            | _ => none
        | _ => none
      else none).orElse (fun _ =>
        match s with
        | [] => none
        | _ :: t => contentFieldSearchGo t fuel)

/-- `_unescape_json_string_fragment(s)` from `tools/coder.py`. -/
def unescapeJsonFragment (s : Str) : Str :=
  pyReplace (S "\\\\") (S "\\")
    (pyReplace (S "\\/") (S "/")
      (pyReplace (S "\\\"") (S "\"")
        (pyReplace (S "\\t") (S "\t")
          (pyReplace (S "\\r") (S "\r")
            (pyReplace (S "\\n") (S "\n")
              (pyReplace (S "\\r\\n") (S "\n") s))))))

/-- `_extract_fulltext_content_salvage(raw)` from `tools/coder.py`. -/
def extractFulltextContentSalvage (raw : Str) : Option Str :=
  if raw = [] then none
  else
    let txt := pyStrip raw
    match contentFieldSearchGo txt (txt.length + 1) with
    | some body => some (unescapeJsonFragment body)
    | none =>
        match pyFindSub (S "\"content\": \"") txt with
        | some j =>
            let frag := txt.drop (j + 12)
            match pyRFindChar '"' frag with
            | some k => if 0 < k then some (unescapeJsonFragment (frag.take k)) else none
            | none => none
        | none => none

/-- A trailing closer line of `_salvage_broken_content_envelope`
(`strip()` in `('"', '"}', '"},', "}", "},")`). -/
def isCloserLine (l : Str) : Bool :=
  pyStrip l = S "\"" || pyStrip l = S "\"\x7d" || pyStrip l = S "\"\x7d," ||
  pyStrip l = S "\x7d" || pyStrip l = S "\x7d,"

/-- `_salvage_broken_content_envelope(raw)` from `tools/coder.py`. -/
def salvageBrokenContentEnvelope (raw : Str) : Option Str :=
  let lines := pySplitLines raw
  if lines.length < 3 then none
  else
    match lines with
    | l0 :: l1 :: body =>
        if pyStrip l0 ≠ ['\x7b'] then none
        else if ¬ pyStartsWith (pyLstrip l1) (S "\"content\": \"") then none
        else
          let body2 := (body.reverse.dropWhile isCloserLine).reverse
          some ((pyJoin (S "\n") body2).dropWhile (fun c => c = '\n'))
    | _ => none

-- ==========================================================================
-- tools/coder.py : the edit driver (edit_plan, _finalize_ok,
-- _fulltext_fallback)
-- ==========================================================================

/-- Driver results: `ok` also records, as a ghost field, the validated
content `newContent` (the `new2` of `_finalize_ok`), which the Python
dict does not carry; `err` matches the `{ok: False, error, detail,
patch?}` dicts (detail `""` where absent). -/
inductive EditOutcome : Type where
  | ok (file patch diff newContent : Str) : EditOutcome
  | err (error detail : Str) (patch : Option Str) : EditOutcome
deriving DecidableEq, Repr

/-- `_finalize_ok(path, instruction, old, new, patch)` from
`tools/coder.py`. -/
def finalizeOk (syntaxOracle : Str → Bool) (path instruction old new patch : Str) :
    EditOutcome :=
  let new2 := autofixFutureImport old new
  if ¬ pySyntaxOk syntaxOracle path new2 then
    if (futureImportGuardCoder old new2).1 = false then
      .err (S "guard_blocked") (futureImportGuardCoder old new2).2 (some patch)
    else .err (S "guard_blocked") (S "syntax_error_after_edit") (some patch)
  else
    let g := enforceGuards path instruction old new2
    if g.1 = false then .err (S "guard_blocked") g.2 (some patch)
    else if new2 ≠ new then
      let patch2 := makePatchFromFulltext path old new2
      .ok path patch2 (ensureDisplayDiff path patch2) new2
    else .ok path patch (ensureDisplayDiff path patch) new2

/-- The `new` recovery of `_fulltext_fallback` when `loads_obj` fails
or lacks a string `"content"`: regex salvage, envelope salvage, then
fence-stripped raw. -/
def fulltextSalvageNew (raw : Str) : Str :=
  match extractFulltextContentSalvage raw with
  | some s1 =>
      if pyStrip s1 ≠ [] then s1
      else
        match salvageBrokenContentEnvelope raw with
        | some s2 => if pyStrip s2 ≠ [] then s2 else stripFencesCoder raw
        | none => stripFencesCoder raw
  | none =>
      match salvageBrokenContentEnvelope raw with
      | some s2 => if pyStrip s2 ≠ [] then s2 else stripFencesCoder raw
      | none => stripFencesCoder raw

/-- `_fulltext_fallback(path, instruction, old, reason, cache)` from
`tools/coder.py`; `raw` is the (stripped) model response to the
full-replace prompt. -/
def fulltextFallback (syntaxOracle : Str → Bool) (path instruction old raw : Str) :
    EditOutcome :=
  let new0 :=
    match loadsObj raw with
    | some d =>
        match assocFind d (S "content") with
        | some (JVal.jstr v) => v
        | _ => fulltextSalvageNew raw
    | none => fulltextSalvageNew raw
  let new1 := autofixFutureImport old (maybeUnescapeLLM new0)
  if ¬ pySyntaxOk syntaxOracle path new1 then
    if (futureImportGuardCoder old new1).1 = false then
      .err (S "guard_blocked") (futureImportGuardCoder old new1).2 none
    else .err (S "guard_blocked") (S "syntax_error_after_edit") none
  else
    let patch := makePatchFromFulltext path old new1
    if (futureImportGuardCoder old new1).1 = false then
      .err (S "guard_blocked") (futureImportGuardCoder old new1).2 (some patch)
    else finalizeOk syntaxOracle path instruction old new1 patch

/-- The `diff` recovery of `edit_plan`'s main rounds: `loads_obj` then
normalize (a non-string or missing `"diff"` normalizes to `""` resp.
`"\n"`), with `_extract_diff_fallback` on exceptions, plus the second
salvage attempt when no `@@` resulted. -/
def roundDiff (raw : Str) : Str :=
  let d0 :=
    match loadsObj raw with
    | some d =>
        match assocFind d (S "diff") with
        | some (JVal.jstr v) => normalizeUnifiedDiff (maybeUnescapeLLM v)
        | some _ => []
        | none => normalizeUnifiedDiff (maybeUnescapeLLM [])
    | none =>
        match extractDiffFallback raw with
        | some sv => sv
        | none => []
  if ¬ pySubstr (S "@@") d0 then
    match extractDiffFallback raw with
    | some sv => sv
    | none => d0
  else d0

/-- The `diff` recovery of the guard-repair rounds (no second salvage
attempt). -/
def guardRepairDiff (raw : Str) : Str :=
  match loadsObj raw with
  | some d =>
      match assocFind d (S "diff") with
      | some (JVal.jstr v) => normalizeUnifiedDiff (maybeUnescapeLLM v)
      | some _ => []
      | none => normalizeUnifiedDiff (maybeUnescapeLLM [])
  | none =>
      match extractDiffFallback raw with
      | some sv => sv
      | none => []

/-- Pop the next model response (`_call_model` consumes the oracle's
responses in call order; an exhausted oracle yields `""`). -/
def nextResp : List Str → Str × List Str
  | [] => ([], [])
  | r :: rest => (r, rest)

/-- The guard-repair retry after a failed finalize (shared by rounds 1
and 2): one more model call, then the repaired diff is applied and
finalized; on any failure the original rejection is returned (the
`"rewrite too violent"` test in the source returns `out1` on both
branches). -/
def guardRepairRound (syntaxOracle : Str → Bool) (path instruction old : Str)
    (out1 : EditOutcome) (rawg : Str) : EditOutcome :=
  let diffg := guardRepairDiff rawg
  if pySubstr (S "@@") diffg then
    match applyUnifiedDiff old diffg with
    | .ok newg =>
        match finalizeOk syntaxOracle path instruction old newg diffg with
        | .ok f p d n => .ok f p d n
        | _ => out1
    | .error _ => out1
  else out1

/-- `edit_plan(path, instruction, root)` from `tools/coder.py`, after
path resolution: `old` is the target file's contents (`fileExists`
models `file_path.exists()`), `responses` the model's raw replies in
call order, `syntaxOracle` the abstracted `compile()`. -/
def editPlan (syntaxOracle : Str → Bool) (path instruction : Str) (fileExists : Bool)
    (old : Str) (responses : List Str) : EditOutcome :=
  if ¬ fileExists then .err (S "file_not_found") (S "") none
  else
    let st1 := nextResp responses
    let raw1 := pyStrip st1.1
    let diff1 := roundDiff raw1
    if ¬ pySubstr (S "@@") diff1 then
      fulltextFallback syntaxOracle path instruction old (pyStrip (nextResp st1.2).1)
    else if old = [] ∧ (validateDiffForEmptyOld diff1).1 = false then
      fulltextFallback syntaxOracle path instruction old (pyStrip (nextResp st1.2).1)
    else
      match applyUnifiedDiff old diff1 with
      | .ok new1 =>
          match finalizeOk syntaxOracle path instruction old new1 diff1 with
          | .ok f p d n => .ok f p d n
          | out1 =>
              guardRepairRound syntaxOracle path instruction old out1
                (pyStrip (nextResp st1.2).1)
      | .error _ =>
          let st2 := nextResp st1.2
          let raw2 := pyStrip st2.1
          let diff2 := roundDiff raw2
          if pySubstr (S "@@") diff2 then
            if old = [] ∧ (validateDiffForEmptyOld diff2).1 = false then
              fulltextFallback syntaxOracle path instruction old (pyStrip (nextResp st2.2).1)
            else
              match applyUnifiedDiff old diff2 with
              | .ok new2 =>
                  match finalizeOk syntaxOracle path instruction old new2 diff2 with
                  | .ok f p d n => .ok f p d n
                  | out2 =>
                      guardRepairRound syntaxOracle path instruction old out2
                        (pyStrip (nextResp st2.2).1)
              | .error _ =>
                  fulltextFallback syntaxOracle path instruction old
                    (pyStrip (nextResp st2.2).1)
          else
            fulltextFallback syntaxOracle path instruction old (pyStrip (nextResp st2.2).1)

/-- **C1, counterexample.**  The spec says every `ok:true` result's
`patch` applies to `old` to yield the validated content.  Run:
`old = "a\n"`, first model reply `"x"` (no diff, so the full-replace
fallback fires), second reply the JSON object with `content` equal to
`old`.  The driver answers `ok:true` with `patch = ""` (difflib's
unified diff of identical texts is empty), and applying that empty
patch to `old` fails with the no-hunks error instead of producing the
validated content. -/
theorem c1_counterexample :
    editPlan (fun _ => true) (S "f.txt") (S "touch") true (S "a\n")
      [S "x", S "\x7b\"content\": \"a\\n\"\x7d"]
      = .ok (S "f.txt") [] [] (S "a\n") ∧
    applyUnifiedDiff (S "a\n") [] = .error PatchError.noHunks := by decide

-- ==========================================================================
-- C1 : where an ok result's patch comes from
-- ==========================================================================

/-- `_finalize_ok` answers ok only with the incoming patch and content
unchanged, or with a patch rebuilt by difflib from the autofixed
content. -/
theorem finalizeOk_ok_src (o : Str → Bool) (path instr old new patch f p d n : Str)
    (h : finalizeOk o path instr old new patch = .ok f p d n) :
    (p = patch ∧ n = new) ∨ p = makePatchFromFulltext path old n := by
  simp only [finalizeOk] at h
  split at h
  · split at h <;> exact EditOutcome.noConfusion h
  · split at h
    · exact EditOutcome.noConfusion h
    · split at h
      · right
        simp only [EditOutcome.ok.injEq] at h
        obtain ⟨h1, h2, h3, h4⟩ := h
        subst h2; subst h4; rfl
      · left
        rename_i hne
        simp only [EditOutcome.ok.injEq] at h
        obtain ⟨h1, h2, h3, h4⟩ := h
        subst h2; subst h4
        exact ⟨rfl, by simpa using hne⟩

/-- `_fulltext_fallback` answers ok only with a difflib-rebuilt patch. -/
theorem fulltextFallback_ok_src (o : Str → Bool) (path instr old raw f p d n : Str)
    (h : fulltextFallback o path instr old raw = .ok f p d n) :
    p = makePatchFromFulltext path old n := by
  simp only [fulltextFallback] at h
  split at h
  · split at h <;> exact EditOutcome.noConfusion h
  · split at h
    · exact EditOutcome.noConfusion h
    · rcases finalizeOk_ok_src _ _ _ _ _ _ _ _ _ _ h with ⟨hp, hn⟩ | hp
      · subst hp; subst hn; rfl
      · exact hp

/-- The guard-repair retry answers ok only from a successful
apply-then-finalize, or by passing through its `out1` argument. -/
theorem guardRepairRound_ok_src (o : Str → Bool) (path instr old : Str)
    (out1 : EditOutcome) (rawg f p d n : Str)
    (h : guardRepairRound o path instr old out1 rawg = .ok f p d n) :
    (applyUnifiedDiff old p = .ok n ∨ p = makePatchFromFulltext path old n) ∨
      out1 = .ok f p d n := by
  simp only [guardRepairRound] at h
  split at h
  · split at h
    · rename_i newg hap
      split at h
      · rename_i f' p' d' n' hfin
        simp only [EditOutcome.ok.injEq] at h
        obtain ⟨h1, h2, h3, h4⟩ := h
        subst h1; subst h2; subst h3; subst h4
        rcases finalizeOk_ok_src _ _ _ _ _ _ _ _ _ _ hfin with ⟨hp, hn⟩ | hp
        · subst hp; subst hn; exact Or.inl (Or.inl hap)
        · exact Or.inl (Or.inr hp)
      · exact Or.inr h
    · exact Or.inr h
  · exact Or.inr h

/-- Every `ok:true` result of the edit driver carries a patch that
either applied successfully to `old` yielding the validated content, or
was rebuilt by `_make_patch_from_fulltext` from the validated
content. -/
theorem editPlan_ok_src (o : Str → Bool) (path instr : Str) (fe : Bool)
    (old : Str) (responses : List Str) (f p d n : Str)
    (h : editPlan o path instr fe old responses = .ok f p d n) :
    applyUnifiedDiff old p = .ok n ∨ p = makePatchFromFulltext path old n := by
  simp only [editPlan] at h
  split at h
  · exact EditOutcome.noConfusion h
  · split at h
    · exact Or.inr (fulltextFallback_ok_src _ _ _ _ _ _ _ _ _ h)
    · split at h
      · exact Or.inr (fulltextFallback_ok_src _ _ _ _ _ _ _ _ _ h)
      · split at h
        · rename_i new1 hap1
          split at h
          · rename_i f' p' d' n' hfin
            simp only [EditOutcome.ok.injEq] at h
            obtain ⟨h1, h2, h3, h4⟩ := h
            subst h1; subst h2; subst h3; subst h4
            rcases finalizeOk_ok_src _ _ _ _ _ _ _ _ _ _ hfin with ⟨hp, hn⟩ | hp
            · subst hp; subst hn; exact Or.inl hap1
            · exact Or.inr hp
          · rename_i out1 hne1
            rcases guardRepairRound_ok_src _ _ _ _ _ _ _ _ _ _ h with hok | hpass
            · exact hok
            · exact absurd hpass (hne1 f p d n)
        · split at h
          · split at h
            · exact Or.inr (fulltextFallback_ok_src _ _ _ _ _ _ _ _ _ h)
            · split at h
              · rename_i new2 hap2
                split at h
                · rename_i f' p' d' n' hfin
                  simp only [EditOutcome.ok.injEq] at h
                  obtain ⟨h1, h2, h3, h4⟩ := h
                  subst h1; subst h2; subst h3; subst h4
                  rcases finalizeOk_ok_src _ _ _ _ _ _ _ _ _ _ hfin with ⟨hp, hn⟩ | hp
                  · subst hp; subst hn; exact Or.inl hap2
                  · exact Or.inr hp
                · rename_i out2 hne2
                  rcases guardRepairRound_ok_src _ _ _ _ _ _ _ _ _ _ h with hok | hpass
                  · exact hok
                  · exact absurd hpass (hne2 f p d n)
              · exact Or.inr (fulltextFallback_ok_src _ _ _ _ _ _ _ _ _ h)
          · exact Or.inr (fulltextFallback_ok_src _ _ _ _ _ _ _ _ _ h)

-- ==========================================================================
-- C1 : line theory for the difflib round trip
-- ==========================================================================

/-- A "closed" line: nonempty, line-break characters only as the
trailing terminator (a single break character or `"\r\n"`). -/
def properLine : Str → Bool
  | [] => false
  | [c] => isLineBreak c
  | c :: c2 :: rest =>
      if c = '\r' then c2 = '\n' && rest = []
      else !(isLineBreak c) && properLine (c2 :: rest)

/-- A line-break-free string. -/
def breakFree (l : Str) : Bool := l.all (fun c => !(isLineBreak c))

/-- Whether a string ends with a line-break character. -/
def endsBreak : Str → Bool
  | [] => false
  | [c] => isLineBreak c
  | _ :: c2 :: rest => endsBreak (c2 :: rest)

theorem pySplitKeepGo_flatten (n : Nat) :
    ∀ s : Str, s.length ≤ n → ∀ acc : Str, (pySplitKeepGo acc s).flatten = acc ++ s := by
  induction n with
  | zero =>
      intro s hs acc
      have : s = [] := List.length_eq_zero.mp (Nat.le_zero.mp hs)
      subst this
      simp only [pySplitKeepGo]
      split <;> simp_all
  | succ n ih =>
      intro s hs acc
      match s with
      | [] =>
          simp only [pySplitKeepGo]
          split <;> simp_all
      | c :: rest =>
          rw [pySplitKeepGo.eq_def]
          simp only []
          split
          · rename_i hc
            subst hc
            split
            · simp
            · rename_i c2 rest2
              split
              · rename_i hc2
                subst hc2
                have := ih rest2 (by simp at hs ⊢; omega) []
                simp [this]
              · have := ih (c2 :: rest2) (by simp at hs ⊢; omega) []
                simp [this]
          · split
            · have := ih rest (by simp at hs ⊢; omega) []
              simp [this]
            · have := ih rest (by simp at hs ⊢; omega) (acc ++ [c])
              simp [this]

theorem pySplitKeep_flatten (s : Str) : (pySplitKeep s).flatten = s := by
  simpa using pySplitKeepGo_flatten s.length s (le_refl _) []

def goodLast (l : Str) : Bool := properLine l || (breakFree l && !(l.isEmpty))

def properChain : List Str → Bool
  | [] => true
  | [l] => goodLast l
  | l :: l2 :: rest => properLine l && properChain (l2 :: rest)

-- basic facts

theorem properLine_ne_nil {l : Str} (h : properLine l = true) : l ≠ [] := by
  intro hc; subst hc; simp [properLine] at h

theorem goodLast_ne_nil {l : Str} (h : goodLast l = true) : l ≠ [] := by
  intro hc; subst hc
  simp [goodLast, properLine, breakFree] at h

theorem properLine_goodLast {l : Str} (h : properLine l = true) : goodLast l = true := by
  simp [goodLast, h]

theorem properLine_cons_of {a : Char} {l : Str} (ha : isLineBreak a = false)
    (hl : properLine l = true) : properLine (a :: l) = true := by
  have hne := properLine_ne_nil hl
  match l, hne with
  | x :: xs, _ =>
      rw [properLine]
      have hane : ¬ a = '\r' := by intro hx; subst hx; simp [isLineBreak] at ha
      simp [hane, ha, hl]

theorem properChain_cons {x : Str} {L : List Str} (hx : properLine x = true)
    (hL : properChain L = true) : properChain (x :: L) = true := by
  cases L with
  | nil => simpa [properChain] using properLine_goodLast hx
  | cons y r => simp [properChain, hx, hL]

theorem properChain_cons_elim {x : Str} {L : List Str}
    (h : properChain (x :: L) = true) : goodLast x = true ∧ (L = [] ∨ properChain L = true) := by
  cases L with
  | nil => simp [properChain] at h; exact ⟨h, Or.inl rfl⟩
  | cons y r =>
      simp [properChain] at h
      exact ⟨properLine_goodLast h.1, Or.inr (by simpa [properChain] using h.2)⟩

theorem properChain_append {L1 L2 : List Str} (h1 : ∀ l ∈ L1, properLine l = true)
    (h2 : properChain L2 = true) : properChain (L1 ++ L2) = true := by
  induction L1 with
  | nil => simpa using h2
  | cons x r ih =>
      have := ih (fun l hl => h1 l (List.mem_cons_of_mem _ hl))
      exact properChain_cons (h1 x (List.mem_cons_self _ _)) this

theorem properChain_all_proper {L : List Str} (h : ∀ l ∈ L, properLine l = true) :
    properChain L = true := by
  have h0 : properChain ([] : List Str) = true := rfl
  simpa using properChain_append h h0

theorem properLine_append_break {acc : Str} (c : Char) (hacc : breakFree acc = true)
    (hc : isLineBreak c = true) : properLine (acc ++ [c]) = true := by
  induction acc with
  | nil => simpa [properLine] using hc
  | cons a r ih =>
      simp [breakFree] at hacc
      have hr : breakFree r = true := by simp [breakFree]; exact hacc.2
      have ha : isLineBreak a = false := by simpa using hacc.1
      exact properLine_cons_of ha (ih hr)

theorem properLine_append_crlf {acc : Str} (hacc : breakFree acc = true) :
    properLine (acc ++ ['\r', '\n']) = true := by
  induction acc with
  | nil => simp [properLine]
  | cons a r ih =>
      simp [breakFree] at hacc
      have hr : breakFree r = true := by simp [breakFree]; exact hacc.2
      have ha : isLineBreak a = false := by simpa using hacc.1
      exact properLine_cons_of ha (ih hr)

theorem breakFree_cons_elim {c : Char} {r : Str} (h : breakFree (c :: r) = true) :
    isLineBreak c = false ∧ breakFree r = true := by
  have h' : (!(isLineBreak c) && breakFree r) = true := h
  cases hb : isLineBreak c with
  | true => rw [hb] at h'; simp at h'
  | false =>
      rw [hb] at h'
      simp at h'
      exact ⟨rfl, h'⟩

theorem splitKeepGo_breakFree {l : Str} : ∀ acc : Str, breakFree l = true →
    acc ++ l ≠ [] → pySplitKeepGo acc l = [acc ++ l] := by
  induction l with
  | nil =>
      intro acc _ hne
      simp at hne
      simp [pySplitKeepGo, hne]
  | cons c r ih =>
      intro acc hl _
      obtain ⟨hc, hr⟩ := breakFree_cons_elim hl
      have hcr : ¬ c = '\r' := by intro hx; subst hx; simp [isLineBreak] at hc
      rw [pySplitKeepGo.eq_def]
      simp only [if_neg hcr, hc, Bool.false_eq_true, if_false]
      rw [ih (acc ++ [c]) hr (by simp)]
      simp

theorem splitKeepGo_proper_prepend {l : Str} : ∀ acc rest : Str, properLine l = true →
    (l.getLast? = some '\r' → rest.head? ≠ some '\n') →
    pySplitKeepGo acc (l ++ rest) = (acc ++ l) :: pySplitKeepGo [] rest := by
  induction l with
  | nil => intro _ _ h _; simp [properLine] at h
  | cons c tl ih =>
      intro acc rest hl hcr
      cases tl with
      | nil =>
          have hc : isLineBreak c = true := by simpa [properLine] using hl
          rw [List.cons_append, List.nil_append, pySplitKeepGo.eq_def]
          by_cases hc' : c = '\r'
          · subst hc'
            simp only [if_pos rfl]
            cases rest with
            | nil => simp [pySplitKeepGo]
            | cons c2 rest2 =>
                have h2 : ¬ c2 = '\n' := by
                  intro hx2; subst hx2; exact hcr (by simp) rfl
                simp [if_neg h2]
          · simp only [if_neg hc', hc, if_true]
      | cons c2 tl2 =>
          by_cases hc' : c = '\r'
          · subst hc'
            by_cases hx : c2 = '\n'
            case neg => exfalso; simp [properLine, hx] at hl
            subst hx
            by_cases hy : tl2 = []
            case neg => exfalso; simp [properLine, hy] at hl
            subst hy
            rw [List.cons_append, List.cons_append, List.nil_append, pySplitKeepGo.eq_def]
            simp [pySplitKeep]
          · have hcb : isLineBreak c = false := by
              by_contra hxx
              rw [Bool.not_eq_false] at hxx
              simp [properLine, hc', hxx] at hl
            have htl : properLine (c2 :: tl2) = true := by
              simpa [properLine, hc', hcb] using hl
            have hcr' : (c2 :: tl2).getLast? = some '\r' → rest.head? ≠ some '\n' := by
              intro hlast
              exact hcr (by rw [List.getLast?_cons_cons]; exact hlast)
            rw [List.cons_append, pySplitKeepGo.eq_def]
            simp only [if_neg hc', hcb, Bool.false_eq_true, if_false]
            have := ih (acc ++ [c]) rest htl hcr'
            simpa using this

theorem splitKeepGo_all_proper (n : Nat) : ∀ s acc : Str, s.length ≤ n →
    breakFree acc = true → endsBreak s = true →
    ∀ l ∈ pySplitKeepGo acc s, properLine l = true := by
  induction n with
  | zero =>
      intro s acc hs _ hend
      have : s = [] := List.length_eq_zero.mp (Nat.le_zero.mp hs)
      subst this
      simp [endsBreak] at hend
  | succ n ih =>
      intro s acc hs hacc hend
      match s with
      | [] => simp [endsBreak] at hend
      | c :: rest =>
          rw [pySplitKeepGo.eq_def]
          simp only []
          split
          · rename_i hc
            subst hc
            split
            · intro l hl
              simp at hl
              subst hl
              exact properLine_append_break '\r' hacc (by simp [isLineBreak])
            · rename_i c2 rest2
              split
              · rename_i hc2
                subst hc2
                intro l hl
                rcases List.mem_cons.mp hl with h | h
                · subst h; exact properLine_append_crlf hacc
                · cases hr2 : rest2 with
                  | nil => subst hr2; simp [pySplitKeepGo] at h
                  | cons d ds =>
                      subst hr2
                      exact ih (d :: ds) [] (by simp at hs ⊢; omega) rfl
                        (by simpa [endsBreak] using hend) l h
              · intro l hl
                rcases List.mem_cons.mp hl with h | h
                · subst h
                  exact properLine_append_break '\r' hacc (by simp [isLineBreak])
                · exact ih (c2 :: rest2) [] (by simp at hs ⊢; omega) rfl
                    (by simpa [endsBreak] using hend) l h
          · split
            · rename_i hc hbrk
              intro l hl
              rcases List.mem_cons.mp hl with h | h
              · subst h; exact properLine_append_break c hacc hbrk
              · cases hr : rest with
                | nil => subst hr; simp [pySplitKeepGo] at h
                | cons d ds =>
                    subst hr
                    exact ih (d :: ds) [] (by simp at hs ⊢; omega) rfl
                      (by simpa [endsBreak] using hend) l h
            · rename_i hc hbrk
              intro l hl
              have hcb : isLineBreak c = false := by
                cases hx : isLineBreak c
                · rfl
                · exact absurd hx hbrk
              have hend' : endsBreak rest = true := by
                cases rest with
                | nil => simp [endsBreak, hcb] at hend
                | cons d ds => simpa [endsBreak] using hend
              have hrest_ne : rest ≠ [] := by
                intro hx; subst hx; simp [endsBreak] at hend'
              exact ih rest (acc ++ [c]) (by simp at hs ⊢; omega)
                (by simp [breakFree] at hacc ⊢
                    constructor
                    · exact hacc
                    · simpa using hcb) hend' l hl

theorem splitKeepGo_chain (n : Nat) : ∀ s acc : Str, s.length ≤ n →
    breakFree acc = true → properChain (pySplitKeepGo acc s) = true := by
  induction n with
  | zero =>
      intro s acc hs hacc
      have : s = [] := List.length_eq_zero.mp (Nat.le_zero.mp hs)
      subst this
      simp only [pySplitKeepGo]
      split
      · rfl
      · rename_i hne
        simp [properChain, goodLast, hacc, List.isEmpty_iff, hne]
  | succ n ih =>
      intro s acc hs hacc
      match s with
      | [] =>
          simp only [pySplitKeepGo]
          split
          · rfl
          · rename_i hne
            simp [properChain, goodLast, hacc, List.isEmpty_iff, hne]
      | c :: rest =>
          rw [pySplitKeepGo.eq_def]
          simp only []
          split
          · rename_i hc
            subst hc
            split
            · simp [properChain, goodLast,
                properLine_append_break '\r' hacc (by simp [isLineBreak])]
            · rename_i c2 rest2
              split
              · exact properChain_cons (properLine_append_crlf hacc)
                  (ih rest2 [] (by simp at hs ⊢; omega) rfl)
              · exact properChain_cons
                  (properLine_append_break '\r' hacc (by simp [isLineBreak]))
                  (ih (c2 :: rest2) [] (by simp at hs ⊢; omega) rfl)
          · split
            · rename_i hc hbrk
              exact properChain_cons (properLine_append_break c hacc hbrk)
                (ih rest [] (by simp at hs ⊢; omega) rfl)
            · rename_i hc hbrk
              have hcb : isLineBreak c = false := by
                cases hx : isLineBreak c
                · rfl
                · exact absurd hx hbrk
              refine ih rest (acc ++ [c]) (by simp at hs ⊢; omega) ?_
              simp [breakFree] at hacc ⊢
              constructor
              · exact hacc
              · simpa using hcb

theorem splitKeep_chain (s : Str) : properChain (pySplitKeep s) = true :=
  splitKeepGo_chain s.length s [] (le_refl _) rfl

theorem splitKeep_all_proper {s : Str} (h : endsBreak s = true) :
    ∀ l ∈ pySplitKeep s, properLine l = true :=
  splitKeepGo_all_proper s.length s [] (le_refl _) rfl h

theorem properChain_cons_cons_elim {x y : Str} {R : List Str}
    (h : properChain (x :: y :: R) = true) :
    properLine x = true ∧ properChain (y :: R) = true := by
  have h' : (properLine x && properChain (y :: R)) = true := h
  cases hb : properLine x
  · rw [hb] at h'; simp at h'
  · rw [hb] at h'; simp at h'; exact ⟨rfl, h'⟩

theorem goodLast_elim {l : Str} (h : goodLast l = true) :
    properLine l = true ∨ (breakFree l = true ∧ l ≠ []) := by
  have h' : (properLine l || (breakFree l && !l.isEmpty)) = true := h
  cases hb : properLine l
  · rw [hb] at h'
    simp at h'
    exact Or.inr ⟨h'.1, by simpa [List.isEmpty_iff] using h'.2⟩
  · exact Or.inl rfl

theorem properChain_ne_nil {L : List Str} (h : properChain L = true) :
    ∀ l ∈ L, l ≠ [] := by
  induction L with
  | nil => intro l hl; simp at hl
  | cons x R ih =>
      intro l hl
      cases R with
      | nil =>
          simp at hl
          subst hl
          exact goodLast_ne_nil (by simpa [properChain] using h)
      | cons y R' =>
          obtain ⟨h1, h2⟩ := properChain_cons_cons_elim h
          rcases List.mem_cons.mp hl with hx | hx
          · subst hx; exact properLine_ne_nil h1
          · exact ih h2 l hx

theorem flatten_cons_head {l2 : Str} {R : List Str} (h : l2 ≠ []) :
    ((l2 :: R).flatten).head? = l2.head? := by
  cases l2 with
  | nil => exact absurd rfl h
  | cons a r => simp

theorem splitKeep_flatten_exact : ∀ L : List Str, properChain L = true →
    (∀ l ∈ L, l.head? ≠ some '\n') → pySplitKeep L.flatten = L := by
  intro L
  induction L with
  | nil => intro _ _; simp [pySplitKeep, pySplitKeepGo]
  | cons l R ih =>
      intro hL hnl
      cases R with
      | nil =>
          have hg : goodLast l = true := by simpa [properChain] using hL
          rcases goodLast_elim hg with hp | ⟨hb, hne⟩
          · have := splitKeepGo_proper_prepend ([] : Str) ([] : Str) hp (by simp)
            simp only [List.append_nil, List.nil_append] at this
            simpa [pySplitKeep, pySplitKeepGo] using this
          · have := splitKeepGo_breakFree ([] : Str) hb (by simpa using hne)
            simpa [pySplitKeep] using this
      | cons l2 R' =>
          obtain ⟨h1, h2⟩ := properChain_cons_cons_elim hL
          have hl2ne : l2 ≠ [] := properChain_ne_nil h2 l2 (List.mem_cons_self _ _)
          have hcr : l.getLast? = some '\r' → ((l2 :: R').flatten).head? ≠ some '\n' := by
            intro _
            rw [flatten_cons_head hl2ne]
            exact hnl l2 (by simp)
          have hpre := splitKeepGo_proper_prepend ([] : Str) ((l2 :: R').flatten) h1 hcr
          have hih := ih h2 (fun x hx => hnl x (List.mem_cons_of_mem _ hx))
          calc pySplitKeep ((l :: l2 :: R').flatten)
              = pySplitKeepGo [] (l ++ (l2 :: R').flatten) := by simp [pySplitKeep]
            _ = ([] ++ l) :: pySplitKeepGo [] ((l2 :: R').flatten) := hpre
            _ = l :: pySplitKeep ((l2 :: R').flatten) := by simp [pySplitKeep]
            _ = l :: l2 :: R' := by rw [hih]

theorem properChain_of_tail {x : Str} {R : List Str} (h : properChain (x :: R) = true) :
    properChain R = true := by
  cases R with
  | nil => rfl
  | cons y R' => exact (properChain_cons_cons_elim h).2

theorem properChain_drop {L : List Str} (h : properChain L = true) :
    ∀ k, properChain (L.drop k) = true := by
  induction L with
  | nil => intro k; simp; rfl
  | cons x R ih =>
      intro k
      cases k with
      | zero => simpa using h
      | succ k' => simpa using ih (properChain_of_tail h) k'

theorem properChain_take_proper {L : List Str} (h : properChain L = true) :
    ∀ k, k < L.length → ∀ l ∈ L.take k, properLine l = true := by
  induction L with
  | nil => intro k hk; simp at hk
  | cons x R ih =>
      intro k hk l hl
      cases k with
      | zero => simp at hl
      | succ k' =>
          simp at hk
          rcases List.mem_cons.mp (by simpa using hl) with hx | hx
          · subst hx
            cases R with
            | nil => simp at hk
            | cons y R' => exact (properChain_cons_cons_elim h).1
          · exact ih (properChain_of_tail h) k' (by omega) l hx

theorem seg_eq_take_drop (a : List Str) (i j : Nat) : seg a i j = (a.take j).drop i := by
  rw [seg, List.drop_take]

theorem properChain_seg_proper {L : List Str} (h : properChain L = true)
    {i j : Nat} (hj : j < L.length) : ∀ l ∈ seg L i j, properLine l = true := by
  intro l hl
  rw [seg_eq_take_drop] at hl
  exact properChain_take_proper h j hj l (List.drop_subset _ _ hl)

theorem properChain_seg_chain {L : List Str} (h : properChain L = true)
    {i : Nat} : properChain (seg L i L.length) = true := by
  rw [seg, List.take_of_length_le (by simp)]
  exact properChain_drop h i

theorem goodLast_cons_of {c : Char} {l : Str} (hc : isLineBreak c = false)
    (h : goodLast l = true) : goodLast (c :: l) = true := by
  rcases goodLast_elim h with hp | ⟨hb, hne⟩
  · exact properLine_goodLast (properLine_cons_of hc hp)
  · have : breakFree (c :: l) = true := by
      have h' : (!(isLineBreak c) && breakFree l) = true := by rw [hc, hb]; rfl
      exact h'
    simp [goodLast, this]

theorem properChain_map_cons {c : Char} (hc : isLineBreak c = false) :
    ∀ {L : List Str}, properChain L = true → properChain (L.map (c :: ·)) = true := by
  intro L
  induction L with
  | nil => intro _; rfl
  | cons x R ih =>
      intro h
      cases R with
      | nil =>
          have hg : goodLast x = true := by simpa [properChain] using h
          simpa [properChain] using goodLast_cons_of hc hg
      | cons y R' =>
          obtain ⟨h1, h2⟩ := properChain_cons_cons_elim h
          have := ih h2
          simp only [List.map_cons] at this ⊢
          exact properChain_cons (properLine_cons_of hc h1) this

-- C1 : decimal digits and header parse-back

/-- Reference decimal rendering (`fuel`-indexed). -/
def decDigits : Nat → Nat → Str
  | 0, _ => []
  | fuel+1, n => if n < 10 then [Nat.digitChar n] else decDigits fuel (n / 10) ++ [Nat.digitChar (n % 10)]

theorem toDigitsCore_decDigits : ∀ (fuel n : Nat) (ds : List Char), n < 10 ^ fuel →
    Nat.toDigitsCore 10 fuel n ds = decDigits fuel n ++ ds := by
  intro fuel
  induction fuel with
  | zero =>
      intro n ds h
      simp at h
      subst h
      simp [Nat.toDigitsCore, decDigits]
  | succ f ih =>
      intro n ds h
      rw [Nat.toDigitsCore]
      by_cases h10 : n < 10
      · have hz : n / 10 = 0 := Nat.div_eq_of_lt h10
        simp only [hz, if_pos rfl, decDigits, if_pos h10]
        rw [Nat.mod_eq_of_lt h10]
        rfl
      · have hz : ¬ (n / 10 = 0) := by
          intro hx
          exact h10 (by omega)
        have hlt : n / 10 < 10 ^ f := by
          rw [Nat.pow_succ, Nat.mul_comm] at h
          exact Nat.div_lt_of_lt_mul h
        rw [if_neg hz, ih (n / 10) _ hlt]
        simp [decDigits, h10]

theorem natChars_eq (n : Nat) : natChars n = decDigits (n + 1) n := by
  have h1 : n < 10 ^ n := Nat.lt_pow_self (by norm_num) n
  have h2 : (10 : Nat) ^ n ≤ 10 ^ (n + 1) := Nat.pow_le_pow_right (by norm_num) (Nat.le_succ n)
  rw [natChars, Nat.toDigits, toDigitsCore_decDigits _ _ _ (lt_of_lt_of_le h1 h2), List.append_nil]

theorem digitChar_isDigit {d : Nat} (h : d < 10) : (Nat.digitChar d).isDigit = true := by
  interval_cases d <;> decide

theorem digitChar_val {d : Nat} (h : d < 10) : (Nat.digitChar d).toNat - '0'.toNat = d := by
  interval_cases d <;> decide

theorem digitChar_val48 {d : Nat} (h : d < 10) : (Nat.digitChar d).toNat - 48 = d := by
  interval_cases d <;> decide

theorem decDigits_all_digit : ∀ fuel n, ∀ c ∈ decDigits fuel n, c.isDigit = true := by
  intro fuel
  induction fuel with
  | zero => intro n c hc; simp [decDigits] at hc
  | succ f ih =>
      intro n c hc
      rw [decDigits] at hc
      split at hc
      · rename_i h10
        simp at hc
        subst hc
        exact digitChar_isDigit h10
      · rcases List.mem_append.mp hc with h | h
        · exact ih _ c h
        · simp at h
          subst h
          exact digitChar_isDigit (Nat.mod_lt _ (by norm_num))

theorem decDigits_ne_nil (fuel n : Nat) (h : 0 < fuel) : decDigits fuel n ≠ [] := by
  match fuel, h with
  | f + 1, _ =>
      rw [decDigits]
      split
      · simp
      · simp

theorem foldl_decDigits : ∀ (fuel n acc : Nat), n < 10 ^ fuel →
    (decDigits fuel n).foldl (fun m c => m * 10 + (c.toNat - '0'.toNat)) acc
      = acc * 10 ^ (decDigits fuel n).length + n := by
  intro fuel
  induction fuel with
  | zero =>
      intro n acc h
      simp at h
      subst h
      simp [decDigits]
  | succ f ih =>
      intro n acc h
      rw [decDigits]
      by_cases h10 : n < 10
      · rw [if_pos h10]
        simp [digitChar_val48 h10]
      · rw [if_neg h10]
        have hlt : n / 10 < 10 ^ f := by
          rw [Nat.pow_succ, Nat.mul_comm] at h
          exact Nat.div_lt_of_lt_mul h
        rw [List.foldl_append, ih (n / 10) acc hlt]
        simp only [List.foldl_cons, List.foldl_nil, List.length_append, List.length_cons,
          List.length_nil]
        rw [digitChar_val (Nat.mod_lt _ (by norm_num))]
        rw [Nat.pow_succ]
        have := Nat.div_add_mod n 10
        ring_nf
        omega

theorem natChars_all_digit (n : Nat) : ∀ c ∈ natChars n, c.isDigit = true := by
  rw [natChars_eq]; exact decDigits_all_digit _ n

theorem natChars_ne_nil (n : Nat) : natChars n ≠ [] := by
  rw [natChars_eq]; exact decDigits_ne_nil _ n (Nat.succ_pos n)

theorem natChars_foldl (n : Nat) :
    (natChars n).foldl (fun m c => m * 10 + (c.toNat - '0'.toNat)) 0 = n := by
  rw [natChars_eq]
  have h1 : n < 10 ^ n := Nat.lt_pow_self (by norm_num) n
  have h2 : (10 : Nat) ^ n ≤ 10 ^ (n + 1) := Nat.pow_le_pow_right (by norm_num) (Nat.le_succ n)
  rw [foldl_decDigits _ n 0 (lt_of_lt_of_le h1 h2)]
  simp

theorem takeWhile_all_append {p : Char → Bool} {ds rest : Str}
    (hds : ∀ c ∈ ds, p c = true) (hr : ∀ c, rest.head? = some c → p c = false) :
    (ds ++ rest).takeWhile p = ds := by
  induction ds with
  | nil =>
      cases rest with
      | nil => rfl
      | cons c r => simp [List.takeWhile_cons, hr c rfl]
  | cons d ds' ih =>
      have hd : p d = true := hds d (by simp)
      simp only [List.cons_append, List.takeWhile_cons, hd, if_pos rfl]
      rw [ih (fun c hc => hds c (by simp [hc]))]
      simp

theorem dropWhile_all_append {p : Char → Bool} {ds rest : Str}
    (hds : ∀ c ∈ ds, p c = true) (hr : ∀ c, rest.head? = some c → p c = false) :
    (ds ++ rest).dropWhile p = rest := by
  induction ds with
  | nil =>
      cases rest with
      | nil => rfl
      | cons c r => simp [List.dropWhile_cons, hr c rfl]
  | cons d ds' ih =>
      have hd : p d = true := hds d (by simp)
      simp only [List.cons_append, List.dropWhile_cons, hd, if_pos rfl]
      simpa using ih (fun c hc => hds c (by simp [hc]))

theorem pDigits1_natChars {n : Nat} {rest : Str}
    (hr : ∀ c, rest.head? = some c → c.isDigit = false) :
    pDigits1 (natChars n ++ rest) = some (n, rest) := by
  rw [pDigits1]
  simp only [takeWhile_all_append (natChars_all_digit n) hr,
    dropWhile_all_append (natChars_all_digit n) hr, if_neg (natChars_ne_nil n)]
  rw [natChars_foldl]

theorem pOptCommaDigits_comma {k : Nat} {rest : Str}
    (hr : ∀ c, rest.head? = some c → c.isDigit = false) :
    pOptCommaDigits (',' :: (natChars k ++ rest)) = rest := by
  rw [pOptCommaDigits]
  simp only [pDigits1_natChars hr]

theorem pOptCommaDigits_space (rest : Str) :
    pOptCommaDigits (' ' :: rest) = ' ' :: rest := rfl

theorem dropWhile_head_not {p : Char → Bool} {s : Str}
    (h : ∀ c, s.head? = some c → p c = false) : s.dropWhile p = s := by
  cases s with
  | nil => rfl
  | cons c r => simp [List.dropWhile_cons, h c rfl]

theorem pWs1_space {rest : Str} (h : ∀ c, rest.head? = some c → pyIsSpace c = false) :
    pWs1 (' ' :: rest) = some rest := by
  rw [pWs1]
  simp only [if_pos (by decide : pyIsSpace ' ' = true)]
  rw [dropWhile_head_not h]

theorem head_cons_not_digit {c0 : Char} (h : c0.isDigit = false) (X : Str) :
    ∀ c, ((c0 :: X).head?) = some c → c.isDigit = false := by
  intro c hc; simp at hc; subst hc; exact h

theorem head_cons_not_space {c0 : Char} (h : pyIsSpace c0 = false) (X : Str) :
    ∀ c, ((c0 :: X).head?) = some c → pyIsSpace c = false := by
  intro c hc; simp at hc; subst hc; exact h

theorem parseHunkHeader_assembled (v : Nat) (r1 r2 : Str)
    (h1 : r1 = natChars v ∨ ∃ k, r1 = natChars v ++ ',' :: natChars k)
    (h2 : (∃ m, r2 = natChars m) ∨ ∃ m k, r2 = natChars m ++ ',' :: natChars k) :
    parseHunkHeader
      ('@' :: '@' :: ' ' :: '-' :: (r1 ++ (' ' :: '+' :: (r2 ++ [' ', '@', '@'])))) = some v := by
  have htail : ∀ r2 : Str, ((∃ m, r2 = natChars m) ∨ (∃ m k, r2 = natChars m ++ ',' :: natChars k)) →
      (match pDigits1 (r2 ++ [' ', '@', '@']) with
        | none => none
        | some (_, r7) =>
          match pWs1 (pOptCommaDigits r7) with
          | none => none
          | some r9 => if r9 = ['@', '@'] then some v else none) = some v := by
    intro r2 hr2
    rcases hr2 with ⟨m, hm⟩ | ⟨m, k, hmk⟩
    · subst hm
      rw [pDigits1_natChars (head_cons_not_digit (by decide) _)]
      simp only []
      rw [pOptCommaDigits_space, pWs1_space (head_cons_not_space (by decide) _)]
      simp only []
      simp
    · subst hmk
      rw [List.append_assoc, List.cons_append]
      rw [pDigits1_natChars (head_cons_not_digit (by decide) _)]
      simp only []
      rw [pOptCommaDigits_comma (head_cons_not_digit (by decide) _)]
      rw [pWs1_space (head_cons_not_space (by decide) _)]
      simp only []
      simp
  rcases h1 with hv | ⟨k, hvk⟩
  · subst hv
    rw [parseHunkHeader]
    rw [pWs1_space (head_cons_not_space (by decide) _)]
    simp only []
    rw [pDigits1_natChars (head_cons_not_digit (by decide) _)]
    simp only []
    rw [pOptCommaDigits_space, pWs1_space (head_cons_not_space (by decide) _)]
    simp only []
    exact htail r2 h2
  · subst hvk
    rw [parseHunkHeader]
    rw [pWs1_space (head_cons_not_space (by decide) _)]
    simp only []
    rw [List.append_assoc, List.cons_append]
    rw [pDigits1_natChars (head_cons_not_digit (by decide) _)]
    simp only []
    rw [pOptCommaDigits_comma (head_cons_not_digit (by decide) _)]
    rw [pWs1_space (head_cons_not_space (by decide) _)]
    simp only []
    exact htail r2 h2

/-- The `old_start` value printed by `_format_range_unified` for the
range `(i1, i2)`. -/
def fmtStart (i1 i2 : Nat) : Nat := if i2 - i1 = 0 then i1 else i1 + 1

theorem fmtRange_shape (i1 i2 : Nat) :
    fmtRangeUnified i1 i2 = natChars (fmtStart i1 i2) ∨
      ∃ k, fmtRangeUnified i1 i2 = natChars (fmtStart i1 i2) ++ ',' :: natChars k := by
  rw [fmtRangeUnified, fmtStart]
  by_cases h1 : i2 - i1 = 1
  · rw [if_pos h1, if_neg (by omega)]
    exact Or.inl rfl
  · rw [if_neg h1]
    by_cases h0 : i2 - i1 = 0
    · rw [if_pos h0, if_pos h0]
      exact Or.inr ⟨i2 - i1, by simp⟩
    · rw [if_neg h0, if_neg h0]
      exact Or.inr ⟨i2 - i1, rfl⟩

theorem pyLstrip_cons_nonspace {c : Char} (h : pyIsSpace c = false) (s : Str) :
    pyLstrip (c :: s) = c :: s := by
  simp [pyLstrip, List.dropWhile_cons, h]

theorem pyRstrip_append_ws {c : Char} (h : pyIsSpace c = true) (s : Str) :
    pyRstrip (s ++ [c]) = pyRstrip s := by
  simp [pyRstrip, List.dropWhile_cons, h]

theorem pyRstrip_append_nonspace {c : Char} (h : pyIsSpace c = false) (s : Str) :
    pyRstrip (s ++ [c]) = s ++ [c] := by
  simp [pyRstrip, List.dropWhile_cons, h]

theorem pyStrip_header (r1 r2 : Str) :
    pyStrip ((S "@@ -" ++ r1) ++ (S " +" ++ r2) ++ (S " @@" ++ ['\n']))
      = '@' :: '@' :: ' ' :: '-' :: (r1 ++ (' ' :: '+' :: (r2 ++ [' ', '@', '@']))) := by
  have hshape : (S "@@ -" ++ r1) ++ (S " +" ++ r2) ++ (S " @@" ++ ['\n'])
      = '@' :: ('@' :: ' ' :: '-' :: (r1 ++ ' ' :: '+' :: (r2 ++ (' ' :: '@' :: '@' :: ['\n'])))) := by
    simp [S]
  rw [pyStrip, hshape, pyLstrip_cons_nonspace (by decide)]
  have h2 : '@' :: ('@' :: ' ' :: '-' :: (r1 ++ ' ' :: '+' :: (r2 ++ (' ' :: '@' :: '@' :: ['\n']))))
      = ('@' :: '@' :: ' ' :: '-' :: (r1 ++ ' ' :: '+' :: (r2 ++ [' ', '@', '@']))) ++ ['\n'] := by
    simp
  rw [h2, pyRstrip_append_ws (by decide)]
  have h3 : '@' :: '@' :: ' ' :: '-' :: (r1 ++ ' ' :: '+' :: (r2 ++ [' ', '@', '@']))
      = ('@' :: '@' :: ' ' :: '-' :: (r1 ++ ' ' :: '+' :: (r2 ++ [' ', '@']))) ++ ['@'] := by
    simp
  rw [h3, pyRstrip_append_nonspace (by decide)]

theorem hunkTarget_groupHeader (oldLen i1 i2 j1 j2 : Nat) (hle : i1 ≤ oldLen)
    (hz : i2 - i1 = 0 → i1 = 0) :
    hunkTarget oldLen
      ((S "@@ -" ++ fmtRangeUnified i1 i2) ++ (S " +" ++ fmtRangeUnified j1 j2) ++
        (S " @@" ++ ['\n'])) = .ok i1 := by
  rw [hunkTarget, pyStrip_header]
  have h1 := fmtRange_shape i1 i2
  have h2' : (∃ m, fmtRangeUnified j1 j2 = natChars m) ∨
      ∃ m k, fmtRangeUnified j1 j2 = natChars m ++ ',' :: natChars k := by
    rcases fmtRange_shape j1 j2 with h | ⟨k, h⟩
    · exact Or.inl ⟨_, h⟩
    · exact Or.inr ⟨_, k, h⟩
  rw [parseHunkHeader_assembled (fmtStart i1 i2) _ _ h1 h2']
  simp only []
  rw [fmtStart]
  by_cases h0 : i2 - i1 = 0
  · rw [if_pos h0]
    have : i1 = 0 := hz h0
    subst this
    simp
  · rw [if_neg h0]
    simp only [Nat.add_sub_cancel]
    rw [if_neg (by omega)]

-- C1 : SequenceMatcher soundness

/-- Pointwise equality of the length-`k` ranges of `a` at `i` and `b`
at `j`. -/
def EqRange [Inhabited α] (a b : List α) (i j k : Nat) : Prop :=
  ∀ t, t < k → a.getD (i + t) default = b.getD (j + t) default

theorem eqRange_zero [Inhabited α] (a b : List α) (i j : Nat) : EqRange a b i j 0 :=
  fun t ht => absurd ht (by omega)

theorem eqRange_one [Inhabited α] {a b : List α} {i j : Nat}
    (h : a.getD i default = b.getD j default) : EqRange a b i j 1 := by
  intro t ht
  have : t = 0 := by omega
  subst this
  simpa using h

theorem eqRange_ext_high [Inhabited α] {a b : List α} {i j k : Nat}
    (h : EqRange a b i j k) (hk : a.getD (i + k) default = b.getD (j + k) default) :
    EqRange a b i j (k + 1) := by
  intro t ht
  by_cases h' : t < k
  · exact h t h'
  · have : t = k := by omega
    subst this
    exact hk

theorem eqRange_ext_low [Inhabited α] {a b : List α} {i j k : Nat}
    (h : EqRange a b i j k) (hi : 1 ≤ i) (hj : 1 ≤ j)
    (hk : a.getD (i - 1) default = b.getD (j - 1) default) :
    EqRange a b (i - 1) (j - 1) (k + 1) := by
  intro t ht
  cases t with
  | zero => simpa using hk
  | succ t' =>
      have e1 : i - 1 + (t' + 1) = i + t' := by omega
      have e2 : j - 1 + (t' + 1) = j + t' := by omega
      rw [e1, e2]
      exact h t' (by omega)

theorem eqRange_concat [Inhabited α] {a b : List α} {i j k1 k2 : Nat}
    (h1 : EqRange a b i j k1) (h2 : EqRange a b (i + k1) (j + k1) k2) :
    EqRange a b i j (k1 + k2) := by
  intro t ht
  by_cases h' : t < k1
  · exact h1 t h'
  · have e1 : i + t = i + k1 + (t - k1) := by omega
    have e2 : j + t = j + k1 + (t - k1) := by omega
    rw [e1, e2]
    exact h2 (t - k1) (by omega)

theorem eqRange_shift [Inhabited α] {a b : List α} {i j k s kk : Nat}
    (h : EqRange a b i j k) (hs : s + kk ≤ k) :
    EqRange a b (i + s) (j + s) kk := by
  intro t ht
  have e1 : i + s + t = i + (s + t) := by omega
  have e2 : j + s + t = j + (s + t) := by omega
  rw [e1, e2]
  exact h (s + t) (by omega)

theorem assocFind_mem [DecidableEq α] {m : List (α × β)} {k : α} {v : β}
    (h : assocFind m k = some v) : (k, v) ∈ m := by
  induction m with
  | nil => simp [assocFind] at h
  | cons p rest ih =>
      rw [assocFind] at h
      split at h
      · rename_i heq
        injection h with h'
        subst h'
        subst heq
        exact List.mem_cons_self _ _
      · exact List.mem_cons_of_mem _ (ih h)

theorem assocFind_append [DecidableEq α] (m1 m2 : List (α × β)) (k : α) :
    assocFind (m1 ++ m2) k =
      (match assocFind m1 k with | some v => some v | none => assocFind m2 k) := by
  induction m1 with
  | nil => simp [assocFind]
  | cons p rest ih =>
      rw [List.cons_append, assocFind, assocFind]
      split
      · rfl
      · exact ih

/-- Soundness predicate for an occurrence map over `b`. -/
def B2JOk [Inhabited α] (b : List α) (m : List (α × List Nat)) : Prop :=
  ∀ p ∈ m, ∀ j ∈ p.2, j < b.length ∧ b.getD j default = p.1

theorem drop_cons_facts [Inhabited α] {b : List α} {i : Nat} {x : α} {r : List α}
    (h : b.drop i = x :: r) :
    i < b.length ∧ b.getD i default = x ∧ b.drop (i + 1) = r := by
  have hlt : i < b.length := by
    by_contra hx
    rw [List.drop_eq_nil_of_le (by omega)] at h
    exact List.noConfusion h
  have hd := List.drop_eq_getElem_cons hlt
  rw [h] at hd
  injection hd with h1 h2
  refine ⟨hlt, ?_, h2.symm⟩
  rw [List.getD_eq_getElem b default hlt, h1]

theorem b2jRawGo_sound [DecidableEq α] [Inhabited α] {b : List α} :
    ∀ (rest : List α) (i : Nat) (m : List (α × List Nat)),
      B2JOk b m → rest = b.drop i → B2JOk b (b2jRawGo i m rest) := by
  intro rest
  induction rest with
  | nil => intro i m hm _; simpa [b2jRawGo] using hm
  | cons x r ih =>
      intro i m hm hdrop
      obtain ⟨hlt, hget, hdrop'⟩ := drop_cons_facts hdrop.symm
      rw [b2jRawGo]
      split
      · rename_i l hfind
        refine ih (i + 1) _ ?_ hdrop'.symm
        intro p hp j hj
        rcases List.mem_map.mp hp with ⟨q, hq, hqe⟩
        by_cases hqx : q.1 = x
        · rw [if_pos hqx] at hqe
          subst hqe
          simp only at hj
          rcases List.mem_append.mp hj with hj1 | hj2
          · have := hm (x, l) (assocFind_mem hfind) j hj1
            simpa using this
          · simp at hj2
            subst hj2
            exact ⟨hlt, hget⟩
        · rw [if_neg hqx] at hqe
          subst hqe
          exact hm q hq j hj
      · rename_i hfind
        refine ih (i + 1) _ ?_ hdrop'.symm
        intro p hp j hj
        rcases List.mem_append.mp hp with hp1 | hp2
        · exact hm p hp1 j hj
        · simp at hp2
          subst hp2
          simp at hj
          subst hj
          exact ⟨hlt, hget⟩

theorem b2j_sound [DecidableEq α] [Inhabited α] (b : List α) : B2JOk b (b2j b) := by
  have hraw : B2JOk b (b2jRawGo 0 [] b) :=
    b2jRawGo_sound b 0 [] (fun p hp => by simp at hp) (by simp)
  rw [b2j]
  split
  · intro p hp
    exact hraw p (List.mem_of_mem_filter hp)
  · exact hraw

/-- The invariant carried by a "best" candidate of
`find_longest_match`: in range and an actual match. -/
def BestOk [Inhabited α] (a b : List α) (alo ahi blo bhi : Nat) (m : Nat × Nat × Nat) : Prop :=
  alo ≤ m.1 ∧ blo ≤ m.2.1 ∧ m.1 + m.2.2 ≤ ahi ∧ m.2.1 + m.2.2 ≤ bhi ∧
    EqRange a b m.1 m.2.1 m.2.2

/-- The invariant of a `j2len` row: chains ending at row `i - 1`. -/
def RowOk [Inhabited α] (a b : List α) (alo blo i : Nat) (tbl : List (Nat × Nat)) : Prop :=
  ∀ j k, assocFind tbl j = some k →
    1 ≤ k ∧ alo + k ≤ i ∧ blo + k ≤ j + 1 ∧ EqRange a b (i - k) (j + 1 - k) k

theorem flmInner_sound [Inhabited α] {a b : List α} {alo ahi blo bhi i : Nat}
    {prev : List (Nat × Nat)} (hprev : RowOk a b alo blo i prev)
    (halo : alo ≤ i) (hiahi : i < ahi) :
    ∀ (js : List Nat) (acc : List (Nat × Nat)) (best : Nat × Nat × Nat),
      (∀ j ∈ js, b.getD j default = a.getD i default) →
      RowOk a b alo blo (i + 1) acc →
      BestOk a b alo ahi blo bhi best →
      RowOk a b alo blo (i + 1) (flmInner blo bhi i prev js acc best).1 ∧
        BestOk a b alo ahi blo bhi (flmInner blo bhi i prev js acc best).2 := by
  intro js
  induction js with
  | nil => intro acc best _ hacc hbest; exact ⟨hacc, hbest⟩
  | cons j js' ih =>
      intro acc best hjs hacc hbest
      rw [flmInner]
      split
      · exact ih acc best (fun x hx => hjs x (by simp [hx])) hacc hbest
      · split
        · exact ⟨hacc, hbest⟩
        · rename_i hblo hbhi
          have hjblo : blo ≤ j := by omega
          have hjbhi : j < bhi := by omega
          simp only []
          obtain ⟨pk, hpkdef⟩ : ∃ pk, (if j = 0 then 0 else j2lenGet prev (j - 1)) = pk :=
            ⟨_, rfl⟩
          rw [hpkdef]
          have hchain : 1 ≤ pk + 1 ∧ alo + (pk + 1) ≤ i + 1 ∧ blo + (pk + 1) ≤ j + 1 ∧
              EqRange a b (i + 1 - (pk + 1)) (j + 1 - (pk + 1)) (pk + 1) := by
            have hij : b.getD j default = a.getD i default := hjs j (by simp)
            by_cases hj0 : j = 0
            · have hpk0 : pk = 0 := by rw [← hpkdef, if_pos hj0]
              subst hpk0
              subst hj0
              refine ⟨by omega, by omega, by omega, ?_⟩
              simpa using eqRange_one hij.symm
            · rw [if_neg hj0] at hpkdef
              rcases hfind : assocFind prev (j - 1) with _ | pkv
              · have hpk0 : pk = 0 := by rw [← hpkdef]; simp [j2lenGet, hfind]
                subst hpk0
                refine ⟨by omega, by omega, by omega, ?_⟩
                have e1 : i + 1 - (0 + 1) = i := by omega
                have e2 : j + 1 - (0 + 1) = j := by omega
                rw [e1, e2]
                exact eqRange_one hij.symm
              · have hpkv : pk = pkv := by rw [← hpkdef]; simp [j2lenGet, hfind]
                subst hpkv
                have hrow := hprev (j - 1) pk hfind
                obtain ⟨hk1, hk2, hk3, hkEq⟩ := hrow
                refine ⟨by omega, by omega, by omega, ?_⟩
                have e0 : j - 1 + 1 - pk = j - pk := by omega
                rw [e0] at hkEq
                have hext : a.getD (i - pk + pk) default = b.getD (j - pk + pk) default := by
                  have e1 : i - pk + pk = i := by omega
                  have e2 : j - pk + pk = j := by omega
                  rw [e1, e2]
                  exact hij.symm
                have hx := eqRange_ext_high hkEq hext
                have e1 : i + 1 - (pk + 1) = i - pk := by omega
                have e2 : j + 1 - (pk + 1) = j - pk := by omega
                rw [e1, e2]
                exact hx
          refine ih _ _ (fun x hx => hjs x (by simp [hx])) ?_ ?_
          · intro j' k' hfind'
            rw [assocFind_append] at hfind'
            rcases hacf : assocFind acc j' with _ | v
            · rw [hacf] at hfind'
              simp only at hfind'
              rw [assocFind] at hfind'
              split at hfind'
              · rename_i hje
                subst hje
                injection hfind' with hke
                subst hke
                exact hchain
              · simp [assocFind] at hfind'
            · rw [hacf] at hfind'
              simp only at hfind'
              injection hfind' with hve
              subst hve
              exact hacc j' v hacf
          · by_cases hbu : best.2.2 < pk + 1
            · rw [if_pos hbu]
              refine ⟨?_, ?_, ?_, ?_, ?_⟩
              · show alo ≤ i + 1 - (pk + 1)
                omega
              · show blo ≤ j + 1 - (pk + 1)
                omega
              · show i + 1 - (pk + 1) + (pk + 1) ≤ ahi
                omega
              · show j + 1 - (pk + 1) + (pk + 1) ≤ bhi
                omega
              · show EqRange a b (i + 1 - (pk + 1)) (j + 1 - (pk + 1)) (pk + 1)
                exact hchain.2.2.2
            · rw [if_neg hbu]
              exact hbest

theorem flmRows_sound [DecidableEq α] [Inhabited α] {a b : List α}
    {b2jm : List (α × List Nat)} (hb2j : B2JOk b b2jm) {alo ahi blo bhi : Nat} :
    ∀ (cnt i : Nat) (prev : List (Nat × Nat)) (best : Nat × Nat × Nat),
      alo ≤ i → i + cnt ≤ ahi → RowOk a b alo blo i prev →
      BestOk a b alo ahi blo bhi best →
      BestOk a b alo ahi blo bhi (flmRows a b2jm blo bhi i cnt prev best) := by
  intro cnt
  induction cnt with
  | zero => intro i prev best _ _ _ hbest; exact hbest
  | succ c ih =>
      intro i prev best halo hcnt hprev hbest
      rw [flmRows]
      have hjs : ∀ j ∈ ((assocFind b2jm (a.getD i default)).getD []),
          b.getD j default = a.getD i default := by
        rcases hfind : assocFind b2jm (a.getD i default) with _ | js
        · simp
        · intro j hj
          simp only [Option.getD_some] at hj
          exact (hb2j _ (assocFind_mem hfind) j hj).2
      have hstep := flmInner_sound hprev halo (by omega)
        ((assocFind b2jm (a.getD i default)).getD []) [] best hjs
        (fun j k hk => by simp [assocFind] at hk) hbest
      exact ih (i + 1) _ _ (by omega) (by omega) hstep.1 hstep.2

theorem extLow_sound [DecidableEq α] [Inhabited α] {a b : List α} {alo ahi blo bhi : Nat} :
    ∀ (fuel : Nat) (m : Nat × Nat × Nat),
      BestOk a b alo ahi blo bhi m →
      BestOk a b alo ahi blo bhi (extLow a b alo blo m.1 m.2.1 m.2.2 fuel) := by
  intro fuel
  induction fuel with
  | zero =>
      intro m h
      rw [extLow]
      exact h
  | succ f ih =>
      intro m h
      rw [extLow]
      split
      · rename_i hcond
        obtain ⟨hc1, hc2, hc3⟩ := hcond
        obtain ⟨h1, h2, h3, h4, h5⟩ := h
        have hnew : BestOk a b alo ahi blo bhi (m.1 - 1, m.2.1 - 1, m.2.2 + 1) := by
          refine ⟨?_, ?_, ?_, ?_, ?_⟩
          · show alo ≤ m.1 - 1
            omega
          · show blo ≤ m.2.1 - 1
            omega
          · show m.1 - 1 + (m.2.2 + 1) ≤ ahi
            omega
          · show m.2.1 - 1 + (m.2.2 + 1) ≤ bhi
            omega
          · show EqRange a b (m.1 - 1) (m.2.1 - 1) (m.2.2 + 1)
            exact eqRange_ext_low h5 (by omega) (by omega) hc3
        exact ih (m.1 - 1, m.2.1 - 1, m.2.2 + 1) hnew
      · exact h

theorem extHigh_sound [DecidableEq α] [Inhabited α] {a b : List α} {alo ahi blo bhi : Nat} :
    ∀ (fuel : Nat) (m : Nat × Nat × Nat),
      BestOk a b alo ahi blo bhi m →
      BestOk a b alo ahi blo bhi (extHigh a b ahi bhi m.1 m.2.1 m.2.2 fuel) := by
  intro fuel
  induction fuel with
  | zero =>
      intro m h
      rw [extHigh]
      exact h
  | succ f ih =>
      intro m h
      rw [extHigh]
      split
      · rename_i hcond
        obtain ⟨hc1, hc2, hc3⟩ := hcond
        obtain ⟨h1, h2, h3, h4, h5⟩ := h
        have hnew : BestOk a b alo ahi blo bhi (m.1, m.2.1, m.2.2 + 1) := by
          refine ⟨h1, h2, ?_, ?_, ?_⟩
          · show m.1 + (m.2.2 + 1) ≤ ahi
            omega
          · show m.2.1 + (m.2.2 + 1) ≤ bhi
            omega
          · show EqRange a b m.1 m.2.1 (m.2.2 + 1)
            exact eqRange_ext_high h5 hc3
        exact ih (m.1, m.2.1, m.2.2 + 1) hnew
      · exact h

theorem findLongestMatch_sound [DecidableEq α] [Inhabited α] {a b : List α}
    {b2jm : List (α × List Nat)} (hb2j : B2JOk b b2jm) {alo ahi blo bhi : Nat}
    (hab : alo ≤ ahi) (hbb : blo ≤ bhi) :
    BestOk a b alo ahi blo bhi (findLongestMatch a b b2jm alo ahi blo bhi) := by
  rw [findLongestMatch]
  have h0 : BestOk a b alo ahi blo bhi (alo, blo, 0) :=
    ⟨le_refl _, le_refl _, by simpa using hab, by simpa using hbb, eqRange_zero a b alo blo⟩
  have h1 := flmRows_sound hb2j (ahi - alo) alo [] (alo, blo, 0) (le_refl _) (by omega)
    (fun j k hk => by simp [assocFind] at hk) h0
  exact extHigh_sound _ _ (extLow_sound _ _ h1)

/-- A sound, ordered chain of matching blocks between `(i, j)` and
`(ihi, jhi)`. -/
def BlocksOk [Inhabited α] (a b : List α) : Nat → Nat → Nat → Nat → List (Nat × Nat × Nat) → Prop
  | i, j, ihi, jhi, [] => i ≤ ihi ∧ j ≤ jhi
  | i, j, ihi, jhi, (bi, bj, k) :: rest =>
      i ≤ bi ∧ j ≤ bj ∧ EqRange a b bi bj k ∧ BlocksOk a b (bi + k) (bj + k) ihi jhi rest

theorem blocksOk_weaken [Inhabited α] {a b : List α} {i j i' j' ihi jhi : Nat}
    {L : List (Nat × Nat × Nat)} (hL : BlocksOk a b i j ihi jhi L)
    (hi : i' ≤ i) (hj : j' ≤ j) : BlocksOk a b i' j' ihi jhi L := by
  cases L with
  | nil =>
      obtain ⟨h1, h2⟩ := hL
      exact ⟨by omega, by omega⟩
  | cons p rest =>
      obtain ⟨h1, h2, h3, h4⟩ := hL
      exact ⟨by omega, by omega, h3, h4⟩

theorem blocksOk_append [Inhabited α] {a b : List α} :
    ∀ {L1 L2 : List (Nat × Nat × Nat)} {i j p q ihi jhi : Nat},
      BlocksOk a b i j p q L1 → BlocksOk a b p q ihi jhi L2 →
      BlocksOk a b i j ihi jhi (L1 ++ L2) := by
  intro L1
  induction L1 with
  | nil =>
      intro L2 i j p q ihi jhi h1 h2
      obtain ⟨ha, hb⟩ := h1
      simpa using blocksOk_weaken h2 ha hb
  | cons x rest ih =>
      intro L2 i j p q ihi jhi h1 h2
      obtain ⟨ha, hb, hc, hd⟩ := h1
      exact ⟨ha, hb, hc, ih hd h2⟩

theorem matchingBlocksGo_sound [DecidableEq α] [Inhabited α] {a b : List α}
    {b2jm : List (α × List Nat)} (hb2j : B2JOk b b2jm) :
    ∀ (fuel alo ahi blo bhi : Nat), alo ≤ ahi → blo ≤ bhi →
      BlocksOk a b alo blo ahi bhi (matchingBlocksGo a b b2jm fuel alo ahi blo bhi) := by
  intro fuel
  induction fuel with
  | zero => intro alo ahi blo bhi h1 h2; exact ⟨h1, h2⟩
  | succ f ih =>
      intro alo ahi blo bhi h1 h2
      rw [matchingBlocksGo]
      have hm := findLongestMatch_sound (a := a) hb2j h1 h2
      obtain ⟨m, hmdef⟩ : ∃ m, findLongestMatch a b b2jm alo ahi blo bhi = m := ⟨_, rfl⟩
      rw [hmdef] at hm ⊢
      obtain ⟨hm1, hm2, hm3, hm4, hm5⟩ := hm
      split
      · exact ⟨h1, h2⟩
      · rename_i hk0
        refine blocksOk_append (p := m.1 + m.2.2) (q := m.2.1 + m.2.2) ?_ ?_
        · refine blocksOk_append (p := m.1) (q := m.2.1) ?_ ?_
          · split
            · rename_i hcond
              exact ih alo m.1 blo m.2.1 (by omega) (by omega)
            · exact ⟨hm1, hm2⟩
          · exact ⟨le_refl _, le_refl _, hm5, le_refl _, le_refl _⟩
        · split
          · rename_i hcond
            exact ih (m.1 + m.2.2) ahi (m.2.1 + m.2.2) bhi (by omega) (by omega)
          · exact ⟨hm3, hm4⟩

theorem matchingBlocksGo_pos [DecidableEq α] [Inhabited α] {a b : List α}
    {b2jm : List (α × List Nat)} :
    ∀ (fuel alo ahi blo bhi : Nat),
      ∀ p ∈ matchingBlocksGo a b b2jm fuel alo ahi blo bhi, 0 < p.2.2 := by
  intro fuel
  induction fuel with
  | zero => intro alo ahi blo bhi p hp; simp [matchingBlocksGo] at hp
  | succ f ih =>
      intro alo ahi blo bhi p hp
      rw [matchingBlocksGo] at hp
      split at hp
      · simp at hp
      · rename_i hk0
        rcases List.mem_append.mp hp with hp1 | hp2
        · rcases List.mem_append.mp hp1 with hp3 | hp4
          · split at hp3
            · exact ih _ _ _ _ p hp3
            · simp at hp3
          · simp at hp4
            subst hp4
            omega
        · split at hp2
          · exact ih _ _ _ _ p hp2
          · simp at hp2

theorem mergeBlocksGo_sound [Inhabited α] {a b : List α} {ihi jhi : Nat} :
    ∀ (blocks : List (Nat × Nat × Nat)) (i1 j1 k1 lo lo' : Nat),
      lo ≤ i1 → lo' ≤ j1 → EqRange a b i1 j1 k1 →
      BlocksOk a b (i1 + k1) (j1 + k1) ihi jhi blocks →
      BlocksOk a b lo lo' ihi jhi (mergeBlocksGo i1 j1 k1 blocks) := by
  intro blocks
  induction blocks with
  | nil =>
      intro i1 j1 k1 lo lo' hlo hlo' hEq hB
      obtain ⟨hb1, hb2⟩ := hB
      rw [mergeBlocksGo]
      split
      · exact ⟨hlo, hlo', hEq, hb1, hb2⟩
      · exact ⟨by omega, by omega⟩
  | cons p rest ih =>
      intro i1 j1 k1 lo lo' hlo hlo' hEq hB
      obtain ⟨bi, bj, k⟩ := p
      obtain ⟨hb1, hb2, hb3, hb4⟩ := hB
      rw [mergeBlocksGo]
      split
      · rename_i hadj
        obtain ⟨ha1, ha2⟩ := hadj
        refine ih i1 j1 (k1 + k) lo lo' hlo hlo' ?_ ?_
        · refine eqRange_concat hEq ?_
          rw [ha1, ha2]
          exact hb3
        · have e1 : i1 + (k1 + k) = bi + k := by omega
          have e2 : j1 + (k1 + k) = bj + k := by omega
          rw [e1, e2]
          exact hb4
      · split
        · refine ⟨hlo, hlo', hEq, ?_⟩
          exact ih bi bj k (i1 + k1) (j1 + k1) hb1 hb2 hb3 hb4
        · refine ih bi bj k lo lo' (by omega) (by omega) hb3 hb4

theorem mergeBlocksGo_pos :
    ∀ (blocks : List (Nat × Nat × Nat)) (i1 j1 k1 : Nat),
      ∀ p ∈ mergeBlocksGo i1 j1 k1 blocks, 0 < p.2.2 := by
  intro blocks
  induction blocks with
  | nil =>
      intro i1 j1 k1 p hp
      rw [mergeBlocksGo] at hp
      split at hp
      · rename_i hk
        simp at hp
        subst hp
        simpa using Nat.pos_of_ne_zero hk
      · simp at hp
  | cons q rest ih =>
      intro i1 j1 k1 p hp
      rw [mergeBlocksGo] at hp
      split at hp
      · exact ih i1 j1 _ p hp
      · rcases List.mem_append.mp hp with hp1 | hp2
        · split at hp1
          · rename_i hk
            simp at hp1
            subst hp1
            simpa using Nat.pos_of_ne_zero hk
          · simp at hp1
        · exact ih q.1 q.2.1 q.2.2 p hp2

theorem getMatchingBlocks_sound [DecidableEq α] [Inhabited α] (a b : List α) :
    BlocksOk a b 0 0 a.length b.length (getMatchingBlocks a b) := by
  rw [getMatchingBlocks]
  have hgo := matchingBlocksGo_sound (a := a) (b2j_sound b) (a.length + b.length + 1)
    0 a.length 0 b.length (by omega) (by omega)
  have hmg := mergeBlocksGo_sound _ 0 0 0 0 0 (le_refl _) (le_refl _)
    (eqRange_zero a b 0 0) (by simpa using hgo)
  refine blocksOk_append (p := a.length) (q := b.length) hmg ?_
  exact ⟨le_refl _, le_refl _, eqRange_zero a b _ _, le_refl _, le_refl _⟩

theorem getMatchingBlocks_split [DecidableEq α] [Inhabited α] (a b : List α) :
    ∃ X, getMatchingBlocks a b = X ++ [(a.length, b.length, 0)] ∧ ∀ p ∈ X, 0 < p.2.2 :=
  ⟨_, rfl, fun p hp => mergeBlocksGo_pos _ 0 0 0 p hp⟩

theorem blocksOk_start_le [Inhabited α] {a b : List α} :
    ∀ {L : List (Nat × Nat × Nat)} {i j ihi jhi : Nat},
      BlocksOk a b i j ihi jhi L → i ≤ ihi ∧ j ≤ jhi := by
  intro L
  induction L with
  | nil => intro i j ihi jhi h; exact h
  | cons p rest ih =>
      intro i j ihi jhi h
      obtain ⟨bi, bj, k⟩ := p
      obtain ⟨h1, h2, h3, h4⟩ := h
      have := ih h4
      omega

/-- A consecutive opcode chain from `(i, j)` tiling out to the ends of
`a` and `b`, with equal opcodes matching nonempty ranges. -/
def ChainOk [Inhabited α] (a b : List α) : Nat → Nat → List Opcode → Prop
  | i, j, [] => i = a.length ∧ j = b.length
  | i, j, (t, i1, i2, j1, j2) :: rest =>
      i1 = i ∧ j1 = j ∧ i1 ≤ i2 ∧ j1 ≤ j2 ∧ i2 ≤ a.length ∧ j2 ≤ b.length ∧
      (t = Tag.equal → i2 - i1 = j2 - j1 ∧ 0 < i2 - i1 ∧ EqRange a b i1 j1 (i2 - i1)) ∧
      ChainOk a b i2 j2 rest

theorem opcodesGo_chain [Inhabited α] {a b : List α} :
    ∀ (X : List (Nat × Nat × Nat)) (i j : Nat),
      BlocksOk a b i j a.length b.length (X ++ [(a.length, b.length, 0)]) →
      (∀ p ∈ X, 0 < p.2.2) →
      ChainOk a b i j (opcodesGo i j (X ++ [(a.length, b.length, 0)])) := by
  intro X
  induction X with
  | nil =>
      intro i j hB _
      obtain ⟨h1, h2, _, h4⟩ := hB
      obtain ⟨h5, h6⟩ := h4
      simp only [List.nil_append, opcodesGo]
      split
      · rename_i hc
        refine ⟨rfl, rfl, by omega, by omega, by simp, by simp, by simp, ?_⟩
        simp only [Nat.add_zero, opcodesGo]
        exact ⟨rfl, rfl⟩
      · split
        · rename_i hc1 hc2
          refine ⟨rfl, rfl, by omega, by omega, by simp, by simp, by simp, ?_⟩
          simp only [Nat.add_zero, opcodesGo]
          refine ⟨rfl, ?_⟩
          omega
        · split
          · rename_i hc1 hc2 hc3
            refine ⟨rfl, rfl, by omega, by omega, by simp, by simp, by simp, ?_⟩
            simp only [Nat.add_zero, opcodesGo]
            refine ⟨?_, rfl⟩
            omega
          · rename_i hc1 hc2 hc3
            simp only [Nat.add_zero, opcodesGo]
            constructor
            · omega
            · omega
  | cons p X' ih =>
      intro i j hB hpos
      obtain ⟨bi, bj, k⟩ := p
      rw [List.cons_append, opcodesGo]
      obtain ⟨h1, h2, h3, h4⟩ := hB
      have hk : 0 < k := hpos (bi, bj, k) (by simp)
      have hrest := ih (bi + k) (bj + k) h4 (fun q hq => hpos q (by simp [hq]))
      have hends := blocksOk_start_le h4
      have heqop : ChainOk a b bi bj
          ((Tag.equal, bi, bi + k, bj, bj + k) :: opcodesGo (bi + k) (bj + k)
            (X' ++ [(a.length, b.length, 0)])) := by
        refine ⟨rfl, rfl, by omega, by omega, by omega, by omega, ?_, hrest⟩
        intro _
        refine ⟨by omega, by omega, ?_⟩
        have e : bi + k - bi = k := by omega
        rw [e]
        exact h3
      have hkne : k ≠ 0 := by omega
      rw [if_pos hkne]
      split
      · rename_i hc
        refine ⟨rfl, rfl, by omega, by omega, by omega, by omega, by simp, ?_⟩
        simpa using heqop
      · split
        · rename_i hc1 hc2
          refine ⟨rfl, rfl, by omega, by omega, by omega, by omega, by simp, ?_⟩
          simpa using heqop
        · split
          · rename_i hc1 hc2 hc3
            refine ⟨rfl, rfl, by omega, by omega, by omega, by omega, by simp, ?_⟩
            simpa using heqop
          · rename_i hc1 hc2 hc3
            have hie : bi = i := by omega
            have hje : bj = j := by omega
            rw [← hie, ← hje]
            simpa using heqop

/-- No two adjacent non-equal opcodes. -/
def AltOk : List Opcode → Prop
  | [] => True
  | [_] => True
  | x :: y :: rest => (x.1 = Tag.equal ∨ y.1 = Tag.equal) ∧ AltOk (y :: rest)

theorem altOk_cons_equal {x : Opcode} {L : List Opcode} (hx : x.1 = Tag.equal)
    (h : AltOk L) : AltOk (x :: L) := by
  cases L with
  | nil => trivial
  | cons y rest => exact ⟨Or.inl hx, h⟩

theorem opcodesGo_alt {la lb : Nat} :
    ∀ (X : List (Nat × Nat × Nat)) (i j : Nat), (∀ p ∈ X, 0 < p.2.2) →
      AltOk (opcodesGo i j (X ++ [(la, lb, 0)])) := by
  intro X
  induction X with
  | nil =>
      intro i j _
      simp only [List.nil_append, opcodesGo]
      split
      · simp only [Nat.add_zero, opcodesGo]
        trivial
      · split
        · simp only [Nat.add_zero, opcodesGo]
          trivial
        · split
          · simp only [Nat.add_zero, opcodesGo]
            trivial
          · simp only [Nat.add_zero, opcodesGo]
            trivial
  | cons p X' ih =>
      intro i j hpos
      obtain ⟨bi, bj, k⟩ := p
      rw [List.cons_append, opcodesGo]
      have hk : k ≠ 0 := by
        have hp := hpos (bi, bj, k) (by simp)
        simp only at hp
        omega
      rw [if_pos hk]
      have hrest := ih (bi + k) (bj + k) (fun q hq => hpos q (by simp [hq]))
      have heq : AltOk ((Tag.equal, bi, bi + k, bj, bj + k) ::
          opcodesGo (bi + k) (bj + k) (X' ++ [(la, lb, 0)])) :=
        altOk_cons_equal rfl hrest
      split
      · exact ⟨Or.inr rfl, by simpa using heq⟩
      · split
        · exact ⟨Or.inr rfl, by simpa using heq⟩
        · split
          · exact ⟨Or.inr rfl, by simpa using heq⟩
          · simpa using heq

theorem getOpcodes_chain [DecidableEq α] [Inhabited α] (a b : List α) :
    ChainOk a b 0 0 (getOpcodes a b) := by
  rw [getOpcodes]
  obtain ⟨X, hX, hpos⟩ := getMatchingBlocks_split a b
  rw [hX]
  refine opcodesGo_chain X 0 0 ?_ hpos
  rw [← hX]
  exact getMatchingBlocks_sound a b

theorem getOpcodes_alt [DecidableEq α] [Inhabited α] (a b : List α) :
    AltOk (getOpcodes a b) := by
  rw [getOpcodes]
  obtain ⟨X, hX, hpos⟩ := getMatchingBlocks_split a b
  rw [hX]
  exact opcodesGo_alt X 0 0 hpos
theorem eqRange_shiftE [Inhabited α] {a b : List α} {i j k : Nat}
    (h : EqRange a b i j k) (s kk : Nat) (hs : s + kk ≤ k) :
    EqRange a b (i + s) (j + s) kk :=
  eqRange_shift h hs
theorem eqRange_mono [Inhabited α] {a b : List α} {i j k kk : Nat}
    (h : EqRange a b i j k) (hk : kk ≤ k) : EqRange a b i j kk :=
  fun t ht => h t (by omega)

/-- A consecutive opcode chain from `(i, j)` to `(e1, e2)` whose equal
opcodes match nonempty equal-length ranges and whose other opcodes are
nonempty. -/
def PieceOk [Inhabited α] (a b : List α) : Nat → Nat → List Opcode → Nat → Nat → Prop
  | i, j, [], e1, e2 => e1 = i ∧ e2 = j
  | i, j, (t, i1, i2, j1, j2) :: rest, e1, e2 =>
      i1 = i ∧ j1 = j ∧ i1 ≤ i2 ∧ j1 ≤ j2 ∧ i2 ≤ a.length ∧ j2 ≤ b.length ∧
      (t = Tag.equal → i2 - i1 = j2 - j1 ∧ 0 < i2 - i1 ∧ EqRange a b i1 j1 (i2 - i1)) ∧
      (t ≠ Tag.equal → i1 < i2 ∨ j1 < j2) ∧
      PieceOk a b i2 j2 rest e1 e2

theorem opcodesGo_nonempty :
    ∀ (blocks : List (Nat × Nat × Nat)) (i j : Nat), ∀ op ∈ opcodesGo i j blocks,
      op.2.1 < op.2.2.1 ∨ op.2.2.2.1 < op.2.2.2.2 := by
  intro blocks
  induction blocks with
  | nil => intro i j op hop; simp [opcodesGo] at hop
  | cons p rest ih =>
      intro i j op hop
      obtain ⟨ai, bj, size⟩ := p
      rw [opcodesGo] at hop
      rcases List.mem_append.mp hop with h1 | h2
      · rcases List.mem_append.mp h1 with h3 | h4
        · split at h3
          · rename_i hc
            simp at h3
            subst h3
            simp only
            omega
          · split at h3
            · rename_i hc1 hc2
              simp at h3
              subst h3
              simp only
              omega
            · split at h3
              · rename_i hc1 hc2 hc3
                simp at h3
                subst h3
                simp only
                omega
              · simp at h3
        · split at h4
          · rename_i hs
            simp at h4
            subst h4
            simp only
            omega
          · simp at h4
      · exact ih _ _ op h2

theorem chainOk_piece [Inhabited α] {a b : List α} :
    ∀ {ops : List Opcode} {i j : Nat}, ChainOk a b i j ops →
      (∀ op ∈ ops, op.2.1 < op.2.2.1 ∨ op.2.2.2.1 < op.2.2.2.2) →
      PieceOk a b i j ops a.length b.length := by
  intro ops
  induction ops with
  | nil =>
      intro i j hc _
      obtain ⟨h1, h2⟩ := hc
      exact ⟨h1.symm, h2.symm⟩
  | cons op rest ih =>
      intro i j hc hne
      obtain ⟨t, i1, i2, j1, j2⟩ := op
      obtain ⟨h1, h2, h3, h4, h5, h6, h7, h8⟩ := hc
      refine ⟨h1, h2, h3, h4, h5, h6, h7, ?_, ih h8 (fun q hq => hne q (by simp [hq]))⟩
      intro hne'
      have := hne (t, i1, i2, j1, j2) (by simp)
      simpa using this

theorem piece_append [Inhabited α] {a b : List α} :
    ∀ {L1 L2 : List Opcode} {i j m1 m2 e1 e2 : Nat},
      PieceOk a b i j L1 m1 m2 → PieceOk a b m1 m2 L2 e1 e2 →
      PieceOk a b i j (L1 ++ L2) e1 e2 := by
  intro L1
  induction L1 with
  | nil =>
      intro L2 i j m1 m2 e1 e2 h1 h2
      obtain ⟨ha, hb⟩ := h1
      subst ha
      subst hb
      simpa using h2
  | cons op rest ih =>
      intro L2 i j m1 m2 e1 e2 h1 h2
      obtain ⟨t, i1, i2, j1, j2⟩ := op
      obtain ⟨ha, hb, hc, hd, he, hf, hg, hh, hi⟩ := h1
      exact ⟨ha, hb, hc, hd, he, hf, hg, hh, ih hi h2⟩

theorem piece_split [Inhabited α] {a b : List α} :
    ∀ {L1 L2 : List Opcode} {i j e1 e2 : Nat},
      PieceOk a b i j (L1 ++ L2) e1 e2 →
      ∃ m1 m2, PieceOk a b i j L1 m1 m2 ∧ PieceOk a b m1 m2 L2 e1 e2 := by
  intro L1
  induction L1 with
  | nil =>
      intro L2 i j e1 e2 h
      exact ⟨i, j, ⟨rfl, rfl⟩, by simpa using h⟩
  | cons op rest ih =>
      intro L2 i j e1 e2 h
      obtain ⟨t, i1, i2, j1, j2⟩ := op
      obtain ⟨ha, hb, hc, hd, he, hf, hg, hh, hi⟩ := h
      obtain ⟨m1, m2, hp1, hp2⟩ := ih hi
      exact ⟨m1, m2, ⟨ha, hb, hc, hd, he, hf, hg, hh, hp1⟩, hp2⟩

theorem trimHead_ok [Inhabited α] {a b : List α} {codes : List Opcode} {e1 e2 : Nat}
    (h : PieceOk a b 0 0 codes e1 e2) :
    ∃ d, EqRange a b 0 0 d ∧ PieceOk a b d d (trimHead 3 codes) e1 e2 := by
  cases codes with
  | nil =>
      exact ⟨0, eqRange_zero a b 0 0, by simpa [trimHead] using h⟩
  | cons op rest =>
      obtain ⟨t, i1, i2, j1, j2⟩ := op
      obtain ⟨ha, hb, hc, hd, he, hf, hg, hh, hi⟩ := h
      subst ha
      subst hb
      rw [trimHead]
      by_cases ht : t = Tag.equal
      · rw [if_pos ht]
        obtain ⟨hg1, hg2, hg3⟩ := hg ht
        have hj2 : j2 = i2 := by omega
        have hmx : max 0 (j2 - 3) = max 0 (i2 - 3) := by omega
        rw [hmx]
        refine ⟨max 0 (i2 - 3), ?_, ?_⟩
        · exact eqRange_mono hg3 (by omega)
        · refine ⟨rfl, rfl, by omega, by omega, he, hf, ?_, ?_, hi⟩
          · intro _
            refine ⟨by omega, by omega, ?_⟩
            have hsh := eqRange_shiftE hg3 (max 0 (i2 - 3)) (i2 - max 0 (i2 - 3)) (by omega)
            simpa using hsh
          · intro hne
            exact absurd ht hne
      · rw [if_neg ht]
        exact ⟨0, eqRange_zero a b 0 0, ⟨rfl, rfl, hc, hd, he, hf, hg, hh, hi⟩⟩

theorem trimTail_ok [Inhabited α] {a b : List α} {codes : List Opcode} {i j e1 e2 : Nat}
    (h : PieceOk a b i j codes e1 e2) :
    ∃ f1 f2, PieceOk a b i j (trimTail 3 codes) f1 f2 ∧ f1 ≤ e1 ∧ f2 ≤ e2 ∧
      e1 - f1 = e2 - f2 ∧ EqRange a b f1 f2 (e1 - f1) := by
  rcases List.eq_nil_or_concat codes with hnil | ⟨init, op, hconcat⟩
  · subst hnil
    obtain ⟨ha, hb⟩ := h
    refine ⟨e1, e2, ?_, le_refl _, le_refl _, by omega, by simpa using eqRange_zero a b e1 e2⟩
    have : trimTail 3 ([] : List Opcode) = [] := rfl
    rw [this]
    exact ⟨ha, hb⟩
  · subst hconcat
    simp only [List.concat_eq_append] at h ⊢
    obtain ⟨t, i1, i2, j1, j2⟩ := op
    have hrev : (init ++ [(t, i1, i2, j1, j2)]).reverse = (t, i1, i2, j1, j2) :: init.reverse := by
      simp
    rw [trimTail, hrev]
    simp only []
    obtain ⟨m1, m2, hp1, hp2⟩ := piece_split h
    obtain ⟨ha, hb, hc, hd, he, hf, hg, hh, hi⟩ := hp2
    obtain ⟨hi1, hi2⟩ := hi
    subst ha
    subst hb
    by_cases ht : t = Tag.equal
    · rw [if_pos ht]
      simp only [List.reverse_cons, List.reverse_reverse]
      obtain ⟨hg1, hg2, hg3⟩ := hg ht
      refine ⟨min i2 (i1 + 3), min j2 (j1 + 3), ?_, by omega, by omega, by omega, ?_⟩
      · refine piece_append hp1 ?_
        refine ⟨rfl, rfl, by omega, by omega, by omega, by omega, ?_, ?_, rfl, rfl⟩
        · intro _
          exact ⟨by omega, by omega, eqRange_mono hg3 (by omega)⟩
        · intro hne
          exact absurd ht hne
      · have hsh := eqRange_shiftE hg3 (min i2 (i1 + 3) - i1) (e1 - min i2 (i1 + 3)) (by omega)
        have ex : i1 + (min i2 (i1 + 3) - i1) = min i2 (i1 + 3) := by omega
        have ey : j1 + (min i2 (i1 + 3) - i1) = min j2 (j1 + 3) := by omega
        rw [ex, ey] at hsh
        exact hsh
    · rw [if_neg ht]
      refine ⟨e1, e2, ?_, le_refl _, le_refl _, by omega, by simpa using eqRange_zero a b e1 e2⟩
      refine piece_append hp1 ?_
      exact ⟨rfl, rfl, hc, hd, he, hf, hg, hh, hi1, hi2⟩

theorem eqRange_congr [Inhabited α] {a b : List α} {i j k i' j' k' : Nat}
    (h : EqRange a b i j k) (hi : i' = i) (hj : j' = j) (hk : k' = k) :
    EqRange a b i' j' k' := by
  subst hi; subst hj; subst hk; exact h

theorem eqRange_glue [Inhabited α] {a b : List α} {i j k1 k2 x y : Nat}
    (h1 : EqRange a b i j k1) (h2 : EqRange a b x y k2)
    (hx : x = i + k1) (hy : y = j + k1) : EqRange a b i j (k1 + k2) := by
  subst hx; subst hy; exact eqRange_concat h1 h2

/-- The groups produced by `get_grouped_opcodes`: each group is a sound
opcode piece; consecutive groups (and the stretches before the first
group and after the last) are separated by equal-content gaps. -/
def GroupsOk [Inhabited α] (a b : List α) : Nat → Nat → List (List Opcode) → Prop
  | i, j, [] => i ≤ a.length ∧ j ≤ b.length ∧ a.length - i = b.length - j ∧
      EqRange a b i j (a.length - i)
  | i, j, g :: gs => ∃ i1 j1 i2 j2,
      i ≤ i1 ∧ j ≤ j1 ∧ i1 - i = j1 - j ∧ EqRange a b i j (i1 - i) ∧
      g ≠ [] ∧ PieceOk a b i1 j1 g i2 j2 ∧ (i2 = i1 → i1 = 0) ∧
      GroupsOk a b i2 j2 gs

theorem groupsOk_gap_prepend [Inhabited α] {a b : List α} {r1 r2 : Nat}
    {gs : List (List Opcode)} (h : GroupsOk a b r1 r2 gs) :
    ∀ m1 m2, m1 ≤ r1 → m2 ≤ r2 → r1 - m1 = r2 - m2 →
      EqRange a b m1 m2 (r1 - m1) → GroupsOk a b m1 m2 gs := by
  intro m1 m2 hm1 hm2 hmd hmE
  cases gs with
  | nil =>
      obtain ⟨h1, h2, h3, h4⟩ := h
      refine ⟨by omega, by omega, by omega, ?_⟩
      have := eqRange_glue hmE h4 (by omega) (by omega)
      exact eqRange_congr this rfl rfl (by omega)
  | cons g gs' =>
      obtain ⟨i1, j1, i2, j2, h1, h2, h3, h4, h5, h6, h7, h8⟩ := h
      refine ⟨i1, j1, i2, j2, by omega, by omega, by omega, ?_, h5, h6, h7, h8⟩
      have := eqRange_glue hmE h4 (by omega) (by omega)
      exact eqRange_congr this rfl rfl (by omega)

/-- The first opcode (if any) has a nonempty `a`-range. -/
def FirstA : List Opcode → Prop
  | [] => True
  | op :: _ => op.2.1 < op.2.2.1

theorem piece_start_le [Inhabited α] {a b : List α} :
    ∀ {L : List Opcode} {i j e1 e2 : Nat}, PieceOk a b i j L e1 e2 → i ≤ e1 ∧ j ≤ e2 := by
  intro L
  induction L with
  | nil =>
      intro i j e1 e2 h
      obtain ⟨h1, h2⟩ := h
      omega
  | cons op rest ih =>
      intro i j e1 e2 h
      obtain ⟨t, x1, x2, y1, y2⟩ := op
      obtain ⟨h1, h2, h3, h4, h5, h6, h7, h8, h9⟩ := h
      have := ih h9
      omega

theorem groupSplitGo_ok [Inhabited α] {a b : List α} :
    ∀ (codes group : List Opcode) (gi gj i j e1 e2 : Nat),
      PieceOk a b gi gj group i j →
      PieceOk a b i j codes e1 e2 →
      (gi = 0 ∨ gi < i ∨ (group = [] ∧ FirstA codes)) →
      e1 ≤ a.length → e2 ≤ b.length → a.length - e1 = b.length - e2 →
      EqRange a b e1 e2 (a.length - e1) →
      GroupsOk a b gi gj (groupSplitGo 6 3 codes group) := by
  intro codes
  induction codes with
  | nil =>
      intro group gi gj i j e1 e2 hgroup hcodes hinv he1 he2 hed heE
      obtain ⟨hc1, hc2⟩ := hcodes
      cases group with
      | nil =>
          obtain ⟨hg1, hg2⟩ := hgroup
          rw [show groupSplitGo 6 3 [] ([] : List Opcode) = [] from rfl]
          exact ⟨by omega, by omega, by omega,
            eqRange_congr heE (by omega) (by omega) (by omega)⟩
      | cons op g' =>
          obtain ⟨t, x1, x2, y1, y2⟩ := op
          cases g' with
          | nil =>
              cases t with
              | equal =>
                  obtain ⟨ha, hb, hc, hd, he, hf, hg, hh, hi⟩ := hgroup
                  obtain ⟨hi1, hi2⟩ := hi
                  rw [show groupSplitGo 6 3 [] [(Tag.equal, x1, x2, y1, y2)] = [] from rfl]
                  obtain ⟨hq1, hq2, hq3⟩ := hg rfl
                  refine ⟨by omega, by omega, by omega, ?_⟩
                  have hglue := eqRange_glue hq3 heE (by omega) (by omega)
                  exact eqRange_congr hglue (by omega) (by omega) (by omega)
              | replace =>
                  rw [show groupSplitGo 6 3 [] [(Tag.replace, x1, x2, y1, y2)]
                      = [[(Tag.replace, x1, x2, y1, y2)]] from rfl]
                  refine ⟨gi, gj, i, j, le_refl _, le_refl _, by omega,
                    eqRange_congr (eqRange_zero a b gi gj) rfl rfl (by omega), by simp,
                    hgroup, ?_, ?_⟩
                  · intro hieq
                    rcases hinv with h0 | h0 | ⟨h0, _⟩
                    · exact h0
                    · omega
                    · exact absurd h0 (by simp)
                  · exact ⟨by omega, by omega, by omega,
                      eqRange_congr heE (by omega) (by omega) (by omega)⟩
              | delete =>
                  rw [show groupSplitGo 6 3 [] [(Tag.delete, x1, x2, y1, y2)]
                      = [[(Tag.delete, x1, x2, y1, y2)]] from rfl]
                  refine ⟨gi, gj, i, j, le_refl _, le_refl _, by omega,
                    eqRange_congr (eqRange_zero a b gi gj) rfl rfl (by omega), by simp,
                    hgroup, ?_, ?_⟩
                  · intro hieq
                    rcases hinv with h0 | h0 | ⟨h0, _⟩
                    · exact h0
                    · omega
                    · exact absurd h0 (by simp)
                  · exact ⟨by omega, by omega, by omega,
                      eqRange_congr heE (by omega) (by omega) (by omega)⟩
              | insert =>
                  rw [show groupSplitGo 6 3 [] [(Tag.insert, x1, x2, y1, y2)]
                      = [[(Tag.insert, x1, x2, y1, y2)]] from rfl]
                  refine ⟨gi, gj, i, j, le_refl _, le_refl _, by omega,
                    eqRange_congr (eqRange_zero a b gi gj) rfl rfl (by omega), by simp,
                    hgroup, ?_, ?_⟩
                  · intro hieq
                    rcases hinv with h0 | h0 | ⟨h0, _⟩
                    · exact h0
                    · omega
                    · exact absurd h0 (by simp)
                  · exact ⟨by omega, by omega, by omega,
                      eqRange_congr heE (by omega) (by omega) (by omega)⟩
          | cons op2 g'' =>
              have heqs : groupSplitGo 6 3 [] ((t, x1, x2, y1, y2) :: op2 :: g'')
                  = [(t, x1, x2, y1, y2) :: op2 :: g''] := by
                cases t <;> rfl
              rw [heqs]
              refine ⟨gi, gj, i, j, le_refl _, le_refl _, by omega,
                eqRange_congr (eqRange_zero a b gi gj) rfl rfl (by omega), by simp,
                hgroup, ?_, ?_⟩
              · intro hieq
                rcases hinv with h0 | h0 | ⟨h0, _⟩
                · exact h0
                · omega
                · exact absurd h0 (by simp)
              · exact ⟨by omega, by omega, by omega,
                  eqRange_congr heE (by omega) (by omega) (by omega)⟩
  | cons op rest ih =>
      intro group gi gj i j e1 e2 hgroup hcodes hinv he1 he2 hed heE
      obtain ⟨t, i1c, i2c, j1c, j2c⟩ := op
      obtain ⟨ha, hb, hc, hd, he, hf, hg, hh, hi⟩ := hcodes
      have hstart := piece_start_le hgroup
      rw [groupSplitGo]
      by_cases hsplit : t = Tag.equal ∧ 6 < i2c - i1c
      · rw [if_pos hsplit]
        obtain ⟨ht, hbig⟩ := hsplit
        obtain ⟨hq1, hq2, hq3⟩ := hg ht
        refine ⟨gi, gj, min i2c (i1c + 3), min j2c (j1c + 3), le_refl _, le_refl _, by omega,
          eqRange_congr (eqRange_zero a b gi gj) rfl rfl (by omega), by simp, ?_, ?_, ?_⟩
        · refine piece_append hgroup ?_
          refine ⟨ha, hb, by omega, by omega, by omega, by omega, ?_, ?_, rfl, rfl⟩
          · intro _
            exact ⟨by omega, by omega, eqRange_mono hq3 (by omega)⟩
          · intro hne
            exact absurd ht hne
        · intro hieq
          omega
        · have hrem : PieceOk a b (max i1c (i2c - 3)) (max j1c (j2c - 3))
              [(t, max i1c (i2c - 3), i2c, max j1c (j2c - 3), j2c)] i2c j2c := by
            refine ⟨rfl, rfl, by omega, by omega, he, hf, ?_, ?_, rfl, rfl⟩
            · intro _
              refine ⟨by omega, by omega, ?_⟩
              have hsh := eqRange_shiftE hq3 (max i1c (i2c - 3) - i1c)
                (i2c - max i1c (i2c - 3)) (by omega)
              exact eqRange_congr hsh (by omega) (by omega) rfl
            · intro hne
              exact absurd ht hne
          have hrec := ih [(t, max i1c (i2c - 3), i2c, max j1c (j2c - 3), j2c)]
            (max i1c (i2c - 3)) (max j1c (j2c - 3)) i2c j2c e1 e2 hrem hi
            (Or.inr (Or.inl (by omega))) he1 he2 hed heE
          refine groupsOk_gap_prepend hrec (min i2c (i1c + 3)) (min j2c (j1c + 3))
            (by omega) (by omega) (by omega) ?_
          have hsh := eqRange_shiftE hq3 (min i2c (i1c + 3) - i1c)
            (max i1c (i2c - 3) - min i2c (i1c + 3)) (by omega)
          exact eqRange_congr hsh (by omega) (by omega) (by omega)
      · rw [if_neg hsplit]
        have hop : PieceOk a b i j [(t, i1c, i2c, j1c, j2c)] i2c j2c :=
          ⟨ha, hb, hc, hd, he, hf, hg, hh, rfl, rfl⟩
        have hga := piece_append hgroup hop
        refine ih (group ++ [(t, i1c, i2c, j1c, j2c)]) gi gj i2c j2c e1 e2 hga hi ?_
          he1 he2 hed heE
        rcases hinv with h0 | h0 | ⟨h0, h1⟩
        · exact Or.inl h0
        · exact Or.inr (Or.inl (by omega))
        · subst h0
          obtain ⟨hx, hy⟩ := hgroup
          simp only [FirstA] at h1
          exact Or.inr (Or.inl (by omega))

theorem trimTail_concat (init : List Opcode) (t : Tag) (i1 i2 j1 j2 : Nat) :
    trimTail 3 (init ++ [(t, i1, i2, j1, j2)]) =
      if t = Tag.equal then init ++ [(t, i1, min i2 (i1 + 3), j1, min j2 (j1 + 3))]
      else init ++ [(t, i1, i2, j1, j2)] := by
  rw [trimTail]
  have hrev : (init ++ [(t, i1, i2, j1, j2)]).reverse
      = (t, i1, i2, j1, j2) :: init.reverse := by simp
  rw [hrev]
  simp only []
  by_cases ht : t = Tag.equal
  · rw [if_pos ht, if_pos ht]
    simp
  · rw [if_neg ht, if_neg ht]

theorem trimTail_firstA {codes : List Opcode} (h : FirstA codes) :
    FirstA (trimTail 3 codes) := by
  cases codes with
  | nil =>
      rw [show trimTail 3 [] = [] from rfl]
      trivial
  | cons c cs =>
      rcases List.eq_nil_or_concat (c :: cs) with hx | ⟨init, op, hconcat⟩
      · exact absurd hx (by simp)
      · obtain ⟨t, i1, i2, j1, j2⟩ := op
        rw [hconcat] at h ⊢
        rw [List.concat_eq_append] at h ⊢
        rw [trimTail_concat]
        by_cases ht : t = Tag.equal
        · rw [if_pos ht]
          cases init with
          | nil =>
              have h' : i1 < i2 := h
              exact (show i1 < min i2 (i1 + 3) by omega)
          | cons d init' =>
              simpa [FirstA] using h
        · rw [if_neg ht]
          exact h

theorem trimHead_ok2 [Inhabited α] {a b : List α} {codes : List Opcode} {e1 e2 : Nat}
    (h : PieceOk a b 0 0 codes e1 e2) :
    ∃ d, EqRange a b 0 0 d ∧ PieceOk a b d d (trimHead 3 codes) e1 e2 ∧
      (d ≠ 0 → FirstA (trimHead 3 codes)) := by
  cases codes with
  | nil =>
      exact ⟨0, eqRange_zero a b 0 0, by simpa [trimHead] using h, fun hd => absurd rfl hd⟩
  | cons op rest =>
      obtain ⟨t, i1, i2, j1, j2⟩ := op
      obtain ⟨ha, hb, hc, hd, he, hf, hg, hh, hi⟩ := h
      subst ha
      subst hb
      rw [trimHead]
      by_cases ht : t = Tag.equal
      · rw [if_pos ht]
        obtain ⟨hg1, hg2, hg3⟩ := hg ht
        have hmx : max 0 (j2 - 3) = max 0 (i2 - 3) := by omega
        rw [hmx]
        refine ⟨max 0 (i2 - 3), ?_, ?_, ?_⟩
        · exact eqRange_mono hg3 (by omega)
        · refine ⟨rfl, rfl, by omega, by omega, he, hf, ?_, ?_, hi⟩
          · intro _
            refine ⟨by omega, by omega, ?_⟩
            have hsh := eqRange_shiftE hg3 (max 0 (i2 - 3)) (i2 - max 0 (i2 - 3)) (by omega)
            simpa using hsh
          · intro hne
            exact absurd ht hne
        · intro _
          simp only [FirstA]
          omega
      · rw [if_neg ht]
        exact ⟨0, eqRange_zero a b 0 0, ⟨rfl, rfl, hc, hd, he, hf, hg, hh, hi⟩,
          fun hd => absurd rfl hd⟩

set_option maxHeartbeats 2000000 in
theorem getGroupedOpcodes_ok [DecidableEq α] [Inhabited α] (a b : List α) :
    GroupsOk a b 0 0 (getGroupedOpcodes a b 3) := by
  rw [getGroupedOpcodes]
  rcases Decidable.em (getOpcodes a b = []) with h0 | h0
  · have hchain := getOpcodes_chain a b
    rw [h0] at hchain
    obtain ⟨hla, hlb⟩ := hchain
    rw [if_pos h0]
    have hconc : groupSplitGo (3 + 3) 3
        (trimTail 3 (trimHead 3 [(Tag.equal, 0, 1, 0, 1)])) [] = [] := by decide
    rw [hconc]
    exact ⟨by omega, by omega, by omega,
      eqRange_congr (eqRange_zero a b 0 0) rfl rfl (by omega)⟩
  · rw [if_neg h0]
    have hchain := getOpcodes_chain a b
    have hne := opcodesGo_nonempty (getMatchingBlocks a b) 0 0
    have hpiece : PieceOk a b 0 0 (getOpcodes a b) a.length b.length :=
      chainOk_piece hchain (by rw [getOpcodes]; exact hne)
    obtain ⟨d, hd0, hdp, hdF⟩ := trimHead_ok2 hpiece
    obtain ⟨f1, f2, htp, hf1, hf2, hfd, hfE⟩ := trimTail_ok hdp
    have hstart : PieceOk a b d d ([] : List Opcode) d d := ⟨rfl, rfl⟩
    have hinv : d = 0 ∨ d < d ∨ (([] : List Opcode) = [] ∧
        FirstA (trimTail 3 (trimHead 3 (getOpcodes a b)))) := by
      rcases Decidable.em (d = 0) with hdz | hdz
      · exact Or.inl hdz
      · exact Or.inr (Or.inr ⟨rfl, trimTail_firstA (hdF hdz)⟩)
    have hG := groupSplitGo_ok _ _ d d d d f1 f2 hstart htp hinv
      (by omega) (by omega) (by omega) hfE
    exact groupsOk_gap_prepend hG 0 0 (by omega) (by omega) (by omega)
      (eqRange_congr hd0 rfl rfl (by omega))

-- C1 : the difflib-generated patch applies back to the old text

theorem seg_self (a : List α) (i : Nat) : seg a i i = [] := by
  simp [seg]

theorem seg_full (a : List α) : seg a 0 a.length = a := by
  simp [seg]

theorem drop_eq_seg (a : List α) (i : Nat) : a.drop i = seg a i a.length := by
  rw [seg]
  exact (List.take_of_length_le (by simp)).symm

theorem seg_cons_getD [Inhabited α] {a : List α} {i j : Nat} (hi : i < a.length)
    (hij : i < j) : seg a i j = a.getD i default :: seg a (i + 1) j := by
  rw [seg, seg, List.drop_eq_getElem_cons hi]
  rw [List.getD_eq_getElem a default hi]
  have : j - i = (j - (i + 1)) + 1 := by omega
  rw [this, List.take_succ_cons]

theorem seg_append_seg (a : List α) {i j k : Nat} (hij : i ≤ j) (hjk : j ≤ k) :
    seg a i j ++ seg a j k = seg a i k := by
  rw [seg, seg, seg]
  have h1 : k - i = (j - i) + (k - j) := by omega
  have h2 : (a.drop i).drop (j - i) = a.drop j := by
    rw [List.drop_drop]
    congr 1
    omega
  rw [h1, List.take_add, h2]

theorem seg_subset {a : List α} {i j : Nat} {x : α} (h : x ∈ seg a i j) : x ∈ a := by
  rw [seg] at h
  exact List.mem_of_mem_drop (List.mem_of_mem_take h)

theorem seg_eq_of_eqRange [Inhabited α] {a b : List α} :
    ∀ {k i j : Nat}, EqRange a b i j k → i + k ≤ a.length → j + k ≤ b.length →
      seg a i (i + k) = seg b j (j + k) := by
  intro k
  induction k with
  | zero => intro i j _ _ _; simp [seg_self]
  | succ k ih =>
      intro i j h ha hb
      rw [seg_cons_getD (show i < a.length by omega) (show i < i + (k + 1) by omega),
        seg_cons_getD (show j < b.length by omega) (show j < j + (k + 1) by omega)]
      have h0 : a.getD (i + 0) default = b.getD (j + 0) default := h 0 (by omega)
      simp only [Nat.add_zero] at h0
      rw [h0]
      congr 1
      have hsh := eqRange_shiftE h 1 k (by omega)
      have e1 : i + (k + 1) = (i + 1) + k := by omega
      have e2 : j + (k + 1) = (j + 1) + k := by omega
      rw [e1, e2]
      exact ih hsh (by omega) (by omega)

theorem list_eq_of_eqRange_full [Inhabited α] {a b : List α}
    (hl : a.length = b.length) (h : EqRange a b 0 0 a.length) : a = b := by
  have h2 := seg_eq_of_eqRange h (by omega) (by omega)
  simp only [Nat.zero_add] at h2
  rw [seg_full] at h2
  rw [h2, hl, seg_full]

-- breakFree / properness of generated lines

theorem breakFree_append {x y : Str} (hx : breakFree x = true) (hy : breakFree y = true) :
    breakFree (x ++ y) = true := by
  simp only [breakFree, List.all_append, Bool.and_eq_true] at *
  exact ⟨hx, hy⟩

theorem properLine_concat_nl : ∀ {m : Str}, breakFree m = true →
    properLine (m ++ ['\n']) = true := by
  intro m
  induction m with
  | nil => intro _; rfl
  | cons c r ih =>
      intro h
      simp only [breakFree, List.all_cons, Bool.and_eq_true, Bool.not_eq_true'] at h
      exact properLine_cons_of h.1 (ih (by simp [breakFree, h.2]))

theorem digit_not_break {c : Char} (h : c.isDigit = true) : isLineBreak c = false := by
  cases hl : isLineBreak c
  · rfl
  · exfalso
    simp only [isLineBreak, Bool.or_eq_true, decide_eq_true_eq] at hl
    rcases hl with ((((((((h1 | h1) | h1) | h1) | h1) | h1) | h1) | h1) | h1) | h1 <;>
      (subst h1; exact absurd h (by decide))

theorem breakFree_natChars (n : Nat) : breakFree (natChars n) = true := by
  simp only [breakFree, List.all_eq_true, Bool.not_eq_true']
  intro c hc
  exact digit_not_break (natChars_all_digit n c hc)

theorem breakFree_cons {c : Char} {l : Str} (hc : isLineBreak c = false)
    (hl : breakFree l = true) : breakFree (c :: l) = true := by
  simp only [breakFree, List.all_cons, Bool.and_eq_true, Bool.not_eq_true'] at *
  exact ⟨hc, hl⟩

theorem breakFree_fmtRange (s t : Nat) : breakFree (fmtRangeUnified s t) = true := by
  simp only [fmtRangeUnified]
  split
  · exact breakFree_natChars _
  · exact breakFree_append (breakFree_natChars _)
      (breakFree_cons (by decide) (breakFree_natChars _))

theorem groupHeader_proper {g : List Opcode} (h : g ≠ []) :
    properLine (groupHeader g) = true := by
  match g, h with
  | first :: rest, _ =>
      rw [groupHeader]
      have hb : breakFree ((S "@@ -" ++ fmtRangeUnified first.2.1
          (((first :: rest).getLastD first)).2.2.1)
          ++ (S " +" ++ fmtRangeUnified first.2.2.2.1
            (((first :: rest).getLastD first)).2.2.2.2) ++ (S " @@")) = true := by
        refine breakFree_append (breakFree_append ?_ ?_) (by decide)
        · exact breakFree_append (by decide) (breakFree_fmtRange _ _)
        · exact breakFree_append (by decide) (breakFree_fmtRange _ _)
      have := properLine_concat_nl hb
      simpa [List.append_assoc] using this

theorem groupHeader_head {g : List Opcode} (h : g ≠ []) :
    (groupHeader g).head? = some '@' := by
  match g, h with
  | first :: rest, _ =>
      rw [groupHeader]
      rfl

theorem opLines_mem {a b : List Str} {op : Opcode} {l : Str}
    (h : l ∈ opLines a b op) :
    (∃ x ∈ a, l = ' ' :: x ∨ l = '-' :: x) ∨ (∃ y ∈ b, l = '+' :: y) := by
  obtain ⟨t, i1, i2, j1, j2⟩ := op
  cases t with
  | equal =>
      simp only [opLines, List.mem_map] at h
      obtain ⟨x, hx, hl⟩ := h
      exact Or.inl ⟨x, seg_subset hx, Or.inl hl.symm⟩
  | delete =>
      simp only [opLines, List.mem_map] at h
      obtain ⟨x, hx, hl⟩ := h
      exact Or.inl ⟨x, seg_subset hx, Or.inr hl.symm⟩
  | insert =>
      simp only [opLines, List.mem_map] at h
      obtain ⟨y, hy, hl⟩ := h
      exact Or.inr ⟨y, seg_subset hy, hl.symm⟩
  | replace =>
      simp only [opLines, List.mem_append, List.mem_map] at h
      rcases h with ⟨x, hx, hl⟩ | ⟨y, hy, hl⟩
      · exact Or.inl ⟨x, seg_subset hx, Or.inr hl.symm⟩
      · exact Or.inr ⟨y, seg_subset hy, hl.symm⟩

theorem groupLines_line_proper {a b : List Str} {gs : List (List Opcode)}
    (hg : ∀ g ∈ gs, g ≠ []) (ha : ∀ l ∈ a, properLine l = true)
    (hb : ∀ l ∈ b, properLine l = true) :
    ∀ l ∈ (gs.map (groupLines a b)).flatten,
      properLine l = true ∧ l.head? ≠ some '\n' := by
  intro l hl
  simp only [List.mem_flatten, List.mem_map] at hl
  obtain ⟨L, ⟨g, hgmem, hLdef⟩, hlL⟩ := hl
  subst hLdef
  rw [groupLines] at hlL
  rcases List.mem_cons.mp hlL with hhd | hbody
  · subst hhd
    refine ⟨groupHeader_proper (hg g hgmem), ?_⟩
    rw [groupHeader_head (hg g hgmem)]
    intro hc
    exact absurd (Option.some.inj hc) (by decide)
  · simp only [List.mem_flatten, List.mem_map] at hbody
    obtain ⟨L2, ⟨op, _, hL2⟩, hlL2⟩ := hbody
    subst hL2
    rcases opLines_mem hlL2 with ⟨x, hx, hlx | hlx⟩ | ⟨y, hy, hly⟩
    · subst hlx
      exact ⟨properLine_cons_of (by decide) (ha x hx), by simp⟩
    · subst hlx
      exact ⟨properLine_cons_of (by decide) (ha x hx), by simp⟩
    · subst hly
      exact ⟨properLine_cons_of (by decide) (hb y hy), by simp⟩

theorem unifiedDiff_lines_proper {f t : Str} {a b : List Str}
    (hf : breakFree f = true) (ht : breakFree t = true)
    (ha : ∀ l ∈ a, properLine l = true) (hb : ∀ l ∈ b, properLine l = true)
    (hg : ∀ g ∈ getGroupedOpcodes a b 3, g ≠ []) :
    ∀ l ∈ unifiedDiffLines f t a b, properLine l = true ∧ l.head? ≠ some '\n' := by
  intro l hl
  rw [unifiedDiffLines] at hl
  rcases hgs : getGroupedOpcodes a b 3 with _ | ⟨g0, gs0⟩
  · rw [hgs] at hl
    simp at hl
  · rw [hgs] at hl hg
    simp only [] at hl
    rcases List.mem_cons.mp hl with h1 | hl2
    · subst h1
      constructor
      · have : properLine ((S "--- " ++ f) ++ ['\n']) = true :=
          properLine_concat_nl (breakFree_append (by decide) hf)
        simpa [List.append_assoc] using this
      · simp [S]
    · rcases List.mem_cons.mp hl2 with h2 | hl3
      · subst h2
        constructor
        · have : properLine ((S "+++ " ++ t) ++ ['\n']) = true :=
            properLine_concat_nl (breakFree_append (by decide) ht)
          simpa [List.append_assoc] using this
        · simp [S]
      · exact groupLines_line_proper hg ha hb l hl3

-- ==== tag-range bounds carried by every opcode the differ emits ====

def TagBounds (l : List Opcode) : Prop :=
  ∀ op ∈ l, (op.1 = Tag.insert → op.2.2.1 ≤ op.2.1) ∧
    (op.1 = Tag.delete → op.2.2.2.2 ≤ op.2.2.2.1)

theorem tagBounds_nil : TagBounds [] := fun op h => absurd h (List.not_mem_nil op)

theorem tagBounds_append {l1 l2 : List Opcode} (h1 : TagBounds l1) (h2 : TagBounds l2) :
    TagBounds (l1 ++ l2) :=
  fun op h => (List.mem_append.mp h).elim (h1 op) (h2 op)

theorem tagBounds_cons_head {op : Opcode} {l : List Opcode} (h : TagBounds (op :: l)) :
    ((op.1 = Tag.insert → op.2.2.1 ≤ op.2.1) ∧
      (op.1 = Tag.delete → op.2.2.2.2 ≤ op.2.2.2.1)) ∧ TagBounds l :=
  ⟨h op (List.mem_cons_self _ _), fun op' h' => h op' (List.mem_cons_of_mem _ h')⟩

theorem tagBounds_equal_singleton {op : Opcode} (ht : op.1 = Tag.equal) :
    TagBounds [op] := by
  intro op' h'
  rw [List.mem_singleton.mp h']
  constructor
  · intro hi; rw [ht] at hi; exact Tag.noConfusion hi
  · intro hd; rw [ht] at hd; exact Tag.noConfusion hd

theorem opcodesGo_tagBounds : ∀ (i j : Nat) (blocks : List (Nat × Nat × Nat)),
    TagBounds (opcodesGo i j blocks) := by
  intro i j blocks
  induction blocks generalizing i j with
  | nil => exact tagBounds_nil
  | cons blk rest ih =>
      obtain ⟨ai, bj, size⟩ := blk
      rw [opcodesGo]
      refine tagBounds_append (tagBounds_append ?_ ?_) (ih _ _)
      · split
        · intro op hop
          rw [List.mem_singleton.mp hop]
          exact ⟨fun h => Tag.noConfusion h, fun h => Tag.noConfusion h⟩
        · split
          · rename_i h1 h2
            intro op hop
            rw [List.mem_singleton.mp hop]
            refine ⟨fun h => Tag.noConfusion h, fun _ => ?_⟩
            show bj ≤ j
            omega
          · split
            · intro op hop
              rw [List.mem_singleton.mp hop]
              refine ⟨fun _ => ?_, fun h => Tag.noConfusion h⟩
              rename_i h1 h2 h3
              show ai ≤ i
              omega
            · exact tagBounds_nil
      · split
        · exact tagBounds_equal_singleton rfl
        · exact tagBounds_nil

theorem trimHead_tagBounds {codes : List Opcode} (h : TagBounds codes) :
    TagBounds (trimHead 3 codes) := by
  cases codes with
  | nil => exact tagBounds_nil
  | cons op rest =>
      obtain ⟨t, i1, i2, j1, j2⟩ := op
      rw [trimHead]
      obtain ⟨_, hrest⟩ := tagBounds_cons_head h
      split
      · rename_i ht
        intro op' h'
        rcases List.mem_cons.mp h' with h1 | h1
        · subst h1
          subst ht
          exact ⟨fun hi => Tag.noConfusion hi, fun hd => Tag.noConfusion hd⟩
        · exact hrest op' h1
      · exact h

theorem trimTail_tagBounds {codes : List Opcode} (h : TagBounds codes) :
    TagBounds (trimTail 3 codes) := by
  rcases hrev : codes.reverse with _ | ⟨op, restRev⟩
  · have : codes = [] := List.reverse_eq_nil_iff.mp hrev
    subst this
    exact tagBounds_nil
  · obtain ⟨t, i1, i2, j1, j2⟩ := op
    have hcodes : codes = ((t, i1, i2, j1, j2) :: restRev).reverse := by
      rw [← hrev, List.reverse_reverse]
    rw [trimTail.eq_def, hrev]
    simp only []
    split
    · rename_i ht
      intro op' h'
      rw [List.mem_reverse] at h'
      rcases List.mem_cons.mp h' with h1 | h1
      · subst h1
        subst ht
        exact ⟨fun hi => Tag.noConfusion hi, fun hd => Tag.noConfusion hd⟩
      · refine h op' ?_
        rw [hcodes, List.mem_reverse]
        exact List.mem_cons_of_mem _ h1
    · exact h

theorem groupSplitGo_tagBounds (nn n : Nat) : ∀ (codes group : List Opcode),
    TagBounds codes → TagBounds group →
    ∀ g ∈ groupSplitGo nn n codes group, TagBounds g := by
  intro codes
  induction codes with
  | nil =>
      intro group hc hg g hmem
      rcases group with _ | ⟨⟨t, a1, a2, b1, b2⟩, grest⟩
      · have e : groupSplitGo nn n [] ([] : List Opcode) = [] := rfl
        rw [e] at hmem
        exact absurd hmem (List.not_mem_nil g)
      · rcases grest with _ | ⟨g2, grest2⟩
        · cases t with
          | equal =>
              have e : groupSplitGo nn n [] [(Tag.equal, a1, a2, b1, b2)] = [] := rfl
              rw [e] at hmem
              exact absurd hmem (List.not_mem_nil g)
          | replace =>
              have e : groupSplitGo nn n [] [(Tag.replace, a1, a2, b1, b2)] =
                  [[(Tag.replace, a1, a2, b1, b2)]] := rfl
              rw [e] at hmem
              rw [List.mem_singleton.mp hmem]
              exact hg
          | delete =>
              have e : groupSplitGo nn n [] [(Tag.delete, a1, a2, b1, b2)] =
                  [[(Tag.delete, a1, a2, b1, b2)]] := rfl
              rw [e] at hmem
              rw [List.mem_singleton.mp hmem]
              exact hg
          | insert =>
              have e : groupSplitGo nn n [] [(Tag.insert, a1, a2, b1, b2)] =
                  [[(Tag.insert, a1, a2, b1, b2)]] := rfl
              rw [e] at hmem
              rw [List.mem_singleton.mp hmem]
              exact hg
        · have e : groupSplitGo nn n [] ((t, a1, a2, b1, b2) :: g2 :: grest2) =
              [(t, a1, a2, b1, b2) :: g2 :: grest2] := by cases t <;> rfl
          rw [e] at hmem
          rw [List.mem_singleton.mp hmem]
          exact hg
  | cons op rest ih =>
      intro group hc hg g hmem
      obtain ⟨t, i1, i2, j1, j2⟩ := op
      obtain ⟨hop, hrest⟩ := tagBounds_cons_head hc
      rw [groupSplitGo] at hmem
      split at hmem
      · rename_i hcond
        rcases List.mem_cons.mp hmem with h1 | h1
        · subst h1
          exact tagBounds_append hg (tagBounds_equal_singleton hcond.1)
        · exact ih _ hrest (tagBounds_equal_singleton hcond.1) g h1
      · exact ih _ hrest (tagBounds_append hg (fun op' h' => by
          rw [List.mem_singleton.mp h']; exact hop)) g hmem

theorem getOpcodes_tagBounds [DecidableEq α] [Inhabited α] (a b : List α) :
    TagBounds (getOpcodes a b) := by
  rw [getOpcodes]
  exact opcodesGo_tagBounds 0 0 _

theorem getGroupedOpcodes_tagBounds [DecidableEq α] [Inhabited α] (a b : List α) :
    ∀ g ∈ getGroupedOpcodes a b 3, TagBounds g := by
  intro g hg
  rw [getGroupedOpcodes] at hg
  refine groupSplitGo_tagBounds 6 3 _ [] (trimTail_tagBounds (trimHead_tagBounds ?_))
    tagBounds_nil g hg
  split
  · exact tagBounds_equal_singleton rfl
  · exact getOpcodes_tagBounds a b

-- ==== empty grouping forces an all-equal opcode chain (a = b) ====

theorem opTags_trimHead (n : Nat) (codes : List Opcode) :
    (trimHead n codes).map Prod.fst = codes.map Prod.fst := by
  cases codes with
  | nil => rfl
  | cons op rest =>
      obtain ⟨t, i1, i2, j1, j2⟩ := op
      rw [trimHead]
      split <;> simp

theorem opTags_trimTail (n : Nat) (codes : List Opcode) :
    (trimTail n codes).map Prod.fst = codes.map Prod.fst := by
  rcases hrev : codes.reverse with _ | ⟨op, restRev⟩
  · have : codes = [] := List.reverse_eq_nil_iff.mp hrev
    subst this
    rfl
  · obtain ⟨t, i1, i2, j1, j2⟩ := op
    have hcodes : codes = ((t, i1, i2, j1, j2) :: restRev).reverse := by
      rw [← hrev, List.reverse_reverse]
    rw [trimTail.eq_def, hrev]
    simp only []
    split
    · rw [hcodes]
      simp
    · rfl

theorem all_equal_of_tags {codes : List Opcode}
    (h : ∀ t ∈ codes.map Prod.fst, t = Tag.equal) : ∀ op ∈ codes, op.1 = Tag.equal :=
  fun op hop => h op.1 (List.mem_map_of_mem Prod.fst hop)

theorem tags_of_all_equal {codes : List Opcode}
    (h : ∀ op ∈ codes, op.1 = Tag.equal) : ∀ t ∈ codes.map Prod.fst, t = Tag.equal := by
  intro t ht
  rcases List.mem_map.mp ht with ⟨op, hop, hdef⟩
  rw [← hdef]
  exact h op hop

theorem groupSplitGo_nil_all_equal (nn n : Nat) : ∀ (codes group : List Opcode),
    groupSplitGo nn n codes group = [] →
    (∀ op ∈ codes, op.1 = Tag.equal) ∧ (∀ op ∈ group, op.1 = Tag.equal) := by
  intro codes
  induction codes with
  | nil =>
      intro group h
      refine ⟨fun op hop => absurd hop (List.not_mem_nil op), ?_⟩
      rcases group with _ | ⟨⟨t, a1, a2, b1, b2⟩, grest⟩
      · intro op hop
        exact absurd hop (List.not_mem_nil op)
      · rcases grest with _ | ⟨g2, grest2⟩
        · cases t with
          | equal =>
              intro op hop
              rw [List.mem_singleton.mp hop]
          | replace =>
              have e : groupSplitGo nn n [] [(Tag.replace, a1, a2, b1, b2)] =
                  [[(Tag.replace, a1, a2, b1, b2)]] := rfl
              rw [e] at h
              exact List.noConfusion h
          | delete =>
              have e : groupSplitGo nn n [] [(Tag.delete, a1, a2, b1, b2)] =
                  [[(Tag.delete, a1, a2, b1, b2)]] := rfl
              rw [e] at h
              exact List.noConfusion h
          | insert =>
              have e : groupSplitGo nn n [] [(Tag.insert, a1, a2, b1, b2)] =
                  [[(Tag.insert, a1, a2, b1, b2)]] := rfl
              rw [e] at h
              exact List.noConfusion h
        · have e : groupSplitGo nn n [] ((t, a1, a2, b1, b2) :: g2 :: grest2) =
              [(t, a1, a2, b1, b2) :: g2 :: grest2] := by cases t <;> rfl
          rw [e] at h
          exact List.noConfusion h
  | cons op rest ih =>
      intro group h
      obtain ⟨t, i1, i2, j1, j2⟩ := op
      rw [groupSplitGo] at h
      split at h
      · exact List.noConfusion h
      · obtain ⟨hrest, hgrp⟩ := ih _ h
        refine ⟨?_, fun op' h' => hgrp op' (List.mem_append_left _ h')⟩
        intro op' h'
        rcases List.mem_cons.mp h' with h1 | h1
        · subst h1
          have := hgrp _ (List.mem_append_right _ (List.mem_singleton_self _))
          exact this
        · exact hrest op' h1

theorem chain_all_equal [Inhabited α] {a b : List α} : ∀ {codes : List Opcode} {i j : Nat},
    ChainOk a b i j codes → (∀ op ∈ codes, op.1 = Tag.equal) →
    i ≤ a.length ∧ j ≤ b.length ∧ a.length - i = b.length - j ∧
      EqRange a b i j (a.length - i) := by
  intro codes
  induction codes with
  | nil =>
      intro i j hch _
      obtain ⟨h1, h2⟩ := hch
      exact ⟨by omega, by omega, by omega,
        eqRange_congr (eqRange_zero a b i j) rfl rfl (by omega)⟩
  | cons op rest ih =>
      intro i j hch hall
      obtain ⟨t, i1, i2, j1, j2⟩ := op
      obtain ⟨h1, h2, h3, h4, h5, h6, h7, h8⟩ := hch
      have ht : t = Tag.equal := hall _ (List.mem_cons_self _ _)
      obtain ⟨hd, hpos, hE⟩ := h7 ht
      obtain ⟨k1, k2, k3, kE⟩ := ih h8 (fun op' h' => hall op' (List.mem_cons_of_mem _ h'))
      refine ⟨by omega, by omega, by omega, ?_⟩
      have hE' : EqRange a b i j (i2 - i1) := eqRange_congr hE h1.symm h2.symm rfl
      have := eqRange_glue hE' kE (by omega) (by omega)
      exact eqRange_congr this rfl rfl (by omega)

-- ==== first/last opcode fields of a sound piece (for the group header) ====

theorem piece_ends [Inhabited α] {a b : List α} : ∀ {rest : List Opcode} {op : Opcode}
    {i j e1 e2 : Nat}, PieceOk a b i j (op :: rest) e1 e2 →
    op.2.1 = i ∧ op.2.2.2.1 = j ∧ ((op :: rest).getLastD op).2.2.1 = e1 ∧
      ((op :: rest).getLastD op).2.2.2.2 = e2 := by
  intro rest
  induction rest with
  | nil =>
      intro op i j e1 e2 h
      obtain ⟨t, i1, i2, j1, j2⟩ := op
      obtain ⟨h1, h2, h3, h4, h5, h6, h7, h8, h9⟩ := h
      obtain ⟨he1, he2⟩ := h9
      exact ⟨h1, h2, by simp [List.getLastD]; omega, by simp [List.getLastD]; omega⟩
  | cons op2 rest2 ih =>
      intro op i j e1 e2 h
      obtain ⟨t, i1, i2, j1, j2⟩ := op
      obtain ⟨h1, h2, h3, h4, h5, h6, h7, h8, h9⟩ := h
      obtain ⟨k1, k2, k3, k4⟩ := ih h9
      have e : ((t, i1, i2, j1, j2) :: op2 :: rest2).getLastD (t, i1, i2, j1, j2) =
          (op2 :: rest2).getLastD op2 := by
        simp [List.getLastD]
      exact ⟨h1, h2, by rw [e]; exact k3, by rw [e]; exact k4⟩

theorem groupsOk_ne_nil [Inhabited α] {a b : List α} : ∀ {gs : List (List Opcode)}
    {i j : Nat}, GroupsOk a b i j gs → ∀ g ∈ gs, g ≠ [] := by
  intro gs
  induction gs with
  | nil => intro i j _ g hg; exact absurd hg (List.not_mem_nil g)
  | cons g0 gs0 ih =>
      intro i j h g hg
      obtain ⟨i1, j1, i2, j2, _, _, _, _, hne, _, _, hrest⟩ := h
      rcases List.mem_cons.mp hg with h1 | h1
      · subst h1; exact hne
      · exact ih hrest g h1

-- ==== single-line steps of the hunk-application loop ====

theorem bfne {b : Bool} (h : b = false) : ¬ b = true := by
  rw [h]; exact Bool.false_ne_true

theorem sw_cons_ne_head {c d : Char} (h : ¬ d = c) (r p : Str) :
    pyStartsWith (c :: r) (d :: p) = false := by
  simp only [pyStartsWith, List.isPrefixOf, Bool.and_eq_true, beq_iff_eq]
  simp [h]

theorem sw_cons_single (c : Char) (r : Str) : pyStartsWith (c :: r) [c] = true := by
  simp [pyStartsWith, List.isPrefixOf]

theorem sw_at_cons {c : Char} (h : ¬ c = '@') (r : Str) :
    pyStartsWith (c :: r) (S "@@") = false := by
  have e : S "@@" = '@' :: '@' :: [] := rfl
  rw [e]
  exact sw_cons_ne_head (fun hc => h hc.symm) r _

theorem sw_at_header (r : Str) : pyStartsWith ('@' :: '@' :: r) (S "@@") = true := by
  have e : S "@@" = '@' :: '@' :: [] := rfl
  rw [e]
  simp [pyStartsWith, List.isPrefixOf]

theorem sw_bs {c : Char} (h : ¬ c = '\\') (r : Str) :
    pyStartsWith (c :: r) (S "\\") = false := by
  have e : S "\\" = '\\' :: [] := rfl
  rw [e]
  exact sw_cons_ne_head (fun hc => h hc.symm) r _

theorem sw_sp {c : Char} (h : ¬ c = ' ') (r : Str) :
    pyStartsWith (c :: r) (S " ") = false := by
  have e : S " " = ' ' :: [] := rfl
  rw [e]
  exact sw_cons_ne_head (fun hc => h hc.symm) r _

theorem sw_dash {c : Char} (h : ¬ c = '-') (r : Str) :
    pyStartsWith (c :: r) (S "-") = false := by
  have e : S "-" = '-' :: [] := rfl
  rw [e]
  exact sw_cons_ne_head (fun hc => h hc.symm) r _

theorem applyGo_nil_ok (A : List Str) (i : Nat) (out : List Str) {cnt : Nat}
    (h : cnt ≠ 0) : applyGo A [] i out cnt = .ok (out ++ A.drop i) := by
  rw [applyGo]
  rw [if_neg h]

theorem applyGo_step_ctx (A : List Str) (l : Str) (rest : List Str) (i : Nat)
    (out : List Str) (cnt : Nat) (hi : i < A.length) (hl : A.getD i [] = l) :
    applyGo A ((' ' :: l) :: rest) i out cnt
      = applyGo A rest (i + 1) (out ++ [A.getD i []]) (cnt + 1) := by
  rw [applyGo.eq_def]
  simp only []
  rw [if_neg (bfne (sw_at_cons (by decide) l))]
  rw [if_neg (bfne (sw_bs (by decide) l))]
  rw [if_pos (show pyStartsWith (' ' :: l) (S " ") = true from sw_cons_single ' ' l)]
  rw [if_neg (by omega : ¬ A.length ≤ i)]
  rw [if_neg (show ¬ A.getD i [] ≠ List.drop 1 (' ' :: l) from fun hc => hc (by rw [hl]; simp))]

theorem applyGo_step_del (A : List Str) (l : Str) (rest : List Str) (i : Nat)
    (out : List Str) (cnt : Nat) (hi : i < A.length) (hl : A.getD i [] = l) :
    applyGo A (('-' :: l) :: rest) i out cnt
      = applyGo A rest (i + 1) out (cnt + 1) := by
  rw [applyGo.eq_def]
  simp only []
  rw [if_neg (bfne (sw_at_cons (by decide) l))]
  rw [if_neg (bfne (sw_bs (by decide) l))]
  rw [if_neg (bfne (sw_sp (by decide) l))]
  rw [if_pos (show pyStartsWith ('-' :: l) (S "-") = true from sw_cons_single '-' l)]
  rw [if_neg (by omega : ¬ A.length ≤ i)]
  rw [if_neg (show ¬ A.getD i [] ≠ List.drop 1 ('-' :: l) from fun hc => hc (by rw [hl]; simp))]

theorem applyGo_step_ins (A : List Str) (l : Str) (rest : List Str) (i : Nat)
    (out : List Str) (cnt : Nat) :
    applyGo A (('+' :: l) :: rest) i out cnt
      = applyGo A rest i (out ++ [l]) (cnt + 1) := by
  rw [applyGo.eq_def]
  simp only []
  rw [if_neg (bfne (sw_at_cons (by decide) l))]
  rw [if_neg (bfne (sw_bs (by decide) l))]
  rw [if_neg (bfne (sw_sp (by decide) l))]
  rw [if_neg (bfne (sw_dash (by decide) l))]
  rw [if_pos (show pyStartsWith ('+' :: l) (S "+") = true from sw_cons_single '+' l)]
  simp [List.drop_one]

-- ==== replaying the body lines of one opcode ====

theorem seg_cons_getD' {a : List Str} {i j : Nat} (hi : i < a.length)
    (hij : i < j) : seg a i j = a.getD i [] :: seg a (i + 1) j :=
  seg_cons_getD hi hij

theorem ctxReplay (A B : List Str) : ∀ (k i j : Nat) (out : List Str) (cnt : Nat)
    (rest : List Str), EqRange A B i j k → i + k ≤ A.length → j + k ≤ B.length →
    applyGo A ((seg A i (i + k)).map (fun l => ' ' :: l) ++ rest) i out cnt
      = applyGo A rest (i + k) (out ++ seg B j (j + k)) (cnt + k) := by
  intro k
  induction k with
  | zero =>
      intro i j out cnt rest _ _ _
      simp [seg_self]
  | succ k ih =>
      intro i j out cnt rest hE ha hb
      rw [seg_cons_getD' (show i < A.length by omega) (show i < i + (k + 1) by omega)]
      rw [List.map_cons, List.cons_append]
      rw [applyGo_step_ctx A _ _ i out cnt (by omega) rfl]
      have h0 : A.getD i [] = B.getD j [] := hE 0 (by omega)
      have e1 : i + (k + 1) = (i + 1) + k := by omega
      have e2 : j + (k + 1) = (j + 1) + k := by omega
      rw [e1]
      have hsh : EqRange A B (i + 1) (j + 1) k := eqRange_shiftE hE 1 k (by omega)
      rw [ih (i + 1) (j + 1) (out ++ [A.getD i []]) (cnt + 1) rest hsh
        (by omega) (by omega)]
      have eout : (out ++ [A.getD i []]) ++ seg B (j + 1) ((j + 1) + k)
          = out ++ seg B j (j + (k + 1)) := by
        rw [List.append_assoc]
        congr 1
        rw [seg_cons_getD' (show j < B.length by omega) (show j < j + (k + 1) by omega)]
        rw [h0, e2]
        rfl
      rw [eout]
      congr 1
      omega

theorem delReplay (A : List Str) : ∀ (k i : Nat) (out : List Str) (cnt : Nat)
    (rest : List Str), i + k ≤ A.length →
    applyGo A ((seg A i (i + k)).map (fun l => '-' :: l) ++ rest) i out cnt
      = applyGo A rest (i + k) out (cnt + k) := by
  intro k
  induction k with
  | zero =>
      intro i out cnt rest _
      simp [seg_self]
  | succ k ih =>
      intro i out cnt rest ha
      rw [seg_cons_getD' (show i < A.length by omega) (show i < i + (k + 1) by omega)]
      rw [List.map_cons, List.cons_append]
      rw [applyGo_step_del A _ _ i out cnt (by omega) rfl]
      have e1 : i + (k + 1) = (i + 1) + k := by omega
      rw [e1]
      rw [ih (i + 1) out (cnt + 1) rest (by omega)]
      congr 1
      omega

theorem insReplay (A B : List Str) : ∀ (k j oldIdx : Nat) (out : List Str) (cnt : Nat)
    (rest : List Str), j + k ≤ B.length →
    applyGo A ((seg B j (j + k)).map (fun l => '+' :: l) ++ rest) oldIdx out cnt
      = applyGo A rest oldIdx (out ++ seg B j (j + k)) (cnt + k) := by
  intro k
  induction k with
  | zero =>
      intro j oldIdx out cnt rest _
      simp [seg_self]
  | succ k ih =>
      intro j oldIdx out cnt rest hb
      rw [seg_cons_getD' (show j < B.length by omega) (show j < j + (k + 1) by omega)]
      rw [List.map_cons, List.cons_append]
      rw [applyGo_step_ins A _ _ oldIdx out cnt]
      have e2 : j + (k + 1) = (j + 1) + k := by omega
      rw [e2]
      rw [ih (j + 1) oldIdx (out ++ [B.getD j []]) (cnt + 1) rest (by omega)]
      rw [List.append_assoc, List.singleton_append]
      have e3 : (cnt + 1) + k = cnt + (k + 1) := by omega
      rw [e3]

-- ==== replaying all body lines of one group's opcode piece ====

theorem pieceReplay (A B : List Str) : ∀ (ops : List Opcode) (i j e1 e2 : Nat),
    PieceOk A B i j ops e1 e2 → TagBounds ops →
    ∀ (out : List Str) (cnt : Nat) (rest : List Str),
    ∃ m, applyGo A ((ops.map (opLines A B)).flatten ++ rest) i out cnt
        = applyGo A rest e1 (out ++ seg B j e2) (cnt + m) ∧ (ops ≠ [] → 0 < m) := by
  intro ops
  induction ops with
  | nil =>
      intro i j e1 e2 h _ out cnt rest
      obtain ⟨h1, h2⟩ := h
      subst h1
      subst h2
      exact ⟨0, by simp [seg_self], fun hne => absurd rfl hne⟩
  | cons op ops' ih =>
      intro i j e1 e2 h htb out cnt rest
      obtain ⟨t, i1, i2, j1, j2⟩ := op
      obtain ⟨h1, h2, h3, h4, h5, h6, h7, h8, h9⟩ := h
      obtain ⟨hopb, htb'⟩ := tagBounds_cons_head htb
      subst h1
      subst h2
      have hj2e : j2 ≤ e2 := (piece_start_le h9).2
      rw [List.map_cons, List.flatten_cons, List.append_assoc]
      cases t with
      | equal =>
          obtain ⟨hd, hpos, hE⟩ := h7 rfl
          obtain ⟨m', hm', _⟩ := ih i2 j2 e1 e2 h9 htb'
            (out ++ seg B j1 j2) (cnt + (i2 - i1)) rest
          refine ⟨(i2 - i1) + m', ?_, fun _ => by omega⟩
          simp only [opLines]
          have step1 := ctxReplay A B (i2 - i1) i1 j1 out cnt
            (((ops'.map (opLines A B)).flatten) ++ rest) hE (by omega) (by omega)
          have ei : i1 + (i2 - i1) = i2 := by omega
          have ej : j1 + (i2 - i1) = j2 := by omega
          rw [ei, ej] at step1
          rw [step1, hm']
          rw [List.append_assoc, seg_append_seg B h4 hj2e]
          congr 1
          omega
      | delete =>
          have hj2 : j2 = j1 := by
            have hle : j2 ≤ j1 := hopb.2 rfl
            omega
          subst hj2
          obtain ⟨m', hm', _⟩ := ih i2 j2 e1 e2 h9 htb' out (cnt + (i2 - i1)) rest
          have hii : i1 < i2 := by
            rcases h8 (fun hc => Tag.noConfusion hc) with h | h
            · exact h
            · omega
          refine ⟨(i2 - i1) + m', ?_, fun _ => by omega⟩
          simp only [opLines]
          have step1 := delReplay A (i2 - i1) i1 out cnt
            (((ops'.map (opLines A B)).flatten) ++ rest) (by omega)
          have ei : i1 + (i2 - i1) = i2 := by omega
          rw [ei] at step1
          rw [step1, hm']
          congr 1
          omega
      | insert =>
          have hi2 : i2 = i1 := by
            have hle : i2 ≤ i1 := hopb.1 rfl
            omega
          subst hi2
          obtain ⟨m', hm', _⟩ := ih i2 j2 e1 e2 h9 htb'
            (out ++ seg B j1 j2) (cnt + (j2 - j1)) rest
          have hjj : j1 < j2 := by
            rcases h8 (fun hc => Tag.noConfusion hc) with h | h
            · omega
            · exact h
          refine ⟨(j2 - j1) + m', ?_, fun _ => by omega⟩
          simp only [opLines]
          have step1 := insReplay A B (j2 - j1) j1 i2 out cnt
            (((ops'.map (opLines A B)).flatten) ++ rest) (by omega)
          have ej : j1 + (j2 - j1) = j2 := by omega
          rw [ej] at step1
          rw [step1, hm']
          rw [List.append_assoc, seg_append_seg B h4 hj2e]
          congr 1
          omega
      | replace =>
          obtain ⟨m', hm', _⟩ := ih i2 j2 e1 e2 h9 htb'
            (out ++ seg B j1 j2) (cnt + (i2 - i1) + (j2 - j1)) rest
          have hor : i1 < i2 ∨ j1 < j2 := h8 (fun hc => Tag.noConfusion hc)
          refine ⟨(i2 - i1) + (j2 - j1) + m', ?_, fun _ => by omega⟩
          simp only [opLines]
          rw [List.append_assoc]
          have step1 := delReplay A (i2 - i1) i1 out cnt
            ((seg B j1 j2).map (fun l => '+' :: l) ++
              (((ops'.map (opLines A B)).flatten) ++ rest)) (by omega)
          have ei : i1 + (i2 - i1) = i2 := by omega
          rw [ei] at step1
          rw [step1]
          have step2 := insReplay A B (j2 - j1) j1 i2 out (cnt + (i2 - i1))
            (((ops'.map (opLines A B)).flatten) ++ rest) (by omega)
          have ej : j1 + (j2 - j1) = j2 := by omega
          rw [ej] at step2
          rw [step2, hm']
          rw [List.append_assoc, seg_append_seg B h4 hj2e]
          congr 1
          omega

-- ==== the hunk header of a group parses back to its first a-index ====

theorem piece_bounds [Inhabited α] {a b : List α} {L : List Opcode} {i j e1 e2 : Nat}
    (h : PieceOk a b i j L e1 e2) (hne : L ≠ []) : i ≤ a.length ∧ j ≤ b.length := by
  match L, hne with
  | op :: rest, _ =>
      obtain ⟨t, i1, i2, j1, j2⟩ := op
      obtain ⟨h1, h2, h3, h4, h5, h6, _, _, _⟩ := h
      omega

theorem groupHeader_sw {g : List Opcode} (h : g ≠ []) :
    pyStartsWith (groupHeader g) (S "@@") = true := by
  match g, h with
  | first :: grest, _ =>
      rw [groupHeader]
      exact sw_at_header _

theorem groupHeader_target (A B : List Str) {g : List Opcode} {i1 j1 i2 j2 : Nat}
    (hp : PieceOk A B i1 j1 g i2 j2) (hg : g ≠ []) (hz : i2 = i1 → i1 = 0) :
    hunkTarget A.length (groupHeader g) = .ok i1 := by
  match g, hg with
  | op :: grest, _ =>
      obtain ⟨e1h, e2h, e3h, e4h⟩ := piece_ends hp
      have hle : i1 ≤ A.length := (piece_bounds hp (by simp)).1
      have hse : i1 ≤ i2 := (piece_start_le hp).1
      rw [groupHeader]
      rw [e1h, e2h, e3h, e4h]
      exact hunkTarget_groupHeader A.length i1 i2 j1 j2 hle (fun hd => hz (by omega))

theorem applyGo_group_step (A B : List Str) {g : List Opcode} {i1 j1 i2 j2 : Nat}
    (hp : PieceOk A B i1 j1 g i2 j2) (hg : g ≠ []) (hz : i2 = i1 → i1 = 0)
    (rest : List Str) (i : Nat) (out : List Str) (cnt : Nat) (hcnt : cnt ≠ 0)
    (hi : i ≤ i1) :
    applyGo A (groupHeader g :: rest) i out cnt
      = applyGo A rest i1 (out ++ seg A i i1) 0 := by
  rw [applyGo.eq_def]
  simp only []
  rw [if_pos (groupHeader_sw hg)]
  rw [if_neg hcnt]
  have hht := groupHeader_target A B hp hg hz
  split
  · rename_i e he
    rw [hht] at he
    exact Except.noConfusion he
  · rename_i target he
    rw [hht] at he
    have : i1 = target := Except.ok.inj he
    subst this
    rw [if_neg (by omega : ¬ i1 < i)]

-- ==== replaying a full group list ====

theorem groupsReplay (A B : List Str) : ∀ (gs : List (List Opcode)) (i j cnt : Nat),
    GroupsOk A B i j gs → (∀ g ∈ gs, TagBounds g) → cnt ≠ 0 →
    applyGo A ((gs.map (groupLines A B)).flatten) i (seg B 0 j) cnt = .ok B := by
  intro gs
  induction gs with
  | nil =>
      intro i j cnt h _ hcnt
      obtain ⟨h1, h2, h3, hE⟩ := h
      rw [List.map_nil, List.flatten_nil]
      rw [applyGo_nil_ok A i _ hcnt]
      congr 1
      rw [drop_eq_seg]
      have hs := seg_eq_of_eqRange hE (by omega) (by omega)
      have e1 : i + (A.length - i) = A.length := by omega
      have e2 : j + (A.length - i) = B.length := by omega
      rw [e1, e2] at hs
      rw [hs, seg_append_seg B (by omega) (by omega)]
      exact seg_full B
  | cons g gs' ih =>
      intro i j cnt h htb hcnt
      obtain ⟨i1, j1, i2, j2, hii, hjj, hgap, hE, hne, hp, hz, hrest⟩ := h
      rw [List.map_cons, List.flatten_cons, groupLines, List.cons_append]
      rw [applyGo_group_step A B hp hne hz _ i (seg B 0 j) cnt hcnt hii]
      have hb1 : j1 ≤ B.length := (piece_bounds hp hne).2
      have hsg : seg B 0 j ++ seg A i i1 = seg B 0 j1 := by
        have hs := seg_eq_of_eqRange hE (by
            have := (piece_bounds hp hne).1
            omega) (by omega)
        have e1 : i + (i1 - i) = i1 := by omega
        have e2 : j + (i1 - i) = j1 := by omega
        rw [e1, e2] at hs
        rw [hs]
        exact seg_append_seg B (by omega) (by omega)
      rw [hsg]
      obtain ⟨m, hm, hpos⟩ := pieceReplay A B g i1 j1 i2 j2 hp
        (htb g (List.mem_cons_self _ _)) (seg B 0 j1) 0
        ((gs'.map (groupLines A B)).flatten)
      rw [hm]
      have hj12 : j1 ≤ j2 := (piece_start_le hp).2
      rw [seg_append_seg B (by omega) (by omega)]
      exact ih i2 j2 (0 + m) hrest (fun g' hg' => htb g' (List.mem_cons_of_mem _ hg'))
        (by have := hpos hne; omega)

-- ==== master: the difflib-built patch applies back ====

theorem splitKeep_nil : pySplitKeep ([] : Str) = [] := rfl

theorem sw_prefix_dash (x : Str) :
    pyStartsWith (S "--- " ++ x) (S "@@") = false := by
  have e : S "--- " ++ x = '-' :: ('-' :: '-' :: ' ' :: x) := rfl
  rw [e]
  exact sw_at_cons (by decide) _

theorem sw_prefix_plus (x : Str) :
    pyStartsWith (S "+++ " ++ x) (S "@@") = false := by
  have e : S "+++ " ++ x = '+' :: ('+' :: '+' :: ' ' :: x) := rfl
  rw [e]
  exact sw_at_cons (by decide) _

set_option maxHeartbeats 4000000 in
theorem makePatch_roundtrip (path old new : Str)
    (H1 : old = [] ∨ endsBreak old = true) (H2 : breakFree path = true)
    (H3 : new = [] ∨ endsBreak new = true) :
    applyUnifiedDiff old (makePatchFromFulltext path old new) = .ok new ∨
      (makePatchFromFulltext path old new = [] ∧ new = old) := by
  rcases hgs : getGroupedOpcodes (pySplitKeep old) (pySplitKeep new) 3 with _ | ⟨g0, gs0⟩
  · refine Or.inr ⟨by simp [makePatchFromFulltext, unifiedDiffLines, hgs], ?_⟩
    rw [getGroupedOpcodes] at hgs
    rcases Decidable.em (getOpcodes (pySplitKeep old) (pySplitKeep new) = []) with h0 | h0
    · have hch := getOpcodes_chain (pySplitKeep old) (pySplitKeep new)
      rw [h0] at hch
      obtain ⟨hla, hlb⟩ := hch
      have ha : pySplitKeep old = [] := List.length_eq_zero.mp hla.symm
      have hb : pySplitKeep new = [] := List.length_eq_zero.mp hlb.symm
      rw [← pySplitKeep_flatten new, ← pySplitKeep_flatten old, ha, hb]
    · rw [if_neg h0] at hgs
      obtain ⟨hall, _⟩ := groupSplitGo_nil_all_equal _ _ _ _ hgs
      have htags : ∀ t ∈ (getOpcodes (pySplitKeep old) (pySplitKeep new)).map Prod.fst,
          t = Tag.equal := by
        rw [← opTags_trimHead 3, ← opTags_trimTail 3]
        exact tags_of_all_equal hall
      have hops := all_equal_of_tags htags
      obtain ⟨k1, k2, k3, kE⟩ := chain_all_equal
        (getOpcodes_chain (pySplitKeep old) (pySplitKeep new)) hops
      have hAB : pySplitKeep old = pySplitKeep new :=
        list_eq_of_eqRange_full (by omega) (eqRange_congr kE rfl rfl (by omega))
      rw [← pySplitKeep_flatten new, ← pySplitKeep_flatten old, hAB]
  · left
    have hA : ∀ l ∈ pySplitKeep old, properLine l = true := by
      rcases H1 with h | h
      · subst h
        rw [splitKeep_nil]
        intro l hl
        exact absurd hl (List.not_mem_nil l)
      · exact splitKeep_all_proper h
    have hB : ∀ l ∈ pySplitKeep new, properLine l = true := by
      rcases H3 with h | h
      · subst h
        rw [splitKeep_nil]
        intro l hl
        exact absurd hl (List.not_mem_nil l)
      · exact splitKeep_all_proper h
    have hgokA := getGroupedOpcodes_ok (pySplitKeep old) (pySplitKeep new)
    have hgne : ∀ g ∈ getGroupedOpcodes (pySplitKeep old) (pySplitKeep new) 3, g ≠ [] :=
      groupsOk_ne_nil hgokA
    have hprop := unifiedDiff_lines_proper (f := path ++ S " (old)") (t := path ++ S " (new)")
      (breakFree_append H2 (by decide)) (breakFree_append H2 (by decide)) hA hB hgne
    have hsplit : pySplitKeep (makePatchFromFulltext path old new)
        = unifiedDiffLines (path ++ S " (old)") (path ++ S " (new)")
          (pySplitKeep old) (pySplitKeep new) := by
      rw [makePatchFromFulltext]
      exact splitKeep_flatten_exact _
        (properChain_all_proper (fun l hl => (hprop l hl).1))
        (fun l hl => (hprop l hl).2)
    rw [applyUnifiedDiff]
    rw [hsplit]
    rw [unifiedDiffLines, hgs]
    rw [List.dropWhile_cons_of_pos (by simp [sw_prefix_dash])]
    rw [List.dropWhile_cons_of_pos (by simp [sw_prefix_plus])]
    rw [List.map_cons, List.flatten_cons, groupLines, List.cons_append]
    rw [List.dropWhile_cons_of_neg (by simp [groupHeader_sw (hgne g0 (hgs ▸ List.mem_cons_self _ _))])]
    rw [hgs] at hgokA
    obtain ⟨i1, j1, i2, j2, hii, hjj, hgap, hE, hne, hp, hz, hrest⟩ := hgokA
    have hht := groupHeader_target (pySplitKeep old) (pySplitKeep new) hp hne hz
    split
    · rename_i he
      exact absurd he (by simp)
    · rename_i header rest0 he
      obtain ⟨hh1, hh2⟩ := List.cons.inj he
      subst hh1
      subst hh2
      split
      · rename_i e he2
        rw [hht] at he2
        exact Except.noConfusion he2
      · rename_i target he2
        rw [hht] at he2
        have : i1 = target := Except.ok.inj he2
        subst this
        have hb1 : j1 ≤ (pySplitKeep new).length := (piece_bounds hp hne).2
        have hsg : seg (pySplitKeep old) 0 i1 = seg (pySplitKeep new) 0 j1 := by
          have hs := seg_eq_of_eqRange hE (by
              have := (piece_bounds hp hne).1
              omega) (by omega)
          simp only [Nat.zero_add, Nat.sub_zero] at hs hgap ⊢
          rw [← hgap]
          exact hs
        rw [hsg]
        obtain ⟨m, hm, hpos⟩ := pieceReplay (pySplitKeep old) (pySplitKeep new) g0 i1 j1 i2 j2
          hp (getGroupedOpcodes_tagBounds _ _ g0 (hgs ▸ List.mem_cons_self _ _))
          (seg (pySplitKeep new) 0 j1) 0 ((gs0.map (groupLines (pySplitKeep old) (pySplitKeep new))).flatten)
        rw [hm]
        have hj12 : j1 ≤ j2 := (piece_start_le hp).2
        rw [seg_append_seg (pySplitKeep new) (by omega) (by omega)]
        rw [groupsReplay (pySplitKeep old) (pySplitKeep new) gs0 i2 j2 (0 + m) hrest
          (fun g' hg' => getGroupedOpcodes_tagBounds _ _ g' (hgs ▸ List.mem_cons_of_mem _ hg'))
          (by have := hpos hne; omega)]
        rw [show (Except.ok (pySplitKeep new) : Except PatchError (List Str)).map
            (fun out => out.flatten) = Except.ok ((pySplitKeep new).flatten) from rfl]
        rw [pySplitKeep_flatten]

theorem applyUnifiedDiff_empty (old : Str) :
    applyUnifiedDiff old [] = .error PatchError.noHunks := rfl

/-- **C1, amended.**  For every run of the edit driver (`edit_plan`,
including the full-replace fallback) that answers `ok:true` with patch
`p` and validated content `n`, provided the original file `old` is
empty or ends with a line break, the target path contains no line-break
characters, and the validated content `n` is empty or ends with a line
break: applying `p` to `old` with the diff applier yields exactly `n` —
except in the one case where `p` is the empty patch, which happens only
when `n` is byte-for-byte equal to `old`, and then the applier rejects
the empty patch with the no-hunks error instead of returning `old`. -/
theorem c1_amended (o : Str → Bool) (path instr : Str) (fe : Bool)
    (old : Str) (responses : List Str) (f p d n : Str)
    (H1 : old = [] ∨ endsBreak old = true) (H2 : breakFree path = true)
    (H3 : n = [] ∨ endsBreak n = true)
    (h : editPlan o path instr fe old responses = .ok f p d n) :
    applyUnifiedDiff old p = .ok n ∨
      (p = [] ∧ n = old ∧ applyUnifiedDiff old p = .error PatchError.noHunks) := by
  rcases editPlan_ok_src o path instr fe old responses f p d n h with hap | hmk
  · exact Or.inl hap
  · rcases makePatch_roundtrip path old n H1 H2 H3 with hok | ⟨hemp, hno⟩
    · rw [hmk]
      exact Or.inl hok
    · refine Or.inr ⟨by rw [hmk, hemp], hno, ?_⟩
      rw [hmk, hemp]
      exact applyUnifiedDiff_empty old

/-- C1 witness: a concrete full-replace run (`old = "a\n"`, model
content `"b\n"`, instruction carrying the `replace` keyword so the
anti-rewrite guard stands down) on which the amended theorem applies
and the rebuilt patch round-trips. -/
theorem c1_amended_witness :
    applyUnifiedDiff (S "a\n")
        (makePatchFromFulltext (S "f.txt") (S "a\n") (S "b\n")) = .ok (S "b\n") ∨
      (makePatchFromFulltext (S "f.txt") (S "a\n") (S "b\n") = [] ∧
        S "b\n" = S "a\n" ∧
        applyUnifiedDiff (S "a\n") (makePatchFromFulltext (S "f.txt") (S "a\n") (S "b\n"))
          = .error PatchError.noHunks) :=
  c1_amended (fun _ => true) (S "f.txt") (S "replace it") true (S "a\n")
    [S "x", S "\x7b\"content\": \"b\\n\"\x7d"] (S "f.txt")
    (makePatchFromFulltext (S "f.txt") (S "a\n") (S "b\n"))
    (ensureDisplayDiff (S "f.txt") (makePatchFromFulltext (S "f.txt") (S "a\n") (S "b\n")))
    (S "b\n") (by decide) (by decide) (by decide) (by decide)
